import Mathlib

/-! LDAP URL parsing: `libraries/libldap/url.c`

A shallow embedding of the URL routines of libldap and a verification of
their described behaviour.

Conventions of the embedding:

* A C `char` is a `Char` whose code is the byte; a C string is a `List Char`
  that holds no `NUL`.  Where the C code works on a heap copy, the copy is a
  `List Char` that holds its terminator too, and a `char *` into it is a
  `Nat` index.
* `ldap_url_parse` edits its working copy in place.  The embedding does the
  same: `List.set` for a store, `peek`/`cstr`/`strchr` for loads.
* A load outside the working copy, and `atoi` on a numeral that does not fit
  an `int`, have no defined result in C.  The embedding reports them as
  `undefined` instead of inventing one.  The same holds for an exit that frees
  a block twice.
* Allocation (`LDAP_STRDUP`, `LDAP_CALLOC`, `LDAP_MALLOC`) always succeeds in
  the embedding, so the `LDAP_URL_ERR_MEM` exits are not modelled.
* `int` is 32 bits wide.
-/

set_option autoImplicit false

namespace LdapUrl

/-! ## Bytes and the C library -/

/-- The byte that ends a C string. -/
def NUL : Char := Char.ofNat 0

/-- Largest value of a C `int`. -/
def INT_MAX : Int := 2147483647

/-- Smallest value of a C `int`. -/
def INT_MIN : Int := -2147483648

/-- The bytes of `mem` up to, not including, the first `NUL`: the C string
that starts where `mem` starts. -/
def strOf : List Char → List Char
  | [] => []
  | c :: cs => if c = NUL then [] else c :: strOf cs

/-- The C string that starts at index `i` of the buffer `buf`. -/
def cstr (buf : List Char) (i : Nat) : List Char := strOf (buf.drop i)

/-- The byte at index `i` of the buffer (`*p` for a pointer inside it). -/
def peek (buf : List Char) (i : Nat) : Char := (buf[i]?).getD NUL

/-- Offset of the first `c` in the C string at the start of `mem`, as the C
library `strchr` finds it (the byte is compared before the terminator test). -/
def strchrFrom (c : Char) : List Char → Option Nat
  | [] => none
  | x :: xs =>
    if x = c then some 0
    else if x = NUL then none
    else (strchrFrom c xs).map (fun k => k + 1)

/-- C library `strchr(buf + i, c)`, as an index into `buf`; `none` is `NULL`. -/
def strchr (buf : List Char) (i : Nat) (c : Char) : Option Nat :=
  (strchrFrom c (buf.drop i)).map (fun k => i + k)

/-- C library `tolower` in the C locale. -/
def tolower (c : Char) : Char :=
  if 65 ≤ c.toNat ∧ c.toNat ≤ 90 then Char.ofNat (c.toNat + 32) else c

/-- Whether C library `strcasecmp(a, b)` returns `0`. -/
def strcasecmp_eq (a b : List Char) : Bool :=
  (strOf a).map tolower = (strOf b).map tolower

/-- Whether C library `strncasecmp(a, b, n)` returns `0`. -/
def strncasecmp_eq (a b : List Char) (n : Nat) : Bool :=
  ((strOf a).take n).map tolower = ((strOf b).take n).map tolower

/-- C library `isspace` in the C locale. -/
def isspace (c : Char) : Bool :=
  c.toNat = 32 ∨ (9 ≤ c.toNat ∧ c.toNat ≤ 13)

/-- C library `isdigit`. -/
def isdigit (c : Char) : Bool :=
  48 ≤ c.toNat ∧ c.toNat ≤ 57

/-- The digit loop of `atoi`: the value of the leading decimal digits of
`s`, continuing from `acc`. -/
def atoi_digits : Nat → List Char → Nat
  | acc, [] => acc
  | acc, c :: cs =>
    if isdigit c then atoi_digits (acc * 10 + (c.toNat - 48)) cs else acc

/-- The sign step of `atoi`: an optional `+` or `-`, then the digits. -/
def atoi_signed : List Char → Int
  | [] => 0
  | c :: cs =>
    if c = '-' then - (atoi_digits 0 cs : Int)
    else if c = '+' then (atoi_digits 0 cs : Int)
    else (atoi_digits 0 (c :: cs) : Int)

/-- C library `atoi`: leading white space, an optional sign, decimal digits;
text without digits gives `0`.  `none` when the value does not fit an `int`,
for which C defines no result. -/
def atoi (s : List Char) : Option Int :=
  let v := atoi_signed (s.dropWhile isspace)
  if INT_MIN ≤ v ∧ v ≤ INT_MAX then some v else none

/-- The decimal digits of `n`, most significant first (`fuel` bounds the
number of digits). -/
def natDigits : Nat → Nat → List Char
  | 0, _ => []
  | fuel + 1, n =>
    if n < 10 then [Char.ofNat (48 + n)]
    else natDigits fuel (n / 10) ++ [Char.ofNat (48 + n % 10)]

/-- The decimal numeral of a natural number, without leading zeros. -/
def decimal (n : Nat) : List Char := natDigits (n + 1) n

/-- What C library `sprintf` writes for `%d`. -/
def sprintf_d (n : Int) : List Char :=
  if n < 0 then '-' :: decimal n.natAbs else decimal n.natAbs

/-! ## Constants of `ldap.h` -/

/-- Modelled from the spec: the error codes of `ldap.h`, which is not among
the source files.  The spec lists the error kinds; their names are the ones
`url.c` uses. -/
inductive LDAPURLErr where
  | LDAP_URL_ERR_MEM
  | LDAP_URL_ERR_PARAM
  | LDAP_URL_ERR_BADSCHEME
  | LDAP_URL_ERR_BADENCLOSURE
  | LDAP_URL_ERR_BADURL
  | LDAP_URL_ERR_BADHOST
  | LDAP_URL_ERR_BADATTRS
  | LDAP_URL_ERR_BADSCOPE
  | LDAP_URL_ERR_BADFILTER
  | LDAP_URL_ERR_BADEXTS
  deriving DecidableEq, Repr

open LDAPURLErr

/-- Modelled from the spec: `LDAP_PORT` of `ldap.h` (not among the source
files), the standard port. -/
def LDAP_PORT : Int := 389

/-- Modelled from the spec: `LDAPS_PORT` of `ldap.h` (not among the source
files), the secure port. -/
def LDAPS_PORT : Int := 636

/-- Modelled from the spec: `LDAP_SCOPE_BASE` of `ldap.h` (not among the
source files), the scope `base`. -/
def LDAP_SCOPE_BASE : Int := 0

/-- Modelled from the spec: `LDAP_SCOPE_ONELEVEL` of `ldap.h` (not among the
source files), the scope `one`. -/
def LDAP_SCOPE_ONELEVEL : Int := 1

/-- Modelled from the spec: `LDAP_SCOPE_SUBTREE` of `ldap.h` (not among the
source files), the scope `sub`. -/
def LDAP_SCOPE_SUBTREE : Int := 2

/-- Modelled from the spec: `LDAP_URL_URLCOLON` of `ldap.h` (not among the
source files), the optional `URL:` token. -/
def LDAP_URL_URLCOLON : List Char := "URL:".toList

/-- Modelled from the spec: `LDAP_URL_URLCOLON_LEN` of `ldap.h`, the length
of the `URL:` token. -/
def LDAP_URL_URLCOLON_LEN : Nat := 4

/-- Modelled from the spec: `LDAP_URL_PREFIX` of `ldap.h` (not among the
source files). -/
def LDAP_URL_PREFIX : List Char := "ldap://".toList

/-- Modelled from the spec: `LDAP_URL_PREFIX_LEN` of `ldap.h`. -/
def LDAP_URL_PREFIX_LEN : Nat := 7

/-- Modelled from the spec: `LDAPS_URL_PREFIX` of `ldap.h` (not among the
source files). -/
def LDAPS_URL_PREFIX : List Char := "ldaps://".toList

/-- Modelled from the spec: `LDAPS_URL_PREFIX_LEN` of `ldap.h`. -/
def LDAPS_URL_PREFIX_LEN : Nat := 8

/-- Modelled from the spec: `LDAPI_URL_PREFIX` of `ldap.h` (not among the
source files). -/
def LDAPI_URL_PREFIX : List Char := "ldapi://".toList

/-- Modelled from the spec: `LDAPI_URL_PREFIX_LEN` of `ldap.h`. -/
def LDAPI_URL_PREFIX_LEN : Nat := 8

/-! ## `charray.c` -/

/-- The token loop of `ldap_str2charray`: `cur` is the token being read. -/
def str2charray_loop (brkstr : List Char) : List Char → List Char → List (List Char)
  | [], cur => if cur = [] then [] else [cur]
  | c :: cs, cur =>
    if c ∈ brkstr then
      (if cur = [] then str2charray_loop brkstr cs []
       else cur :: str2charray_loop brkstr cs [])
    else str2charray_loop brkstr cs (cur ++ [c])

/-- Modelled from the spec: `ldap_str2charray` of `charray.c`, which is not
among the source files.  The spec has it split a text on the break
characters into its entries, possibly zero of them: the entries are the
maximal non-empty runs of characters that are not break characters. -/
def ldap_str2charray (str : List Char) (brkstr : List Char) : List (List Char) :=
  str2charray_loop brkstr (strOf str) []

/-! ## Percent escapes (`url.c`, lines 950 to 982) -/

/-- `ldap_pvt_unhex`: the value of a hexadecimal digit; other characters go
through the last branch unchecked. -/
def ldap_pvt_unhex (c : Int) : Int :=
  if 48 ≤ c ∧ c ≤ 57 then c - 48
  else if 65 ≤ c ∧ c ≤ 70 then c - 65 + 10
  else c - 97 + 10

/-- Storing an `int` into a `char`: the value modulo 256. -/
def toByte (x : Int) : Char := Char.ofNat (x % 256).toNat

/-- The loop of `ldap_pvt_hex_unescape` on the buffer `buf`, with read index
`s` and write index `p`.  Every load through `s` is checked against the end
of the buffer: `none` is a load outside it.  The loop moves `s` forward in
every round, so `fuel` above the buffer length never runs out. -/
def hex_unescape_loop : Nat → List Char → Nat → Nat → Option (List Char)
  | 0, _, _, _ => none
  | fuel + 1, buf, s, p =>
    match buf[s]? with
    | none => none
    | some c =>
      if c = NUL then some (buf.set p NUL)            -- *p = '\0'
      else if c = '%' then
        match buf[s + 1]? with                         -- *++s
        | none => none
        | some c1 =>
          let buf1 := if c1 ≠ NUL then buf.set p (toByte (ldap_pvt_unhex c1.toNat * 16)) else buf
          match buf1[s + 2]? with                      -- *++s
          | none => none
          | some c2 =>
            if c2 ≠ NUL then
              hex_unescape_loop fuel
                (buf1.set p (toByte ((peek buf1 p).toNat + ldap_pvt_unhex c2.toNat)))
                (s + 3) (p + 1)
            else hex_unescape_loop fuel buf1 (s + 3) p
      else hex_unescape_loop fuel (buf.set p c) (s + 1) (p + 1)

/-- `ldap_pvt_hex_unescape(buf + s)`: removes the percent escapes of the C
string at index `s`, in place.  The result is the buffer afterwards; `none`
when the scan loads a byte outside the buffer. -/
def ldap_pvt_hex_unescape (buf : List Char) (s : Nat) : Option (List Char) :=
  hex_unescape_loop (buf.length + 1) buf s s

/-- `ldap_pvt_hex_unescape` on a string that has a buffer of its own, of
exactly its size (an entry of a `ldap_str2charray` result). -/
def hex_unescape_entry (s : List Char) : Option (List Char) :=
  (ldap_pvt_hex_unescape (s ++ [NUL]) 0).map (fun b => cstr b 0)

/-- The loop `for (i = 0; exts[i] != NULL; i++) ldap_pvt_hex_unescape(exts[i])`. -/
def hex_unescape_entries : List (List Char) → Option (List (List Char))
  | [] => some []
  | e :: es =>
    match hex_unescape_entry e with
    | none => none
    | some e1 =>
      match hex_unescape_entries es with
      | none => none
      | some es1 => some (e1 :: es1)

/-! ## The descriptor -/

/-- `LDAPURLDesc` of `ldap.h`: one parsed URL.  A pointer field is an `Option`
(`none` is `NULL`); `lud_next` is not a field, a list of descriptors is a
`List`. -/
structure LDAPURLDesc where
  lud_scheme : Option (List Char)
  lud_host : Option (List Char)
  lud_port : Int
  lud_dn : Option (List Char)
  lud_attrs : Option (List (List Char))
  lud_scope : Int
  lud_filter : Option (List Char)
  lud_exts : Option (List (List Char))
  deriving DecidableEq, Repr

/-- What a call of `ldap_url_parse` does: it stores a descriptor through
`ludpp` and returns `LDAP_URL_SUCCESS`, or it stores `NULL` and returns an
error code, or its behaviour is not defined by C. -/
inductive ParseResult where
  | undefined
  | error (rc : LDAPURLErr)
  | success (ludp : LDAPURLDesc)
  deriving DecidableEq, Repr

/-! ## `skip_url_prefix` and `str2scope` (`url.c`, lines 129 to 208) -/

/-- `skip_url_prefix`: the text after the scheme prefix, whether a leading
`<` was skipped, and the scheme; `none` is `NULL`. -/
def skip_url_prefix (url : Option (List Char)) : Option (List Char × Bool × List Char) :=
  match url with
  | none => none
  | some url =>
    -- skip leading '<' (if any)
    let enclosed : Bool := decide (peek url 0 = '<')
    let p := if enclosed then url.drop 1 else url
    -- skip leading "URL:" (if any)
    let p := if strncasecmp_eq p LDAP_URL_URLCOLON LDAP_URL_URLCOLON_LEN
             then p.drop LDAP_URL_URLCOLON_LEN else p
    if strncasecmp_eq p LDAP_URL_PREFIX LDAP_URL_PREFIX_LEN then
      some (p.drop LDAP_URL_PREFIX_LEN, enclosed, "ldap".toList)
    else if strncasecmp_eq p LDAPS_URL_PREFIX LDAPS_URL_PREFIX_LEN then
      some (p.drop LDAPS_URL_PREFIX_LEN, enclosed, "ldaps".toList)
    else if strncasecmp_eq p LDAPI_URL_PREFIX LDAPI_URL_PREFIX_LEN then
      some (p.drop LDAPI_URL_PREFIX_LEN, enclosed, "ldapi".toList)
    else none

/-- `str2scope`: the scope a keyword names, `-1` for any other text. -/
def str2scope (p : List Char) : Int :=
  if strcasecmp_eq p "one".toList then LDAP_SCOPE_ONELEVEL
  else if strcasecmp_eq p "onetree".toList then LDAP_SCOPE_ONELEVEL
  else if strcasecmp_eq p "base".toList then LDAP_SCOPE_BASE
  else if strcasecmp_eq p "sub".toList then LDAP_SCOPE_SUBTREE
  else if strcasecmp_eq p "subtree".toList then LDAP_SCOPE_SUBTREE
  else -1

/-! ## `ldap_url_parse` (`url.c`, lines 211 to 534)

The function is one long body; the embedding cuts it at the places where the
C code starts on the next field.  `buf` is the working copy `url`, and `p`,
`q` are indices into it. -/

/-- The idiom `q = strchr( p, '?' ); if( q != NULL ) *q++ = '\0';`: the
buffer afterwards and the new `q`. -/
def split_field (buf : List Char) (p : Nat) : List Char × Option Nat :=
  match strchr buf p '?' with
  | some i => (buf.set i NUL, some (i + 1))
  | none => (buf, none)

/-- Lines 498 to 534: the extensions.  With no entry (`i == 0`, line 522) the
code is on its way to `LDAP_URL_ERR_BADEXTS`, but it frees the array twice:
`ldap_charray_free( ludp->lud_exts )` on line 524 leaves the pointer in the
descriptor, and `ldap_free_urldesc( ludp )` on line 526 frees `lud_exts`
again (lines 864 to 866).  C defines no result for that exit. -/
def parse_exts (buf : List Char) (p : Nat) (ludp : LDAPURLDesc) : ParseResult :=
  match strchr buf p '?' with
  | some _ => .error LDAP_URL_ERR_BADURL                -- extra '?'
  | none =>
    let exts := ldap_str2charray (cstr buf p) [',']
    match hex_unescape_entries exts with
    | none => .undefined
    | some exts1 =>
      if exts1.length = 0 then .undefined                -- must have 1 or more: freed twice
      else .success { ludp with lud_exts := some exts1 }

/-- Lines 461 to 496: the filter. -/
def parse_filter (buf : List Char) (p : Nat) (ludp : LDAPURLDesc) : ParseResult :=
  match split_field buf p with
  | (buf, q) =>
    if peek buf p ≠ NUL then
      match ldap_pvt_hex_unescape buf p with
      | none => .undefined
      | some buf =>
        if peek buf p = NUL then .error LDAP_URL_ERR_BADFILTER   -- missing filter
        else
          let ludp := { ludp with lud_filter := some (cstr buf p) }
          match q with
          | none => .success ludp
          | some q => parse_exts buf q ludp
    else
      match q with
      | none => .success ludp
      | some q => parse_exts buf q ludp

/-- Lines 433 to 459: the scope. -/
def parse_scope (buf : List Char) (p : Nat) (ludp : LDAPURLDesc) : ParseResult :=
  match split_field buf p with
  | (buf, q) =>
    if peek buf p ≠ NUL then
      match ldap_pvt_hex_unescape buf p with
      | none => .undefined
      | some buf =>
        let ludp := { ludp with lud_scope := str2scope (cstr buf p) }
        if ludp.lud_scope = -1 then .error LDAP_URL_ERR_BADSCOPE
        else
          match q with
          | none => .success ludp
          | some q => parse_filter buf q ludp
    else
      match q with
      | none => .success ludp
      | some q => parse_filter buf q ludp

/-- Lines 405 to 431: the attributes.  `ldap_str2charray` returns `NULL` only
when allocation fails, so the exit through `LDAP_URL_ERR_BADATTRS` is not
taken. -/
def parse_attrs (buf : List Char) (p : Nat) (ludp : LDAPURLDesc) : ParseResult :=
  match split_field buf p with
  | (buf, q) =>
    if peek buf p ≠ NUL then
      match ldap_pvt_hex_unescape buf p with
      | none => .undefined
      | some buf =>
        let ludp := { ludp with lud_attrs := some (ldap_str2charray (cstr buf p) [',']) }
        match q with
        | none => .success ludp
        | some q => parse_scope buf q ludp
    else
      match q with
      | none => .success ludp
      | some q => parse_scope buf q ludp

/-- Lines 376 to 403: the dn. -/
def parse_dn (buf : List Char) (p : Nat) (ludp : LDAPURLDesc) : ParseResult :=
  match split_field buf p with
  | (buf, q) =>
    if peek buf p ≠ NUL then
      match ldap_pvt_hex_unescape buf p with
      | none => .undefined
      | some buf =>
        let ludp := { ludp with lud_dn := some (cstr buf p) }
        match q with
        | none => .success ludp
        | some q => parse_attrs buf q ludp
    else
      let ludp := { ludp with lud_dn := some [] }
      match q with
      | none => .success ludp
      | some q => parse_attrs buf q ludp

/-- Lines 340 to 374: the malformed referral `ldap://host:port??dn`, taken
when the URL has no `/` (`p == NULL`) and has a port (`q` is the index of the
port text). -/
def parse_kludge (buf : List Char) (q : Option Nat) (ludp : LDAPURLDesc) : ParseResult :=
  match q with
  | none => .success ludp
  | some q =>
    match strchr buf q '?' with
    | none => .success ludp
    | some q =>
      if peek buf (q + 1) = '?' then                   -- ? immediately followed by question
        if peek buf (q + 2) ≠ NUL then
          match ldap_pvt_hex_unescape buf (q + 2) with
          | none => .undefined
          | some buf => .success { ludp with lud_dn := some (cstr buf (q + 2)) }
        else .success { ludp with lud_dn := some [] }
      else .success ludp

/-- Lines 329 to 374: the host, then the rest of the URL.  `p` is the index
after the `/` (`none` when the URL has none), `q` the index of the port
text. -/
def parse_host (buf : List Char) (p q : Option Nat) (ludp : LDAPURLDesc) : ParseResult :=
  match ldap_pvt_hex_unescape buf 0 with
  | none => .undefined
  | some buf =>
    -- If [ip address]:port syntax, url is [ip and we skip the [
    let ludp := { ludp with lud_host := some (cstr buf (if peek buf 0 = '[' then 1 else 0)) }
    match p with
    | none => parse_kludge buf q ludp
    | some p => parse_dn buf p ludp

/-- Lines 316 to 327: the port.  `q` is what `strchr` found for `:`. -/
def parse_port (buf : List Char) (p q : Option Nat) (ludp : LDAPURLDesc) : ParseResult :=
  match q with
  | none => parse_host buf p none ludp
  | some q =>
    let buf := buf.set q NUL                           -- *q++ = '\0'
    match ldap_pvt_hex_unescape buf (q + 1) with
    | none => .undefined
    | some buf =>
      if peek buf (q + 1) = NUL then .error LDAP_URL_ERR_BADURL
      else
        match atoi (cstr buf (q + 1)) with
        | none => .undefined
        | some port => parse_host buf p (some (q + 1)) { ludp with lud_port := port }

/-- Lines 294 to 314: the end of the hostport at `/`, and the bracket form. -/
def parse_hostport (buf : List Char) (ludp : LDAPURLDesc) : ParseResult :=
  -- scan forward for '/' that marks end of hostport and begin. of dn
  match strchr buf 0 '/' with
  | some i =>
    let buf := buf.set i NUL                           -- *p++ = '\0'
    if peek buf 0 = '[' then
      match strchr buf 0 ']' with
      | none => .error LDAP_URL_ERR_BADURL
      | some r =>
        let buf := buf.set r NUL                       -- *r++ = '\0'
        parse_port buf (some (i + 1)) (strchr buf (r + 1) ':') ludp
    else parse_port buf (some (i + 1)) (strchr buf 0 ':') ludp
  | none =>
    if peek buf 0 = '[' then
      match strchr buf 0 ']' with
      | none => .error LDAP_URL_ERR_BADURL
      | some r =>
        let buf := buf.set r NUL
        parse_port buf none (strchr buf (r + 1) ':') ludp
    else parse_port buf none (strchr buf 0 ':') ludp

/-- Lines 265 to 292: the descriptor as allocated, with its defaults, the
scheme, and the port of the scheme. -/
def new_urldesc (scheme : List Char) : LDAPURLDesc :=
  { lud_scheme := some scheme
    lud_host := none
    lud_port := if strcasecmp_eq scheme "ldaps".toList then LDAPS_PORT else LDAP_PORT
    lud_dn := none
    lud_attrs := none
    lud_scope := LDAP_SCOPE_BASE
    lud_filter := none
    lud_exts := none }

/-- Lines 254 to 292: the closing `>` of an enclosed URL, then the new
descriptor.  `url` is the working copy, terminator included. -/
def parse_enclosure (url : List Char) (enclosed : Bool) (scheme : List Char) : ParseResult :=
  if enclosed then
    let n := (cstr url 0).length                       -- strlen(url)
    if n = 0 then .undefined                           -- loads url[-1]
    else if peek url (n - 1) ≠ '>' then .error LDAP_URL_ERR_BADENCLOSURE
    else parse_hostport (url.set (n - 1) NUL) (new_urldesc scheme)
  else parse_hostport url (new_urldesc scheme)

/-- `ldap_url_parse( url_in, ludpp )`.  `url_in = none` is a `NULL` text;
`ludpp = false` is a `NULL` result slot, through which line 238 stores. -/
def ldap_url_parse (url_in : Option (List Char)) (ludpp : Bool) : ParseResult :=
  if url_in = none ∧ ludpp = false then .error LDAP_URL_ERR_PARAM
  else if ludpp = false then .undefined
  else
    match skip_url_prefix url_in with
    | none => .error LDAP_URL_ERR_BADSCHEME
    | some (url_tmp, enclosed, scheme) =>
      -- make working copy of the remainder of the URL
      parse_enclosure (strOf url_tmp ++ [NUL]) enclosed scheme

/-! ## Lists of URLs (`url.c`, lines 631 to 663 and 781 to 824) -/

/-- Modelled from the spec: the result codes of `ldap.h` (not among the
source files) that the list routines return: their own two, or the code
`ldap_url_parse` gave. -/
inductive LDAPErr where
  | LDAP_PARAM_ERROR
  | LDAP_NO_MEMORY
  | url (rc : LDAPURLErr)
  deriving DecidableEq, Repr

/-- What a list routine does: the list it leaves in `*ludlist` and the code
it returns (`success` is `LDAP_SUCCESS`), unless C does not define it. -/
inductive ListResult where
  | undefined
  | error (rc : LDAPErr) (ludlist : List LDAPURLDesc)
  | success (ludlist : List LDAPURLDesc)
  deriving DecidableEq, Repr

/-- The loop `while (--i >= 0)` of `ldap_url_parselist`: `urls` are the
tokens still to parse, last one first, and `ludlist` is `*ludlist`. -/
def parselist_loop : List (List Char) → List LDAPURLDesc → ListResult
  | [], ludlist => .success ludlist
  | u :: urls, ludlist =>
    match ldap_url_parse (some u) true with
    | .undefined => .undefined
    | .error rc => .error (.url rc) []
    | .success ludp => parselist_loop urls (ludp :: ludlist)

/-- `ldap_url_parselist( ludlist, url )`. -/
def ldap_url_parselist (url : Option (List Char)) : ListResult :=
  match url with
  | none => .error .LDAP_PARAM_ERROR []
  | some url => parselist_loop (ldap_str2charray url [',', ' ']).reverse []

/-- What a routine that returns a `char *` does. -/
inductive StrResult where
  | undefined
  | null
  | str (s : List Char)
  deriving DecidableEq, Repr

/-- The second loop of `ldap_url_list2urls`: the text of every node, each
followed by `/` and a space.  `none` when a node has no scheme or no host
(the C code passes them to `strlen`). -/
def list2urls_loop : List LDAPURLDesc → Option (List Char)
  | [] => some []
  | ludp :: rest =>
    match ludp.lud_scheme, ludp.lud_host, list2urls_loop rest with
    | some scheme, some host, some s =>
      some (scheme ++ "://".toList
        ++ (if ':' ∈ host then '[' :: host ++ [']'] else host)
        ++ (if ludp.lud_port ≠ 0 then ':' :: sprintf_d ludp.lud_port else [])
        ++ '/' :: ' ' :: s)
    | _, _, _ => none

/-- `ldap_url_list2urls( ludlist )`: the nodes as `scheme://host:port/`,
separated by spaces; the space after the last one is removed. -/
def ldap_url_list2urls (ludlist : List LDAPURLDesc) : StrResult :=
  if ludlist = [] then .null
  else
    match list2urls_loop ludlist with
    | none => .undefined
    | some s => .str s.dropLast

/-! ## `ldap_url_parsehosts` (`url.c`, lines 665 to 738) -/

/-- What one round of the loop of `ldap_url_parsehosts` does with one token:
it builds a descriptor, or it leaves the function with `LDAP_PARAM_ERROR`
(lines 711 and 715), or its behaviour is not defined by C. -/
inductive HostResult where
  | undefined
  | param_error
  | ok (ludp : LDAPURLDesc)
  deriving DecidableEq, Repr

/-- Lines 728 to 729: the host is unescaped and the scheme is set.  The other
fields are as `LDAP_CALLOC` left them: zero, that is `NULL` and scope 0. -/
def parsehosts_finish (host : List Char) (port : Int) : HostResult :=
  match ldap_pvt_hex_unescape host 0 with
  | none => .undefined
  | some host =>
    .ok { lud_scheme := some "ldap".toList
          lud_host := some (cstr host 0)
          lud_port := port
          lud_dn := none
          lud_attrs := none
          lud_scope := 0
          lud_filter := none
          lud_exts := none }

/-- Lines 722 to 727: `*p++ = 0`, then the port text is unescaped and given
to `atoi`. -/
def parsehosts_port (host : List Char) (p : Nat) : HostResult :=
  let host := host.set p NUL
  match ldap_pvt_hex_unescape host (p + 1) with
  | none => .undefined
  | some host =>
    match atoi (cstr host (p + 1)) with
    | none => .undefined
    | some port => parsehosts_finish host port

/-- Lines 689 to 729: one round of the loop, for the token `spec` (a string
with a buffer of its own, of exactly its size) and the default `port`. -/
def parsehosts_spec (spec : List Char) (port : Int) : HostResult :=
  let host := spec ++ [NUL]
  match strchr host 0 ':' with
  | none => parsehosts_finish host port
  | some p =>
    match strchr host (p + 1) ':' with
    | some _ =>
      -- more than one :, IPv6 address
      if peek host 0 = '[' then
        -- allow [address] and [address]:port
        let host := cstr host 1 ++ [NUL]               -- LDAP_STRDUP(ludp->lud_host+1)
        match strchr host 0 ']' with
        | none => .param_error
        | some r =>
          let host := host.set r NUL                   -- *p++ = '\0'
          if peek host (r + 1) ≠ ':' then
            if peek host (r + 1) ≠ NUL then .param_error
            else parsehosts_finish host port
          else parsehosts_port host (r + 1)
      else parsehosts_finish host port
    | none => parsehosts_port host p

/-- The loop `while (--i >= 0)` of `ldap_url_parsehosts`: `specs` are the
tokens still to do, last one first, and `ludlist` is `*ludlist`.  The two
returns of `LDAP_PARAM_ERROR` leave `*ludlist` as it is. -/
def parsehosts_loop : List (List Char) → Int → List LDAPURLDesc → ListResult
  | [], _, ludlist => .success ludlist
  | spec :: specs, port, ludlist =>
    match parsehosts_spec spec port with
    | .undefined => .undefined
    | .param_error => .error .LDAP_PARAM_ERROR ludlist
    | .ok ludp => parsehosts_loop specs port (ludp :: ludlist)

/-- `ldap_url_parsehosts( ludlist, hosts, port )`. -/
def ldap_url_parsehosts (hosts : Option (List Char)) (port : Int) : ListResult :=
  match hosts with
  | none => .error .LDAP_PARAM_ERROR []
  | some hosts => parsehosts_loop (ldap_str2charray hosts [',', ' ']).reverse port []

/-! ## `ldap_url_list2hosts` (`url.c`, lines 740 to 779) -/

/-- The second loop of `ldap_url_list2hosts`: the text of every node, `host`
or `[host]`, then `:port` when the port is not zero, each followed by a
space.  `none` when a node has no host (the C code passes it to `strlen`). -/
def list2hosts_loop : List LDAPURLDesc → Option (List Char)
  | [] => some []
  | ludp :: rest =>
    match ludp.lud_host, list2hosts_loop rest with
    | some host, some s =>
      some ((if ':' ∈ host then '[' :: host ++ [']'] else host)
        ++ (if ludp.lud_port ≠ 0 then ':' :: sprintf_d ludp.lud_port else [])
        ++ ' ' :: s)
    | _, _ => none

/-- `ldap_url_list2hosts( ludlist )`: the nodes as `host:port`, separated by
spaces; the space after the last one is removed. -/
def ldap_url_list2hosts (ludlist : List LDAPURLDesc) : StrResult :=
  if ludlist = [] then .null
  else
    match list2hosts_loop ludlist with
    | none => .undefined
    | some s => .str s.dropLast

/-! ## Definitions used to state the properties -/

/-- The text `a1,a2,...,an`: the entries with `sep` between them. -/
def joinWith (sep : Char) : List (List Char) → List Char
  | [] => []
  | [a] => a
  | a :: b :: rest => a ++ sep :: joinWith sep (b :: rest)

/-- A decimal numeral: a non-empty text of decimal digits. -/
def isNumeral (p : List Char) : Prop := p ≠ [] ∧ ∀ c ∈ p, isdigit c = true

/-- The number a decimal numeral denotes. -/
def numeralValue (p : List Char) : Nat :=
  p.foldl (fun acc c => 10 * acc + (c.toNat - 48)) 0

/-- Percent-decoding as the spec words it: `%` starts an escape, the two
characters after it give one byte, every other character passes through, and
an escape cut short by the end of the text ends the decoding. -/
def percentDecode : List Char → List Char
  | [] => []
  | c :: rest =>
    if c = '%' then
      match rest with
      | c1 :: c2 :: rest2 =>
        toByte (ldap_pvt_unhex c1.toNat * 16 + ldap_pvt_unhex c2.toNat) :: percentDecode rest2
      | _ => []
    else c :: percentDecode rest

/-- Every `%` of the text has two characters after it. -/
def escComplete : List Char → Bool
  | [] => true
  | c :: rest =>
    if c = '%' then
      match rest with
      | _ :: _ :: rest2 => escComplete rest2
      | _ => false
    else escComplete rest

/-- The value of a hexadecimal digit, in either letter case. -/
def hexValue (c : Char) : Option Nat :=
  if 48 ≤ c.toNat ∧ c.toNat ≤ 57 then some (c.toNat - 48)
  else if 65 ≤ c.toNat ∧ c.toNat ≤ 70 then some (c.toNat - 55)
  else if 97 ≤ c.toNat ∧ c.toNat ≤ 102 then some (c.toNat - 87)
  else none

/-- Every `%` of the text is followed by two hexadecimal digits that encode
a byte other than zero. -/
def hexEscaped : List Char → Bool
  | [] => true
  | c :: rest =>
    if c = '%' then
      match rest with
      | x :: y :: rest2 =>
        match hexValue x, hexValue y with
        | some a, some b => decide (16 * a + b ≠ 0) && hexEscaped rest2
        | _, _ => false
      | _ => false
    else hexEscaped rest

/-- The text with each `%XY` replaced by the byte `16 * value(X) + value(Y)`
and every other character left as it is. -/
def replaceEscapes : List Char → List Char
  | [] => []
  | c :: rest =>
    if c = '%' then
      match rest with
      | x :: y :: rest2 =>
        Char.ofNat (16 * (hexValue x).getD 0 + (hexValue y).getD 0) :: replaceEscapes rest2
      | _ => []
    else c :: replaceEscapes rest

/-- The four forms of a token of a host list: `h`, `h:p`, `[a]`, `[a]:p`. -/
inductive HostSpec where
  | plain (h : List Char)
  | withPort (h p : List Char)
  | bracket (a : List Char)
  | bracketPort (a p : List Char)

/-- The text of a token. -/
def HostSpec.text : HostSpec → List Char
  | .plain h => h
  | .withPort h p => h ++ ':' :: p
  | .bracket a => '[' :: a ++ [']']
  | .bracketPort a p => '[' :: a ++ ']' :: ':' :: p

/-- What the forms require: `h` without `:`, `[`, `]`, `%`; `a` with at least
two `:` and without `]`, `%`; `p` a decimal numeral whose value fits an
`int`. -/
def HostSpec.wellFormed : HostSpec → Prop
  | .plain h => ∀ c ∈ h, c ∉ [':', '[', ']', '%', NUL]
  | .withPort h p =>
    (∀ c ∈ h, c ∉ [':', '[', ']', '%', NUL]) ∧ isNumeral p ∧ numeralValue p ≤ 2147483647
  | .bracket a => 2 ≤ a.count ':' ∧ ∀ c ∈ a, c ∉ [']', '%', NUL]
  | .bracketPort a p =>
    (2 ≤ a.count ':' ∧ ∀ c ∈ a, c ∉ [']', '%', NUL]) ∧ isNumeral p
      ∧ numeralValue p ≤ 2147483647

/-- The descriptor a token stands for, with `d` the default port. -/
def HostSpec.desc (d : Int) : HostSpec → LDAPURLDesc
  | .plain h =>
    { lud_scheme := some "ldap".toList, lud_host := some h, lud_port := d, lud_dn := none,
      lud_attrs := none, lud_scope := LDAP_SCOPE_BASE, lud_filter := none, lud_exts := none }
  | .withPort h p =>
    { lud_scheme := some "ldap".toList, lud_host := some h, lud_port := (numeralValue p : Int),
      lud_dn := none, lud_attrs := none, lud_scope := LDAP_SCOPE_BASE, lud_filter := none,
      lud_exts := none }
  | .bracket a =>
    { lud_scheme := some "ldap".toList, lud_host := some a, lud_port := d, lud_dn := none,
      lud_attrs := none, lud_scope := LDAP_SCOPE_BASE, lud_filter := none, lud_exts := none }
  | .bracketPort a p =>
    { lud_scheme := some "ldap".toList, lud_host := some a, lud_port := (numeralValue p : Int),
      lud_dn := none, lud_attrs := none, lud_scope := LDAP_SCOPE_BASE, lud_filter := none,
      lud_exts := none }

/-- The scope a lower-case keyword names, by the table of the spec: `base`;
`one` or `onetree`; `sub` or `subtree`.  `none` for any other text. -/
def scopeOfKeyword (k : List Char) : Option Int :=
  if k = "base".toList then some LDAP_SCOPE_BASE
  else if k = "one".toList ∨ k = "onetree".toList then some LDAP_SCOPE_ONELEVEL
  else if k = "sub".toList ∨ k = "subtree".toList then some LDAP_SCOPE_SUBTREE
  else none

/-- The hostport token of a URL: the text behind the scheme prefix up to the
first `/`; `none` when the URL has no scheme prefix. -/
def hostportOf (url : List Char) : Option (List Char) :=
  match skip_url_prefix (some url) with
  | none => none
  | some (rest, _, _) => some ((strOf rest).takeWhile (fun c => c ≠ '/'))

/-- The text `ldap_url_list2hosts` writes for a node with host `h` and the
port `n`, not zero: `h:n`, or `[h]:n` when `h` holds a `:`. -/
def hostToken (h : List Char) (n : Nat) : List Char :=
  (if ':' ∈ h then '[' :: h ++ [']'] else h) ++ ':' :: decimal n

/-- The descriptor `ldap_url_parsehosts` builds for the host `h` and the
port `n`. -/
def hostDesc (h : List Char) (n : Nat) : LDAPURLDesc :=
  { lud_scheme := some "ldap".toList, lud_host := some h, lud_port := (n : Int),
    lud_dn := none, lud_attrs := none, lud_scope := LDAP_SCOPE_BASE, lud_filter := none,
    lud_exts := none }

/-! ## Loads and stores at a known place of the buffer -/

theorem getElem?_at (pre : List Char) (c : Char) (rest : List Char) (i : Nat)
    (hi : i = pre.length) : (pre ++ c :: rest)[i]? = some c := by
  subst hi
  rw [List.getElem?_append_right (Nat.le_refl _)]
  simp

theorem peek_at (pre : List Char) (c : Char) (rest : List Char) (i : Nat)
    (hi : i = pre.length) : peek (pre ++ c :: rest) i = c := by
  simp [peek, getElem?_at pre c rest i hi]

theorem set_at (pre : List Char) (c x : Char) (rest : List Char) (i : Nat)
    (hi : i = pre.length) : (pre ++ c :: rest).set i x = pre ++ x :: rest := by
  subst hi
  simp

theorem strOf_append_NUL (t rest : List Char) (h0 : NUL ∉ t) :
    strOf (t ++ NUL :: rest) = t := by
  induction t with
  | nil => simp [strOf]
  | cons c t ih =>
    have hc : c ≠ NUL := fun h => h0 (by simp [h])
    have ht : NUL ∉ t := fun h => h0 (by simp [h])
    simp [strOf, hc, ih ht]

theorem strOf_eq_self (t : List Char) (h0 : NUL ∉ t) : strOf t = t := by
  induction t with
  | nil => simp [strOf]
  | cons c t ih =>
    have hc : c ≠ NUL := fun h => h0 (by simp [h])
    have ht : NUL ∉ t := fun h => h0 (by simp [h])
    simp [strOf, hc, ih ht]

theorem cstr_at (pre t rest : List Char) (i : Nat) (hi : i = pre.length) (h0 : NUL ∉ t) :
    cstr (pre ++ t ++ NUL :: rest) i = t := by
  subst hi
  simp [cstr, strOf_append_NUL t rest h0]

theorem strchrFrom_found (c : Char) (t rest : List Char) (hc : c ∉ t) (h0 : NUL ∉ t) :
    strchrFrom c (t ++ c :: rest) = some t.length := by
  induction t with
  | nil => simp [strchrFrom]
  | cons x t ih =>
    have hx : x ≠ c := fun h => hc (by simp [h])
    have hx0 : x ≠ NUL := fun h => h0 (by simp [h])
    have ht : c ∉ t := fun h => hc (by simp [h])
    have ht0 : NUL ∉ t := fun h => h0 (by simp [h])
    simp [strchrFrom, hx, hx0, ih ht ht0]

theorem strchrFrom_none (c : Char) (t rest : List Char) (hc : c ∉ t) (hne : c ≠ NUL) :
    strchrFrom c (t ++ NUL :: rest) = none := by
  induction t with
  | nil => simp [strchrFrom, Ne.symm hne]
  | cons x t ih =>
    have hx : x ≠ c := fun h => hc (by simp [h])
    have ht : c ∉ t := fun h => hc (by simp [h])
    by_cases hx0 : x = NUL
    · simp [strchrFrom, hx0, Ne.symm hne]
    · simp [strchrFrom, hx, hx0, ih ht]

theorem strchr_found (c : Char) (pre t rest : List Char) (i : Nat) (hi : i = pre.length)
    (hc : c ∉ t) (h0 : NUL ∉ t) :
    strchr (pre ++ t ++ c :: rest) i c = some (i + t.length) := by
  subst hi
  simp [strchr, strchrFrom_found c t rest hc h0]

theorem strchr_none (c : Char) (pre t rest : List Char) (i : Nat) (hi : i = pre.length)
    (hc : c ∉ t) (hne : c ≠ NUL) :
    strchr (pre ++ t ++ NUL :: rest) i c = none := by
  subst hi
  simp [strchr, strchrFrom_none c t rest hc hne]

/-- On a C string without `%` the unescape loop copies every byte onto
itself. -/
theorem hex_unescape_loop_clean (t : List Char) :
    ∀ (pre rest : List Char) (fuel : Nat), '%' ∉ t → NUL ∉ t → t.length < fuel →
      hex_unescape_loop fuel (pre ++ t ++ NUL :: rest) pre.length pre.length
        = some (pre ++ t ++ NUL :: rest) := by
  induction t with
  | nil =>
    intro pre rest fuel _ _ hf
    obtain ⟨f, rfl⟩ : ∃ f, fuel = f + 1 := ⟨fuel - 1, by simp at hf; omega⟩
    simp [hex_unescape_loop, getElem?_at pre NUL rest pre.length rfl]
  | cons c t ih =>
    intro pre rest fuel hp h0 hf
    obtain ⟨f, rfl⟩ : ∃ f, fuel = f + 1 := ⟨fuel - 1, by simp at hf; omega⟩
    have hc : c ≠ '%' := fun h => hp (by simp [h])
    have hc0 : c ≠ NUL := fun h => h0 (by simp [h])
    have ht : '%' ∉ t := fun h => hp (by simp [h])
    have ht0 : NUL ∉ t := fun h => h0 (by simp [h])
    have hbuf : pre ++ (c :: t) ++ NUL :: rest = pre ++ c :: (t ++ NUL :: rest) := by simp
    have hbuf2 : pre ++ c :: (t ++ NUL :: rest) = (pre ++ [c]) ++ t ++ NUL :: rest := by simp
    rw [hbuf]
    unfold hex_unescape_loop
    rw [getElem?_at pre c _ pre.length rfl]
    simp only [hc, hc0, if_false]
    rw [set_at pre c c _ pre.length rfl, hbuf2]
    have := ih (pre ++ [c]) rest f ht ht0 (by simp at hf; omega)
    simpa using this

theorem hex_unescape_clean (pre t rest : List Char) (i : Nat) (hi : i = pre.length)
    (hp : '%' ∉ t) (h0 : NUL ∉ t) :
    ldap_pvt_hex_unescape (pre ++ t ++ NUL :: rest) i = some (pre ++ t ++ NUL :: rest) := by
  subst hi
  unfold ldap_pvt_hex_unescape
  exact hex_unescape_loop_clean t pre rest _ hp h0 (by simp; omega)

/-! ## The fuel of the unescape loop -/

/-- The unescape loop does not depend on its fuel, once the fuel covers the
distance from the read index to the end of the buffer: it stops at a `NUL` or
at a load outside the buffer before the fuel is used up. -/
theorem hex_unescape_loop_fuel (fuel : Nat) :
    ∀ (fuel2 : Nat) (buf : List Char) (s p : Nat),
      buf.length < s + fuel → buf.length < s + fuel2 →
      hex_unescape_loop fuel buf s p = hex_unescape_loop fuel2 buf s p := by
  induction fuel with
  | zero =>
    intro fuel2 buf s p h1 _
    have hs : buf[s]? = none := List.getElem?_eq_none (by omega)
    cases fuel2 with
    | zero => rfl
    | succ f2 => simp [hex_unescape_loop, hs]
  | succ f ih =>
    intro fuel2 buf s p h1 h2
    cases fuel2 with
    | zero =>
      have hs : buf[s]? = none := List.getElem?_eq_none (by omega)
      simp [hex_unescape_loop, hs]
    | succ f2 =>
      unfold hex_unescape_loop
      cases hs : buf[s]? with
      | none => rfl
      | some c =>
        simp only
        by_cases hc0 : c = NUL
        · simp [hc0]
        · simp only [hc0, if_false]
          by_cases hcp : c = '%'
          · simp only [hcp, if_true]
            cases hs1 : buf[s + 1]? with
            | none => rfl
            | some c1 =>
              simp only
              cases hs2 : (if c1 ≠ NUL then buf.set p (toByte (ldap_pvt_unhex c1.toNat * 16))
                  else buf)[s + 2]? with
              | none => rfl
              | some c2 =>
                simp only
                have hlen : (if c1 ≠ NUL then buf.set p (toByte (ldap_pvt_unhex c1.toNat * 16))
                    else buf).length = buf.length := by
                  split <;> simp
                by_cases hc2 : c2 = NUL
                · simp only [hc2, ne_eq, not_true_eq_false, if_false]
                  exact ih f2 _ (s + 3) p (by rw [hlen]; omega) (by rw [hlen]; omega)
                · simp only [hc2, ne_eq, not_false_eq_true, if_true]
                  exact ih f2 _ (s + 3) (p + 1) (by rw [List.length_set, hlen]; omega)
                    (by rw [List.length_set, hlen]; omega)
          · simp only [hcp, if_false]
            exact ih f2 _ (s + 1) (p + 1) (by rw [List.length_set]; omega)
              (by rw [List.length_set]; omega)

/-! ## One field of the URL, free of escapes -/

theorem peek_field (pre t rest : List Char) (i : Nat) (hi : i = pre.length) (h0 : NUL ∉ t) :
    (peek (pre ++ t ++ NUL :: rest) i = NUL) ↔ t = [] := by
  cases t with
  | nil => simp [peek_at pre NUL rest i hi]
  | cons c t =>
    have hc : c ≠ NUL := fun h => h0 (by simp [h])
    have : pre ++ (c :: t) ++ NUL :: rest = pre ++ c :: (t ++ NUL :: rest) := by simp
    rw [this, peek_at pre c _ i hi]
    simp [hc]

theorem split_field_more (pre t rest : List Char) (i : Nat) (hi : i = pre.length)
    (hq : '?' ∉ t) (h0 : NUL ∉ t) :
    split_field (pre ++ t ++ '?' :: rest) i
      = (pre ++ t ++ NUL :: rest, some (pre.length + t.length + 1)) := by
  subst hi
  unfold split_field
  rw [strchr_found '?' pre t rest pre.length rfl hq h0]
  simp only
  rw [set_at (pre ++ t) '?' NUL rest (pre.length + t.length) (by simp)]

theorem split_field_last (pre t rest : List Char) (i : Nat) (hi : i = pre.length)
    (hq : '?' ∉ t) :
    split_field (pre ++ t ++ NUL :: rest) i = (pre ++ t ++ NUL :: rest, none) := by
  unfold split_field
  rw [strchr_none '?' pre t rest i hi hq (by decide)]

theorem parse_dn_step (pre t rest : List Char) (p : Nat) (hp : p = pre.length)
    (hpc : '%' ∉ t) (h0 : NUL ∉ t) (buf : List Char) (q : Option Nat) (ludp : LDAPURLDesc) :
    split_field buf p = (pre ++ t ++ NUL :: rest, q) →
    parse_dn buf p ludp =
      match q with
      | none => .success { ludp with lud_dn := some t }
      | some q => parse_attrs (pre ++ t ++ NUL :: rest) q { ludp with lud_dn := some t } := by
  intro hs
  unfold parse_dn
  rw [hs]
  simp only
  by_cases ht : t = []
  · subst ht
    have hpk : peek (pre ++ NUL :: rest) p = NUL := peek_at pre NUL rest p hp
    simp [hpk]
  · have hpk : peek (pre ++ t ++ NUL :: rest) p ≠ NUL :=
      fun h => ht ((peek_field pre t rest p hp h0).mp h)
    simp only [hpk, ne_eq, not_false_eq_true, if_true]
    rw [hex_unescape_clean pre t rest p hp hpc h0]
    simp only [cstr_at pre t rest p hp h0]

theorem parse_attrs_step (pre t rest : List Char) (p : Nat) (hp : p = pre.length)
    (hpc : '%' ∉ t) (h0 : NUL ∉ t) (buf : List Char) (q : Option Nat) (ludp : LDAPURLDesc) :
    split_field buf p = (pre ++ t ++ NUL :: rest, q) →
    parse_attrs buf p ludp =
      match q with
      | none => .success
          (if t = [] then ludp else { ludp with lud_attrs := some (ldap_str2charray t [',']) })
      | some q => parse_scope (pre ++ t ++ NUL :: rest) q
          (if t = [] then ludp else { ludp with lud_attrs := some (ldap_str2charray t [',']) }) := by
  intro hs
  unfold parse_attrs
  rw [hs]
  simp only
  by_cases ht : t = []
  · subst ht
    have hpk : peek (pre ++ NUL :: rest) p = NUL := peek_at pre NUL rest p hp
    simp [hpk]
  · have hpk : peek (pre ++ t ++ NUL :: rest) p ≠ NUL :=
      fun h => ht ((peek_field pre t rest p hp h0).mp h)
    simp only [hpk, ne_eq, not_false_eq_true, if_true]
    rw [hex_unescape_clean pre t rest p hp hpc h0]
    simp only [cstr_at pre t rest p hp h0, ht, if_false]

theorem parse_scope_step (pre t rest : List Char) (p : Nat) (hp : p = pre.length)
    (hpc : '%' ∉ t) (h0 : NUL ∉ t) (buf : List Char) (q : Option Nat) (ludp : LDAPURLDesc) :
    split_field buf p = (pre ++ t ++ NUL :: rest, q) →
    parse_scope buf p ludp =
      if t = [] then
        match q with
        | none => .success ludp
        | some q => parse_filter (pre ++ t ++ NUL :: rest) q ludp
      else if str2scope t = -1 then .error LDAP_URL_ERR_BADSCOPE
      else
        match q with
        | none => .success { ludp with lud_scope := str2scope t }
        | some q => parse_filter (pre ++ t ++ NUL :: rest) q { ludp with lud_scope := str2scope t } := by
  intro hs
  unfold parse_scope
  rw [hs]
  simp only
  by_cases ht : t = []
  · subst ht
    have hpk : peek (pre ++ NUL :: rest) p = NUL := peek_at pre NUL rest p hp
    simp [hpk]
  · have hpk : peek (pre ++ t ++ NUL :: rest) p ≠ NUL :=
      fun h => ht ((peek_field pre t rest p hp h0).mp h)
    simp only [hpk, ne_eq, not_false_eq_true, if_true]
    rw [hex_unescape_clean pre t rest p hp hpc h0]
    simp only [cstr_at pre t rest p hp h0, ht, if_false]

theorem parse_filter_step (pre t rest : List Char) (p : Nat) (hp : p = pre.length)
    (hpc : '%' ∉ t) (h0 : NUL ∉ t) (buf : List Char) (q : Option Nat) (ludp : LDAPURLDesc) :
    split_field buf p = (pre ++ t ++ NUL :: rest, q) →
    parse_filter buf p ludp =
      match q with
      | none => .success (if t = [] then ludp else { ludp with lud_filter := some t })
      | some q => parse_exts (pre ++ t ++ NUL :: rest) q
          (if t = [] then ludp else { ludp with lud_filter := some t }) := by
  intro hs
  unfold parse_filter
  rw [hs]
  simp only
  by_cases ht : t = []
  · subst ht
    have hpk : peek (pre ++ NUL :: rest) p = NUL := peek_at pre NUL rest p hp
    simp [hpk]
  · have hpk : peek (pre ++ t ++ NUL :: rest) p ≠ NUL :=
      fun h => ht ((peek_field pre t rest p hp h0).mp h)
    simp only [hpk, ne_eq, not_false_eq_true, if_true]
    rw [hex_unescape_clean pre t rest p hp hpc h0]
    simp only [hpk, cstr_at pre t rest p hp h0, ht, if_false]

theorem parse_dn_more (pre t rest buf : List Char) (p : Nat) (ludp : LDAPURLDesc)
    (hb : buf = pre ++ t ++ '?' :: rest) (hp : p = pre.length)
    (hq : '?' ∉ t) (hpc : '%' ∉ t) (h0 : NUL ∉ t) :
    parse_dn buf p ludp
      = parse_attrs (pre ++ t ++ NUL :: rest) (pre.length + t.length + 1)
          { ludp with lud_dn := some t } := by
  subst hb
  exact parse_dn_step pre t rest p hp hpc h0 _ _ ludp (split_field_more pre t rest p hp hq h0)

theorem parse_dn_last (pre t rest buf : List Char) (p : Nat) (ludp : LDAPURLDesc)
    (hb : buf = pre ++ t ++ NUL :: rest) (hp : p = pre.length)
    (hq : '?' ∉ t) (hpc : '%' ∉ t) (h0 : NUL ∉ t) :
    parse_dn buf p ludp = .success { ludp with lud_dn := some t } := by
  subst hb
  exact parse_dn_step pre t rest p hp hpc h0 _ _ ludp (split_field_last pre t rest p hp hq)

theorem parse_attrs_more (pre t rest buf : List Char) (p : Nat) (ludp : LDAPURLDesc)
    (hb : buf = pre ++ t ++ '?' :: rest) (hp : p = pre.length)
    (hq : '?' ∉ t) (hpc : '%' ∉ t) (h0 : NUL ∉ t) :
    parse_attrs buf p ludp
      = parse_scope (pre ++ t ++ NUL :: rest) (pre.length + t.length + 1)
          (if t = [] then ludp else { ludp with lud_attrs := some (ldap_str2charray t [',']) }) := by
  subst hb
  exact parse_attrs_step pre t rest p hp hpc h0 _ _ ludp (split_field_more pre t rest p hp hq h0)

theorem parse_attrs_last (pre t rest buf : List Char) (p : Nat) (ludp : LDAPURLDesc)
    (hb : buf = pre ++ t ++ NUL :: rest) (hp : p = pre.length)
    (hq : '?' ∉ t) (hpc : '%' ∉ t) (h0 : NUL ∉ t) :
    parse_attrs buf p ludp
      = .success
          (if t = [] then ludp else { ludp with lud_attrs := some (ldap_str2charray t [',']) }) := by
  subst hb
  exact parse_attrs_step pre t rest p hp hpc h0 _ _ ludp (split_field_last pre t rest p hp hq)

theorem parse_scope_more (pre t rest buf : List Char) (p : Nat) (ludp : LDAPURLDesc)
    (hb : buf = pre ++ t ++ '?' :: rest) (hp : p = pre.length)
    (hq : '?' ∉ t) (hpc : '%' ∉ t) (h0 : NUL ∉ t) :
    parse_scope buf p ludp
      = if t = [] then parse_filter (pre ++ t ++ NUL :: rest) (pre.length + t.length + 1) ludp
        else if str2scope t = -1 then .error LDAP_URL_ERR_BADSCOPE
        else parse_filter (pre ++ t ++ NUL :: rest) (pre.length + t.length + 1)
          { ludp with lud_scope := str2scope t } := by
  subst hb
  exact parse_scope_step pre t rest p hp hpc h0 _ _ ludp (split_field_more pre t rest p hp hq h0)

theorem parse_scope_last (pre t rest buf : List Char) (p : Nat) (ludp : LDAPURLDesc)
    (hb : buf = pre ++ t ++ NUL :: rest) (hp : p = pre.length)
    (hq : '?' ∉ t) (hpc : '%' ∉ t) (h0 : NUL ∉ t) :
    parse_scope buf p ludp
      = if t = [] then .success ludp
        else if str2scope t = -1 then .error LDAP_URL_ERR_BADSCOPE
        else .success { ludp with lud_scope := str2scope t } := by
  subst hb
  exact parse_scope_step pre t rest p hp hpc h0 _ _ ludp (split_field_last pre t rest p hp hq)

theorem parse_filter_more (pre t rest buf : List Char) (p : Nat) (ludp : LDAPURLDesc)
    (hb : buf = pre ++ t ++ '?' :: rest) (hp : p = pre.length)
    (hq : '?' ∉ t) (hpc : '%' ∉ t) (h0 : NUL ∉ t) :
    parse_filter buf p ludp
      = parse_exts (pre ++ t ++ NUL :: rest) (pre.length + t.length + 1)
          (if t = [] then ludp else { ludp with lud_filter := some t }) := by
  subst hb
  exact parse_filter_step pre t rest p hp hpc h0 _ _ ludp (split_field_more pre t rest p hp hq h0)

theorem str2charray_loop_run (brk : List Char) (t : List Char) :
    ∀ (s cur : List Char), (∀ c ∈ t, c ∉ brk) →
      str2charray_loop brk (t ++ s) cur = str2charray_loop brk s (cur ++ t) := by
  induction t with
  | nil => intro s cur _; simp
  | cons x t ih =>
    intro s cur h
    have hx : x ∉ brk := h x (by simp)
    have ht : ∀ c ∈ t, c ∉ brk := fun c hc => h c (by simp [hc])
    have := ih s (cur ++ [x]) ht
    rw [List.cons_append]
    simp only [str2charray_loop, hx, if_false]
    rw [this]
    simp

theorem str2charray_loop_join (sep : Char) (as : List (List Char)) :
    (∀ a ∈ as, a ≠ [] ∧ sep ∉ a) →
      str2charray_loop [sep] (joinWith sep as) [] = as := by
  induction as with
  | nil => intro _; simp [joinWith, str2charray_loop]
  | cons a as ih =>
    intro h
    have ha := h a (by simp)
    have hbrk : ∀ c ∈ a, c ∉ [sep] := by
      intro c hc hm
      simp only [List.mem_singleton] at hm
      exact ha.2 (hm ▸ hc)
    cases as with
    | nil =>
      have := str2charray_loop_run [sep] a [] [] hbrk
      simp only [List.append_nil, List.nil_append] at this
      simp [joinWith, this, str2charray_loop, ha.1]
    | cons b rest =>
      have h2 : ∀ x ∈ b :: rest, x ≠ [] ∧ sep ∉ x := fun x hx => h x (by simp [hx])
      have := str2charray_loop_run [sep] a (sep :: joinWith sep (b :: rest)) [] hbrk
      simp only [List.nil_append] at this
      simp only [joinWith]
      rw [this]
      simp only [str2charray_loop, List.mem_singleton, if_true, ha.1, if_false]
      rw [ih h2]

theorem not_mem_joinWith (x sep : Char) (hx : x ≠ sep) (as : List (List Char)) :
    (∀ a ∈ as, x ∉ a) → x ∉ joinWith sep as := by
  induction as with
  | nil => intro _; simp [joinWith]
  | cons a as ih =>
    intro h
    cases as with
    | nil => simpa [joinWith] using h a (by simp)
    | cons b rest =>
      have h2 : ∀ y ∈ b :: rest, x ∉ y := fun y hy => h y (by simp [hy])
      have := ih h2
      simp only [joinWith, List.mem_append, List.mem_cons, not_or]
      exact ⟨h a (by simp), hx, this⟩

/-- The entries of `a1,...,an` are `a1`, ..., `an`, when no entry is empty or
holds a comma. -/
theorem str2charray_join (as : List (List Char))
    (h : ∀ a ∈ as, a ≠ [] ∧ ',' ∉ a ∧ NUL ∉ a) :
    ldap_str2charray (joinWith ',' as) [','] = as := by
  unfold ldap_str2charray
  rw [strOf_eq_self _ (not_mem_joinWith NUL ',' (by decide) as (fun a ha => (h a ha).2.2))]
  exact str2charray_loop_join ',' as (fun a ha => ⟨(h a ha).1, (h a ha).2.1⟩)

theorem mem_str2charray_loop (brk : List Char) (s : List Char) :
    ∀ (cur tok : List Char), tok ∈ str2charray_loop brk s cur →
      ∀ c ∈ tok, c ∈ cur ∨ c ∈ s := by
  induction s with
  | nil =>
    intro cur tok h c hc
    by_cases hcur : cur = []
    · simp [str2charray_loop, hcur] at h
    · simp only [str2charray_loop, hcur, if_false, List.mem_singleton] at h
      subst h
      exact Or.inl hc
  | cons x s ih =>
    intro cur tok h c hc
    by_cases hx : x ∈ brk
    · by_cases hcur : cur = []
      · simp only [str2charray_loop, hx, hcur, if_true] at h
        rcases ih [] tok h c hc with h1 | h1
        · simp at h1
        · exact Or.inr (by simp [h1])
      · simp only [str2charray_loop, hx, hcur, if_true, if_false, List.mem_cons] at h
        rcases h with h | h
        · subst h; exact Or.inl hc
        · rcases ih [] tok h c hc with h1 | h1
          · simp at h1
          · exact Or.inr (by simp [h1])
    · simp only [str2charray_loop, hx, if_false] at h
      rcases ih (cur ++ [x]) tok h c hc with h1 | h1
      · simp only [List.mem_append, List.mem_singleton] at h1
        rcases h1 with h1 | h1
        · exact Or.inl h1
        · exact Or.inr (by simp [h1])
      · exact Or.inr (by simp [h1])

theorem hex_unescape_entry_clean (e : List Char) (hp : '%' ∉ e) (h0 : NUL ∉ e) :
    hex_unescape_entry e = some e := by
  unfold hex_unescape_entry
  have h1 := hex_unescape_clean [] e [] 0 rfl hp h0
  have h2 := cstr_at [] e [] 0 rfl h0
  simp only [List.nil_append] at h1 h2
  rw [h1]
  simp [h2]

theorem hex_unescape_entries_clean (es : List (List Char)) :
    (∀ e ∈ es, '%' ∉ e ∧ NUL ∉ e) → hex_unescape_entries es = some es := by
  induction es with
  | nil => intro _; rfl
  | cons e es ih =>
    intro h
    have he := h e (by simp)
    have hes : ∀ x ∈ es, '%' ∉ x ∧ NUL ∉ x := fun x hx => h x (by simp [hx])
    simp [hex_unescape_entries, hex_unescape_entry_clean e he.1 he.2, ih hes]

theorem str2charray_clean (t brk : List Char) (hp : '%' ∉ t) (h0 : NUL ∉ t) :
    ∀ e ∈ ldap_str2charray t brk, '%' ∉ e ∧ NUL ∉ e := by
  intro e he
  unfold ldap_str2charray at he
  rw [strOf_eq_self t h0] at he
  constructor
  · intro hc
    rcases mem_str2charray_loop brk t [] e he '%' hc with h | h
    · simp at h
    · exact hp h
  · intro hc
    rcases mem_str2charray_loop brk t [] e he NUL hc with h | h
    · simp at h
    · exact h0 h

theorem parse_exts_last (pre t rest buf : List Char) (p : Nat) (ludp : LDAPURLDesc)
    (hb : buf = pre ++ t ++ NUL :: rest) (hp : p = pre.length)
    (hq : '?' ∉ t) (hpc : '%' ∉ t) (h0 : NUL ∉ t) :
    parse_exts buf p ludp =
      if ldap_str2charray t [','] = [] then .undefined
      else .success { ludp with lud_exts := some (ldap_str2charray t [',']) } := by
  subst hb
  unfold parse_exts
  rw [strchr_none '?' pre t rest p hp hq (by decide)]
  simp only [cstr_at pre t rest p hp h0]
  rw [hex_unescape_entries_clean _ (str2charray_clean t [','] hpc h0)]
  simp only [List.length_eq_zero]

theorem parse_exts_more (pre t rest buf : List Char) (p : Nat) (ludp : LDAPURLDesc)
    (hb : buf = pre ++ t ++ '?' :: rest) (hp : p = pre.length)
    (hq : '?' ∉ t) (h0 : NUL ∉ t) :
    parse_exts buf p ludp = .error LDAP_URL_ERR_BADURL := by
  subst hb
  unfold parse_exts
  rw [strchr_found '?' pre t rest p hp hq h0]

/-! ## Decimal numerals and `atoi` -/

theorem toNat_ofNat_small (k : Nat) (h : k < 256) : (Char.ofNat k).toNat = k := by
  have hv : k.isValidChar := by
    left; omega
  simp only [Char.ofNat, hv, dite_true, Char.ofNatAux, Char.toNat]
  rfl

theorem isdigit_iff (c : Char) : isdigit c = true ↔ 48 ≤ c.toNat ∧ c.toNat ≤ 57 := by
  simp [isdigit]

theorem atoi_digits_eq_foldl (p : List Char) :
    ∀ acc : Nat, (∀ c ∈ p, isdigit c = true) →
      atoi_digits acc p = p.foldl (fun acc c => 10 * acc + (c.toNat - 48)) acc := by
  induction p with
  | nil => intro acc _; simp [atoi_digits]
  | cons c p ih =>
    intro acc h
    have hc := h c (by simp)
    have hp : ∀ x ∈ p, isdigit x = true := fun x hx => h x (by simp [hx])
    simp only [atoi_digits, hc, if_true, List.foldl_cons]
    rw [ih _ hp, Nat.mul_comm]

theorem atoi_digits_stop (p : List Char) (c : Char) (rest : List Char) (hc : isdigit c = false) :
    ∀ acc : Nat, (∀ x ∈ p, isdigit x = true) →
      atoi_digits acc (p ++ c :: rest) = atoi_digits acc p := by
  induction p with
  | nil => intro acc _; simp [atoi_digits, hc]
  | cons x p ih =>
    intro acc h
    have hx := h x (by simp)
    have hp : ∀ y ∈ p, isdigit y = true := fun y hy => h y (by simp [hy])
    simp only [List.cons_append, atoi_digits, hx, if_true]
    exact ih _ hp

theorem digit_not_space (c : Char) (h : isdigit c = true) : isspace c = false := by
  rw [isdigit_iff] at h
  simp only [isspace, decide_eq_false_iff_not]
  omega

theorem digit_not_sign (c : Char) (h : isdigit c = true) : c ≠ '-' ∧ c ≠ '+' := by
  rw [isdigit_iff] at h
  constructor
  · intro hc; subst hc; revert h; decide
  · intro hc; subst hc; revert h; decide

/-- `atoi` on a text that starts with a digit is the digit loop on that text. -/
theorem atoi_of_digit_head (c : Char) (s : List Char) (hc : isdigit c = true)
    (hv : (atoi_digits 0 (c :: s) : Int) ≤ INT_MAX) :
    atoi (c :: s) = some (atoi_digits 0 (c :: s) : Int) := by
  have hs := digit_not_space c hc
  have hsign := digit_not_sign c hc
  have hdw : List.dropWhile isspace (c :: s) = c :: s := by
    simp [List.dropWhile, hs]
  unfold atoi
  rw [hdw]
  simp only [atoi_signed, hsign.1, hsign.2, if_false]
  have hlo : INT_MIN ≤ (atoi_digits 0 (c :: s) : Int) := by
    have : (0 : Int) ≤ (atoi_digits 0 (c :: s) : Int) := Int.ofNat_nonneg _
    unfold INT_MIN
    omega
  simp [hlo, hv]

/-- `atoi` on a decimal numeral gives the number it denotes, when that fits
an `int`. -/
theorem atoi_numeral (p : List Char) (hp : isNumeral p) (hv : (numeralValue p : Int) ≤ INT_MAX) :
    atoi p = some (numeralValue p : Int) := by
  obtain ⟨hne, hd⟩ := hp
  cases p with
  | nil => exact absurd rfl hne
  | cons c s =>
    have hval : atoi_digits 0 (c :: s) = numeralValue (c :: s) :=
      atoi_digits_eq_foldl (c :: s) 0 hd
    have := atoi_of_digit_head c s (hd c (by simp)) (by rw [hval]; exact hv)
    rw [this, hval]

/-- `atoi` on a decimal numeral followed by a character that is no digit. -/
theorem atoi_numeral_stop (p : List Char) (c : Char) (rest : List Char) (hp : isNumeral p)
    (hc : isdigit c = false) (hv : (numeralValue p : Int) ≤ INT_MAX) :
    atoi (p ++ c :: rest) = some (numeralValue p : Int) := by
  obtain ⟨hne, hd⟩ := hp
  cases p with
  | nil => exact absurd rfl hne
  | cons x s =>
    have hval : atoi_digits 0 (x :: s ++ c :: rest) = numeralValue (x :: s) := by
      rw [atoi_digits_stop (x :: s) c rest hc 0 hd]
      exact atoi_digits_eq_foldl (x :: s) 0 hd
    have := atoi_of_digit_head x (s ++ c :: rest) (hd x (by simp))
      (by rw [← List.cons_append, hval]; exact hv)
    rw [← List.cons_append, hval] at this
    exact this

theorem natDigits_spec (fuel : Nat) :
    ∀ n : Nat, n < fuel →
      (natDigits fuel n ≠ [] ∧ (∀ c ∈ natDigits fuel n, isdigit c = true))
        ∧ numeralValue (natDigits fuel n) = n := by
  induction fuel with
  | zero => intro n h; omega
  | succ f ih =>
    intro n hn
    by_cases h10 : n < 10
    · have htn : (Char.ofNat (48 + n)).toNat = 48 + n := toNat_ofNat_small _ (by omega)
      simp only [natDigits, h10, if_true]
      refine ⟨⟨by simp, ?_⟩, ?_⟩
      · intro c hc
        simp only [List.mem_singleton] at hc
        subst hc
        rw [isdigit_iff, htn]
        omega
      · simp [numeralValue, htn]
    · have hlt : n / 10 < f := by omega
      obtain ⟨⟨_, hd⟩, hv⟩ := ih (n / 10) hlt
      have htn : (Char.ofNat (48 + n % 10)).toNat = 48 + n % 10 :=
        toNat_ofNat_small _ (by omega)
      simp only [natDigits, h10, if_false]
      refine ⟨⟨by simp, ?_⟩, ?_⟩
      · intro c hc
        simp only [List.mem_append, List.mem_singleton] at hc
        rcases hc with hc | hc
        · exact hd c hc
        · subst hc
          rw [isdigit_iff, htn]
          omega
      · unfold numeralValue at hv ⊢
        rw [List.foldl_append, hv]
        simp only [List.foldl_cons, List.foldl_nil, htn]
        omega

theorem decimal_isNumeral (n : Nat) : isNumeral (decimal n) :=
  (natDigits_spec (n + 1) n (Nat.lt_succ_self n)).1

theorem numeralValue_decimal (n : Nat) : numeralValue (decimal n) = n :=
  (natDigits_spec (n + 1) n (Nat.lt_succ_self n)).2

theorem digit_mem_ne (p : List Char) (hd : ∀ c ∈ p, isdigit c = true) (x : Char)
    (hx : isdigit x = false) : x ∉ p := by
  intro h
  have := hd x h
  rw [hx] at this
  exact Bool.noConfusion this

theorem sprintf_d_nat (n : Nat) : sprintf_d (n : Int) = decimal n := by
  unfold sprintf_d
  have : ¬ ((n : Int) < 0) := by omega
  simp [this]

/-! ## The hostport token -/

theorem peek0_ne (t : List Char) (c : Char) (rest : List Char) (x : Char)
    (hx : x ∉ t) (hc : c ≠ x) : peek (t ++ c :: rest) 0 ≠ x := by
  cases t with
  | nil => simpa [peek] using hc
  | cons y t =>
    have : y ≠ x := fun h => hx (by simp [h])
    simpa [peek] using this

theorem strchr0_found (c : Char) (t rest : List Char) (hc : c ∉ t) (h0 : NUL ∉ t) :
    strchr (t ++ c :: rest) 0 c = some t.length := by
  have := strchr_found c [] t rest 0 rfl hc h0
  simpa using this

theorem strchr0_none (c : Char) (t rest : List Char) (hc : c ∉ t) (hne : c ≠ NUL) :
    strchr (t ++ NUL :: rest) 0 c = none := by
  have := strchr_none c [] t rest 0 rfl hc hne
  simpa using this

theorem hex_unescape0_clean (t rest : List Char) (hp : '%' ∉ t) (h0 : NUL ∉ t) :
    ldap_pvt_hex_unescape (t ++ NUL :: rest) 0 = some (t ++ NUL :: rest) := by
  have := hex_unescape_clean [] t rest 0 rfl hp h0
  simpa using this

theorem cstr0 (t rest : List Char) (h0 : NUL ∉ t) : cstr (t ++ NUL :: rest) 0 = t := by
  have := cstr_at [] t rest 0 rfl h0
  simpa using this

/-- The host when the hostport does not start with `[`. -/
theorem parse_host_plain (hb rest : List Char) (q : Option Nat) (ludp : LDAPURLDesc)
    (hpc : '%' ∉ hb) (h0 : NUL ∉ hb) (hbr : '[' ∉ hb) :
    (∀ p : Nat, parse_host (hb ++ NUL :: rest) (some p) q ludp
        = parse_dn (hb ++ NUL :: rest) p { ludp with lud_host := some hb })
    ∧ parse_host (hb ++ NUL :: rest) none q ludp
        = parse_kludge (hb ++ NUL :: rest) q { ludp with lud_host := some hb } := by
  have hpk : peek (hb ++ NUL :: rest) 0 ≠ '[' := peek0_ne hb NUL rest '[' hbr (by decide)
  constructor
  · intro p
    unfold parse_host
    rw [hex_unescape0_clean hb rest hpc h0]
    simp only [hpk, if_false, cstr0 hb rest h0]
  · unfold parse_host
    rw [hex_unescape0_clean hb rest hpc h0]
    simp only [hpk, if_false, cstr0 hb rest h0]

/-- The host when the hostport starts with `[`: the bracket is skipped. -/
theorem parse_host_bracket (h rest : List Char) (q : Option Nat) (ludp : LDAPURLDesc)
    (hpc : '%' ∉ h) (h0 : NUL ∉ h) :
    (∀ p : Nat, parse_host ('[' :: h ++ NUL :: rest) (some p) q ludp
        = parse_dn ('[' :: h ++ NUL :: rest) p { ludp with lud_host := some h })
    ∧ parse_host ('[' :: h ++ NUL :: rest) none q ludp
        = parse_kludge ('[' :: h ++ NUL :: rest) q { ludp with lud_host := some h } := by
  have hpk : peek ('[' :: h ++ NUL :: rest) 0 = '[' := by simp [peek]
  have hpc2 : '%' ∉ '[' :: h := by
    intro hm
    rcases List.mem_cons.mp hm with h1 | h1
    · revert h1; decide
    · exact hpc h1
  have h02 : NUL ∉ '[' :: h := by
    intro hm
    rcases List.mem_cons.mp hm with h1 | h1
    · revert h1; decide
    · exact h0 h1
  have hx := hex_unescape0_clean ('[' :: h) rest hpc2 h02
  have hc := cstr_at ['['] h rest 1 rfl h0
  simp only [List.cons_append, List.nil_append] at hx hc
  constructor
  · intro p
    unfold parse_host
    simp only [List.cons_append]
    rw [hx]
    simp only [List.cons_append] at hpk
    simp only [hpk, if_true, hc]
  · unfold parse_host
    simp only [List.cons_append]
    rw [hx]
    simp only [List.cons_append] at hpk
    simp only [hpk, if_true, hc]

/-- The port, for a port token without escapes. -/
theorem parse_port_some (pre pt rest : List Char) (c : Char) (q : Nat) (hq : q = pre.length)
    (p : Option Nat) (ludp : LDAPURLDesc) (n : Int)
    (hne : pt ≠ []) (hpc : '%' ∉ pt) (h0 : NUL ∉ pt) (hn : atoi pt = some n) :
    parse_port (pre ++ c :: (pt ++ NUL :: rest)) p (some q) ludp
      = parse_host (pre ++ NUL :: (pt ++ NUL :: rest)) p (some (q + 1))
          { ludp with lud_port := n } := by
  unfold parse_port
  simp only
  rw [set_at pre c NUL _ q hq]
  have hb : pre ++ NUL :: (pt ++ NUL :: rest) = (pre ++ [NUL]) ++ pt ++ NUL :: rest := by simp
  have hq1 : q + 1 = (pre ++ [NUL]).length := by simp [hq]
  have hx := hex_unescape_clean (pre ++ [NUL]) pt rest (q + 1) hq1 hpc h0
  have hpk : peek ((pre ++ [NUL]) ++ pt ++ NUL :: rest) (q + 1) ≠ NUL :=
    fun h => hne ((peek_field (pre ++ [NUL]) pt rest (q + 1) hq1 h0).mp h)
  have hc := cstr_at (pre ++ [NUL]) pt rest (q + 1) hq1 h0
  rw [← hb] at hx hpk hc
  rw [hx]
  simp only [hpk, if_false, hc, hn]

/-! ## The scheme prefix and the start of `ldap_url_parse` -/

theorem skip_url_prefix_ldap (X : List Char) :
    skip_url_prefix (some ("ldap://".toList ++ X)) = some (X, false, "ldap".toList) := by
  have h : "ldap://".toList ++ X = 'l' :: 'd' :: 'a' :: 'p' :: ':' :: '/' :: '/' :: X := rfl
  rw [h]
  simp [ skip_url_prefix, peek, strncasecmp_eq, strOf, NUL, LDAP_URL_URLCOLON,
    LDAP_URL_URLCOLON_LEN, LDAP_URL_PREFIX, LDAP_URL_PREFIX_LEN, tolower]

theorem skip_url_prefix_ldaps (X : List Char) :
    skip_url_prefix (some ("ldaps://".toList ++ X)) = some (X, false, "ldaps".toList) := by
  have h : "ldaps://".toList ++ X = 'l' :: 'd' :: 'a' :: 'p' :: 's' :: ':' :: '/' :: '/' :: X := rfl
  rw [h]
  simp [ skip_url_prefix, peek, strncasecmp_eq, strOf, NUL, LDAP_URL_URLCOLON,
    LDAP_URL_URLCOLON_LEN, LDAP_URL_PREFIX, LDAP_URL_PREFIX_LEN, LDAPS_URL_PREFIX,
    LDAPS_URL_PREFIX_LEN, tolower]

theorem skip_url_prefix_ldapi (X : List Char) :
    skip_url_prefix (some ("ldapi://".toList ++ X)) = some (X, false, "ldapi".toList) := by
  have h : "ldapi://".toList ++ X = 'l' :: 'd' :: 'a' :: 'p' :: 'i' :: ':' :: '/' :: '/' :: X := rfl
  rw [h]
  simp [ skip_url_prefix, peek, strncasecmp_eq, strOf, NUL, LDAP_URL_URLCOLON,
    LDAP_URL_URLCOLON_LEN, LDAP_URL_PREFIX, LDAP_URL_PREFIX_LEN, LDAPS_URL_PREFIX,
    LDAPS_URL_PREFIX_LEN, LDAPI_URL_PREFIX, LDAPI_URL_PREFIX_LEN, tolower]

/-- A URL that starts with a lower-case scheme prefix, without `<` and
without `URL:`: the parse goes on with the hostport on the working copy. -/
theorem ldap_url_parse_plain (scheme X : List Char)
    (hs : scheme = "ldap".toList ∨ scheme = "ldaps".toList ∨ scheme = "ldapi".toList)
    (h0 : NUL ∉ X) :
    ldap_url_parse (some (scheme ++ "://".toList ++ X)) true
      = parse_hostport (X ++ [NUL]) (new_urldesc scheme) := by
  rcases hs with hs | hs | hs
  · subst hs
    have h : "ldap".toList ++ "://".toList ++ X = "ldap://".toList ++ X := rfl
    rw [h]
    unfold ldap_url_parse
    rw [skip_url_prefix_ldap X]
    simp [parse_enclosure, strOf_eq_self X h0]
  · subst hs
    have h : "ldaps".toList ++ "://".toList ++ X = "ldaps://".toList ++ X := rfl
    rw [h]
    unfold ldap_url_parse
    rw [skip_url_prefix_ldaps X]
    simp [parse_enclosure, strOf_eq_self X h0]
  · subst hs
    have h : "ldapi".toList ++ "://".toList ++ X = "ldapi://".toList ++ X := rfl
    rw [h]
    unfold ldap_url_parse
    rw [skip_url_prefix_ldapi X]
    simp [parse_enclosure, strOf_eq_self X h0]

theorem not_mem_append_cons {x : Char} {a : List Char} {c : Char} {b : List Char}
    (ha : x ∉ a) (hc : x ≠ c) (hb : x ∉ b) : x ∉ a ++ c :: b := by
  simp only [List.mem_append, List.mem_cons, not_or]
  exact ⟨ha, hc, hb⟩

/-- Hostport `h` followed by `/`: no port. -/
theorem hostport_slash_plain (h rest buf : List Char) (ludp : LDAPURLDesc)
    (hb : buf = h ++ '/' :: rest)
    (hsl : '/' ∉ h) (hco : ':' ∉ h) (hbr : '[' ∉ h) (hpc : '%' ∉ h) (h0 : NUL ∉ h) :
    parse_hostport buf ludp
      = parse_dn (h ++ NUL :: rest) (h.length + 1) { ludp with lud_host := some h } := by
  subst hb
  unfold parse_hostport
  rw [strchr0_found '/' h rest hsl h0]
  simp only
  rw [set_at h '/' NUL rest h.length rfl]
  have hpk : peek (h ++ NUL :: rest) 0 ≠ '[' := peek0_ne h NUL rest '[' hbr (by decide)
  simp only [hpk, if_false]
  rw [strchr0_none ':' h rest hco (by decide)]
  unfold parse_port
  exact (parse_host_plain h rest none ludp hpc h0 hbr).1 _

/-- Hostport `h:pt` followed by `/`. -/
theorem hostport_slash_port (h pt rest buf : List Char) (ludp : LDAPURLDesc) (n : Int)
    (hb : buf = h ++ ':' :: (pt ++ '/' :: rest))
    (hsl : '/' ∉ h) (hco : ':' ∉ h) (hbr : '[' ∉ h) (hpc : '%' ∉ h) (h0 : NUL ∉ h)
    (hne : pt ≠ []) (hsl2 : '/' ∉ pt) (hpc2 : '%' ∉ pt) (h02 : NUL ∉ pt)
    (hn : atoi pt = some n) :
    parse_hostport buf ludp
      = parse_dn (h ++ NUL :: (pt ++ NUL :: rest)) (h.length + 1 + pt.length + 1)
          { ludp with lud_port := n, lud_host := some h } := by
  subst hb
  unfold parse_hostport
  have hb1 : h ++ ':' :: (pt ++ '/' :: rest) = (h ++ ':' :: pt) ++ '/' :: rest := by simp
  have hsl3 : '/' ∉ h ++ ':' :: pt := not_mem_append_cons hsl (by decide) hsl2
  have h03 : NUL ∉ h ++ ':' :: pt := not_mem_append_cons h0 (by decide) h02
  rw [hb1, strchr0_found '/' (h ++ ':' :: pt) rest hsl3 h03]
  simp only
  rw [set_at (h ++ ':' :: pt) '/' NUL rest _ rfl]
  have hb2 : (h ++ ':' :: pt) ++ NUL :: rest = h ++ ':' :: (pt ++ NUL :: rest) := by simp
  rw [hb2]
  have hpk : peek (h ++ ':' :: (pt ++ NUL :: rest)) 0 ≠ '[' :=
    peek0_ne h ':' _ '[' hbr (by decide)
  simp only [hpk, if_false]
  rw [strchr0_found ':' h _ hco h0]
  rw [parse_port_some h pt rest ':' h.length rfl _ ludp n hne hpc2 h02 hn]
  rw [(parse_host_plain h _ _ _ hpc h0 hbr).1]
  congr 1
  simp only [List.length_append, List.length_cons]
  omega

/-- Hostport `[h]:pt` followed by `/`. -/
theorem hostport_slash_bracket_port (h pt rest buf : List Char) (ludp : LDAPURLDesc) (n : Int)
    (hb : buf = '[' :: (h ++ ']' :: ':' :: (pt ++ '/' :: rest)))
    (hsl : '/' ∉ h) (hcl : ']' ∉ h) (hpc : '%' ∉ h) (h0 : NUL ∉ h)
    (hne : pt ≠ []) (hsl2 : '/' ∉ pt) (hpc2 : '%' ∉ pt) (h02 : NUL ∉ pt)
    (hn : atoi pt = some n) :
    parse_hostport buf ludp
      = parse_dn ('[' :: (h ++ NUL :: NUL :: (pt ++ NUL :: rest))) (h.length + pt.length + 4)
          { ludp with lud_port := n, lud_host := some h } := by
  subst hb
  unfold parse_hostport
  have hb1 : '[' :: (h ++ ']' :: ':' :: (pt ++ '/' :: rest))
      = ('[' :: (h ++ ']' :: ':' :: pt)) ++ '/' :: rest := by simp
  have hsl3 : '/' ∉ '[' :: (h ++ ']' :: ':' :: pt) := by
    simp only [List.mem_cons, List.mem_append, not_or]
    exact ⟨by decide, hsl, by decide, by decide, hsl2⟩
  have h03 : NUL ∉ '[' :: (h ++ ']' :: ':' :: pt) := by
    simp only [List.mem_cons, List.mem_append, not_or]
    exact ⟨by decide, h0, by decide, by decide, h02⟩
  rw [hb1, strchr0_found '/' _ rest hsl3 h03]
  simp only
  rw [set_at _ '/' NUL rest _ rfl]
  have hpk : peek ('[' :: (h ++ ']' :: ':' :: pt) ++ NUL :: rest) 0 = '[' := by simp [peek]
  simp only [hpk, if_true]
  have hb2 : '[' :: (h ++ ']' :: ':' :: pt) ++ NUL :: rest
      = ('[' :: h) ++ ']' :: (':' :: (pt ++ NUL :: rest)) := by simp
  have hcl2 : ']' ∉ '[' :: h := by
    simp only [List.mem_cons, not_or]
    exact ⟨by decide, hcl⟩
  have h04 : NUL ∉ '[' :: h := by
    simp only [List.mem_cons, not_or]
    exact ⟨by decide, h0⟩
  rw [hb2, strchr0_found ']' ('[' :: h) _ hcl2 h04]
  simp only
  rw [set_at ('[' :: h) ']' NUL _ _ rfl]
  have hb3 : ('[' :: h) ++ NUL :: (':' :: (pt ++ NUL :: rest))
      = (('[' :: h) ++ [NUL]) ++ [] ++ ':' :: (pt ++ NUL :: rest) := by simp
  have hq := strchr_found ':' (('[' :: h) ++ [NUL]) [] (pt ++ NUL :: rest)
    (('[' :: h).length + 1) (by simp) (by simp) (by simp)
  rw [← hb3] at hq
  rw [hq]
  have hb4 : ('[' :: h) ++ NUL :: (':' :: (pt ++ NUL :: rest))
      = (('[' :: h) ++ [NUL]) ++ ':' :: (pt ++ NUL :: rest) := by simp
  rw [hb4, parse_port_some (('[' :: h) ++ [NUL]) pt rest ':' _ (by simp) _ ludp n hne hpc2 h02 hn]
  have hb5 : (('[' :: h) ++ [NUL]) ++ NUL :: (pt ++ NUL :: rest)
      = '[' :: h ++ NUL :: (NUL :: (pt ++ NUL :: rest)) := by simp
  rw [hb5, (parse_host_bracket h _ _ _ hpc h0).1]
  simp only [List.cons_append, List.length_cons, List.length_append, List.length_nil]
  congr 1

/-! ## Percent escapes that are complete -/

theorem escComplete_cons_ne (c : Char) (t : List Char) (hc : c ≠ '%') :
    escComplete (c :: t) = escComplete t := by
  cases t with
  | nil => simp [escComplete, hc]
  | cons c1 t =>
    cases t with
    | nil => simp [escComplete, hc]
    | cons c2 t => simp [escComplete, hc]

theorem percentDecode_cons_ne (c : Char) (t : List Char) (hc : c ≠ '%') :
    percentDecode (c :: t) = c :: percentDecode t := by
  cases t with
  | nil => simp [percentDecode, hc]
  | cons c1 t =>
    cases t with
    | nil => simp [percentDecode, hc]
    | cons c2 t => simp [percentDecode, hc]

theorem percentDecode_esc (c1 c2 : Char) (t : List Char) :
    percentDecode ('%' :: c1 :: c2 :: t)
      = toByte (ldap_pvt_unhex c1.toNat * 16 + ldap_pvt_unhex c2.toNat) :: percentDecode t := by
  rw [percentDecode]
  simp

theorem escComplete_esc (c1 c2 : Char) (t : List Char) :
    escComplete ('%' :: c1 :: c2 :: t) = escComplete t := by
  rw [escComplete]
  simp

theorem toByte_toNat (x : Int) : ((toByte x).toNat : Int) = x % 256 := by
  unfold toByte
  have h1 : 0 ≤ x % 256 := Int.emod_nonneg x (by decide)
  have h2 : x % 256 < 256 := Int.emod_lt_of_pos x (by decide)
  rw [toNat_ofNat_small _ (by omega)]
  omega

theorem toByte_add (x y : Int) : toByte (((toByte x).toNat : Int) + y) = toByte (x + y) := by
  rw [toByte_toNat]
  unfold toByte
  congr 2
  omega

theorem getElem?_append_drop (out M : List Char) (g : Nat) (c : Char) (tl : List Char)
    (h : M.drop g = c :: tl) : (out ++ M)[out.length + g]? = some c := by
  rw [List.getElem?_append_right (Nat.le_add_right _ _)]
  have : out.length + g - out.length = g := by omega
  rw [this]
  have h2 : (M.drop g)[0]? = some c := by rw [h]; simp
  rw [List.getElem?_drop] at h2
  simpa using h2

theorem set_append_head (out M : List Char) (x : Char) (hM : M ≠ []) :
    (out ++ M).set out.length x = (out ++ [x]) ++ M.drop 1 := by
  cases M with
  | nil => exact absurd rfl hM
  | cons m M => simp

theorem drop_ne_nil_of_drop {M : List Char} {g : Nat} {c : Char} {tl : List Char}
    (h : M.drop g = c :: tl) : M ≠ [] := by
  intro hM
  rw [hM] at h
  simp at h

theorem drop_succ_of_drop {M : List Char} {g : Nat} {c : Char} {tl : List Char}
    (h : M.drop g = c :: tl) : M.drop (g + 1) = tl := by
  have : M.drop (g + 1) = (M.drop g).drop 1 := by
    rw [List.drop_drop, Nat.add_comm]
  rw [this, h]
  rfl

/-- The unescape loop on a C string whose escapes are complete.  The buffer
is `out ++ M`: `out` is what has been written, the write index is at the
start of `M`, the read index `g` bytes further, where the rest `t` of the
string is. -/
theorem hex_unescape_loop_decode (fuel : Nat) :
    ∀ (out M t rest : List Char) (g : Nat), M.drop g = t ++ NUL :: rest → NUL ∉ t →
      escComplete t = true → t.length < fuel →
      hex_unescape_loop fuel (out ++ M) (out.length + g) out.length
        = some (out ++ percentDecode t ++ NUL :: M.drop ((percentDecode t).length + 1)) := by
  induction fuel with
  | zero => intro out M t rest g _ _ _ hf; omega
  | succ f ih =>
    intro out M t rest g hM h0 hc hf
    cases t with
    | nil =>
      simp only [List.nil_append] at hM
      unfold hex_unescape_loop
      rw [getElem?_append_drop out M g NUL rest hM]
      simp only [if_true]
      rw [set_append_head out M NUL (drop_ne_nil_of_drop hM)]
      simp [percentDecode]
    | cons c t =>
      have hc0 : c ≠ NUL := fun h => h0 (by simp [h])
      have ht0 : NUL ∉ t := fun h => h0 (by simp [h])
      simp only [List.cons_append] at hM
      have hMne := drop_ne_nil_of_drop hM
      by_cases hpc : c = '%'
      · subst hpc
        cases t with
        | nil => simp [escComplete] at hc
        | cons c1 t =>
          cases t with
          | nil => simp [escComplete] at hc
          | cons c2 t =>
            have hc10 : c1 ≠ NUL := fun h => h0 (by simp [h])
            have hc20 : c2 ≠ NUL := fun h => h0 (by simp [h])
            have ht0 : NUL ∉ t := fun h => h0 (by simp [h])
            have hct : escComplete t = true := by rw [escComplete_esc] at hc; exact hc
            simp only [List.cons_append] at hM
            have hM1 := drop_succ_of_drop hM
            have hM2 := drop_succ_of_drop hM1
            have hM3 := drop_succ_of_drop hM2
            have hr0 := getElem?_append_drop out M g '%' _ hM
            have hr1 := getElem?_append_drop out M (g + 1) c1 _ hM1
            have hr2 := getElem?_append_drop out M (g + 1 + 1) c2 _ hM2
            unfold hex_unescape_loop
            rw [hr0]
            have hne : ('%' : Char) ≠ NUL := by decide
            simp only [hne, if_false, if_true]
            rw [show out.length + g + 1 = out.length + (g + 1) by omega, hr1]
            simp only [hc10, ne_eq, not_false_eq_true, if_true]
            rw [set_append_head out M _ hMne]
            have hrd : ((out ++ [toByte (ldap_pvt_unhex c1.toNat * 16)]) ++ M.drop 1)[out.length + g + 2]?
                = some c2 := by
              have := getElem?_append_drop (out ++ [toByte (ldap_pvt_unhex c1.toNat * 16)])
                (M.drop 1) (g + 1) c2 (t ++ NUL :: rest)
                (by rw [List.drop_drop]; rw [show 1 + (g + 1) = g + 1 + 1 by omega]; exact hM2)
              simpa [Nat.add_assoc, Nat.add_comm, Nat.add_left_comm] using this
            rw [hrd]
            simp only [hc20, ne_eq, not_false_eq_true, if_true]
            have hpk : peek ((out ++ [toByte (ldap_pvt_unhex c1.toNat * 16)]) ++ M.drop 1) out.length
                = toByte (ldap_pvt_unhex c1.toNat * 16) := by
              have := peek_at out (toByte (ldap_pvt_unhex c1.toNat * 16)) (M.drop 1) out.length rfl
              simpa using this
            rw [hpk, toByte_add]
            have hset : ((out ++ [toByte (ldap_pvt_unhex c1.toNat * 16)]) ++ M.drop 1).set out.length
                  (toByte (ldap_pvt_unhex c1.toNat * 16 + ldap_pvt_unhex c2.toNat))
                = (out ++ [toByte (ldap_pvt_unhex c1.toNat * 16 + ldap_pvt_unhex c2.toNat)])
                    ++ M.drop 1 := by
              simp
            rw [hset]
            have hstep := ih (out ++ [toByte (ldap_pvt_unhex c1.toNat * 16 + ldap_pvt_unhex c2.toNat)])
              (M.drop 1) t rest (g + 2)
              (by rw [List.drop_drop]; rw [show 1 + (g + 2) = g + 1 + 1 + 1 by omega]; exact hM3)
              ht0 hct (by simp at hf; omega)
            have hidx : (out ++ [toByte (ldap_pvt_unhex c1.toNat * 16 + ldap_pvt_unhex c2.toNat)]).length
                + (g + 2) = out.length + g + 3 := by simp; omega
            have hidx2 : (out ++ [toByte (ldap_pvt_unhex c1.toNat * 16 + ldap_pvt_unhex c2.toNat)]).length
                = out.length + 1 := by simp
            rw [hidx, hidx2] at hstep
            rw [hstep]
            rw [percentDecode_esc]
            simp [List.drop_drop, Nat.add_comm, Nat.add_left_comm]
      · have hct : escComplete t = true := by rw [escComplete_cons_ne c t hpc] at hc; exact hc
        have hM1 := drop_succ_of_drop hM
        have hr0 := getElem?_append_drop out M g c _ hM
        unfold hex_unescape_loop
        rw [hr0]
        simp only [hc0, hpc, if_false]
        rw [set_append_head out M c hMne]
        have hstep := ih (out ++ [c]) (M.drop 1) t rest g
          (by rw [List.drop_drop]; rw [show 1 + g = g + 1 by omega]; exact hM1)
          ht0 hct (by simp at hf; omega)
        have hidx : (out ++ [c]).length + g = out.length + g + 1 := by simp; omega
        have hidx2 : (out ++ [c]).length = out.length + 1 := by simp
        rw [hidx, hidx2] at hstep
        rw [hstep]
        rw [percentDecode_cons_ne c t hpc]
        simp [List.drop_drop, Nat.add_comm, Nat.add_left_comm]

/-- `ldap_pvt_hex_unescape` on a C string whose escapes are complete: the
decoded text, its terminator, and behind it what the buffer held before. -/
theorem hex_unescape_decode (pre t rest : List Char) (i : Nat) (hi : i = pre.length)
    (h0 : NUL ∉ t) (hc : escComplete t = true) :
    ldap_pvt_hex_unescape (pre ++ t ++ NUL :: rest) i
      = some (pre ++ percentDecode t ++ NUL
          :: (t ++ NUL :: rest).drop ((percentDecode t).length + 1)) := by
  subst hi
  unfold ldap_pvt_hex_unescape
  have := hex_unescape_loop_decode ((pre ++ t ++ NUL :: rest).length + 1) pre (t ++ NUL :: rest)
    t rest 0 rfl h0 hc (by simp; omega)
  simpa using this

theorem percentDecode_append_clean (a b : List Char) (ha : '%' ∉ a) :
    percentDecode (a ++ b) = a ++ percentDecode b := by
  induction a with
  | nil => rfl
  | cons c a ih =>
    have hc : c ≠ '%' := fun h => ha (by simp [h])
    have ha2 : '%' ∉ a := fun h => ha (by simp [h])
    rw [List.cons_append, percentDecode_cons_ne c _ hc, ih ha2]
    rfl

theorem escComplete_append_clean (a b : List Char) (ha : '%' ∉ a) :
    escComplete (a ++ b) = escComplete b := by
  induction a with
  | nil => rfl
  | cons c a ih =>
    have hc : c ≠ '%' := fun h => ha (by simp [h])
    have ha2 : '%' ∉ a := fun h => ha (by simp [h])
    rw [List.cons_append, escComplete_cons_ne c _ hc, ih ha2]

theorem percentDecode_clean (a : List Char) (ha : '%' ∉ a) : percentDecode a = a := by
  have := percentDecode_append_clean a [] ha
  simpa [percentDecode] using this

theorem numeral_clean (p : List Char) (hp : isNumeral p) :
    p ≠ [] ∧ '/' ∉ p ∧ '%' ∉ p ∧ NUL ∉ p ∧ '?' ∉ p := by
  refine ⟨hp.1, ?_, ?_, ?_, ?_⟩
  · exact digit_mem_ne p hp.2 '/' (by decide)
  · exact digit_mem_ne p hp.2 '%' (by decide)
  · exact digit_mem_ne p hp.2 NUL (by decide)
  · exact digit_mem_ne p hp.2 '?' (by decide)

/-- Hostport `h` with nothing after it. -/
theorem hostport_noslash_plain (h buf : List Char) (ludp : LDAPURLDesc)
    (hb : buf = h ++ [NUL])
    (hsl : '/' ∉ h) (hco : ':' ∉ h) (hbr : '[' ∉ h) (hpc : '%' ∉ h) (h0 : NUL ∉ h) :
    parse_hostport buf ludp = .success { ludp with lud_host := some h } := by
  subst hb
  unfold parse_hostport
  rw [strchr0_none '/' h [] hsl (by decide)]
  have hpk : peek (h ++ [NUL]) 0 ≠ '[' := peek0_ne h NUL [] '[' hbr (by decide)
  simp only [hpk, if_false]
  rw [strchr0_none ':' h [] hco (by decide)]
  unfold parse_port
  rw [(parse_host_plain h [] none ludp hpc h0 hbr).2]
  rfl

/-- The malformed referral `h:pt??d`, without `/`: the dn is what follows the
two question marks, decoded. -/
theorem hostport_kludge (h pt d buf : List Char) (ludp : LDAPURLDesc)
    (hb : buf = h ++ ':' :: (pt ++ '?' :: '?' :: (d ++ [NUL])))
    (hsl : '/' ∉ h) (hco : ':' ∉ h) (hbr : '[' ∉ h) (hpc : '%' ∉ h) (h0 : NUL ∉ h)
    (hpt : isNumeral pt) (hv : (numeralValue pt : Int) ≤ INT_MAX)
    (hsd : '/' ∉ d) (hd0 : NUL ∉ d) (hdc : escComplete d = true)
    (hDp : '%' ∉ percentDecode d) (hD0 : NUL ∉ percentDecode d) :
    parse_hostport buf ludp
      = .success { ludp with
          lud_port := (numeralValue pt : Int)
          lud_host := some h
          lud_dn := some (percentDecode d) } := by
  subst hb
  obtain ⟨hptne, hptsl, hptpc, hpt0, hptq⟩ := numeral_clean pt hpt
  unfold parse_hostport
  -- no '/'
  have hT : h ++ ':' :: (pt ++ '?' :: '?' :: (d ++ [NUL]))
      = (h ++ ':' :: (pt ++ '?' :: '?' :: d)) ++ [NUL] := by simp
  have hTsl : '/' ∉ h ++ ':' :: (pt ++ '?' :: '?' :: d) := by
    simp only [List.mem_append, List.mem_cons, not_or]
    exact ⟨hsl, by decide, hptsl, by decide, by decide, hsd⟩
  rw [hT, strchr0_none '/' _ [] hTsl (by decide), ← hT]
  have hpk : peek (h ++ ':' :: (pt ++ '?' :: '?' :: (d ++ [NUL]))) 0 ≠ '[' :=
    peek0_ne h ':' _ '[' hbr (by decide)
  simp only [hpk, if_false]
  rw [strchr0_found ':' h _ hco h0]
  -- the port token is everything after the colon
  unfold parse_port
  simp only
  rw [set_at h ':' NUL _ h.length rfl]
  have hPT0 : NUL ∉ pt ++ '?' :: '?' :: d := by
    simp only [List.mem_append, List.mem_cons, not_or]
    exact ⟨hpt0, by decide, by decide, hd0⟩
  have hPTc : escComplete (pt ++ '?' :: '?' :: d) = true := by
    rw [escComplete_append_clean pt _ hptpc, escComplete_cons_ne '?' _ (by decide),
      escComplete_cons_ne '?' _ (by decide)]
    exact hdc
  have hPTd : percentDecode (pt ++ '?' :: '?' :: d) = pt ++ '?' :: '?' :: percentDecode d := by
    rw [percentDecode_append_clean pt _ hptpc, percentDecode_cons_ne '?' _ (by decide),
      percentDecode_cons_ne '?' _ (by decide)]
  have hB1 : h ++ NUL :: (pt ++ '?' :: '?' :: (d ++ [NUL]))
      = (h ++ [NUL]) ++ (pt ++ '?' :: '?' :: d) ++ NUL :: [] := by simp
  have hx := hex_unescape_decode (h ++ [NUL]) (pt ++ '?' :: '?' :: d) [] (h.length + 1)
    (by simp) hPT0 hPTc
  rw [← hB1, hPTd] at hx
  rw [hx]
  generalize ((pt ++ '?' :: '?' :: d) ++ [NUL]).drop ((pt ++ '?' :: '?' :: percentDecode d).length + 1)
    = J
  -- the buffer after the port token is decoded
  have hD0' : NUL ∉ pt ++ '?' :: '?' :: percentDecode d := by
    simp only [List.mem_append, List.mem_cons, not_or]
    exact ⟨hpt0, by decide, by decide, hD0⟩
  have hne' : pt ++ '?' :: '?' :: percentDecode d ≠ [] := by
    intro hnil
    have := congrArg List.length hnil
    simp at this
  have hpk2 : peek ((h ++ [NUL]) ++ (pt ++ '?' :: '?' :: percentDecode d) ++ NUL :: J) (h.length + 1)
      ≠ NUL :=
    fun hh => hne' ((peek_field (h ++ [NUL]) _ J (h.length + 1) (by simp) hD0').mp hh)
  have hcs := cstr_at (h ++ [NUL]) (pt ++ '?' :: '?' :: percentDecode d) J (h.length + 1)
    (by simp) hD0'
  simp only [hpk2, if_false, hcs]
  rw [atoi_numeral_stop pt '?' _ hpt (by decide) hv]
  simp only
  -- the host
  have hB2 : (h ++ [NUL]) ++ (pt ++ '?' :: '?' :: percentDecode d) ++ NUL :: J
      = h ++ NUL :: (pt ++ '?' :: '?' :: (percentDecode d ++ NUL :: J)) := by simp
  rw [hB2, (parse_host_plain h _ _ _ hpc h0 hbr).2]
  -- the two question marks and the dn
  unfold parse_kludge
  simp only
  have hB3 : h ++ NUL :: (pt ++ '?' :: '?' :: (percentDecode d ++ NUL :: J))
      = (h ++ [NUL]) ++ pt ++ '?' :: ('?' :: (percentDecode d ++ NUL :: J)) := by simp
  have hq := strchr_found '?' (h ++ [NUL]) pt ('?' :: (percentDecode d ++ NUL :: J))
    (h.length + 1) (by simp) hptq hpt0
  rw [← hB3] at hq
  rw [hq]
  simp only
  have hB4 : h ++ NUL :: (pt ++ '?' :: '?' :: (percentDecode d ++ NUL :: J))
      = (h ++ [NUL] ++ pt ++ ['?']) ++ '?' :: (percentDecode d ++ NUL :: J) := by simp
  have hpk3 := peek_at (h ++ [NUL] ++ pt ++ ['?']) '?' (percentDecode d ++ NUL :: J)
    (h.length + 1 + pt.length + 1) (by simp; omega)
  rw [← hB4] at hpk3
  simp only [hpk3, if_true]
  have hB5 : h ++ NUL :: (pt ++ '?' :: '?' :: (percentDecode d ++ NUL :: J))
      = (h ++ [NUL] ++ pt ++ ['?', '?']) ++ percentDecode d ++ NUL :: J := by simp
  have hi5 : h.length + 1 + pt.length + 2 = (h ++ [NUL] ++ pt ++ ['?', '?']).length := by
    simp; omega
  by_cases hDe : percentDecode d = []
  · have hpk4 := (peek_field (h ++ [NUL] ++ pt ++ ['?', '?']) (percentDecode d) J
      (h.length + 1 + pt.length + 2) hi5 hD0).mpr hDe
    rw [← hB5] at hpk4
    rw [if_neg (by rw [hpk4]; simp), hDe]
  · have hpk4 : peek ((h ++ [NUL] ++ pt ++ ['?', '?']) ++ percentDecode d ++ NUL :: J)
        (h.length + 1 + pt.length + 2) ≠ NUL :=
      fun hh => hDe ((peek_field (h ++ [NUL] ++ pt ++ ['?', '?']) (percentDecode d) J
        (h.length + 1 + pt.length + 2) hi5 hD0).mp hh)
    have hx2 := hex_unescape_clean (h ++ [NUL] ++ pt ++ ['?', '?']) (percentDecode d) J
      (h.length + 1 + pt.length + 2) hi5 hDp hD0
    have hcs2 := cstr_at (h ++ [NUL] ++ pt ++ ['?', '?']) (percentDecode d) J
      (h.length + 1 + pt.length + 2) hi5 hD0
    rw [← hB5] at hpk4 hx2 hcs2
    simp only [hpk4, ne_eq, not_false_eq_true, if_true]
    rw [hx2]
    simp only [hcs2]

/-- The text `ldap_url_list2urls` gives for a single descriptor. -/
theorem list2urls_single (scheme host : List Char) (port : Nat) (hport : port ≠ 0)
    (dn : Option (List Char)) (attrs : Option (List (List Char))) (scope : Int)
    (filter : Option (List Char)) (exts : Option (List (List Char))) :
    ldap_url_list2urls
        [{ lud_scheme := some scheme, lud_host := some host, lud_port := (port : Int),
           lud_dn := dn, lud_attrs := attrs, lud_scope := scope, lud_filter := filter,
           lud_exts := exts }]
      = .str (scheme ++ "://".toList
          ++ (if ':' ∈ host then '[' :: host ++ [']'] else host)
          ++ ':' :: decimal port ++ ['/']) := by
  have hp : ¬ ((port : Int) = 0) := by exact_mod_cast hport
  unfold ldap_url_list2urls
  simp only [List.cons_ne_nil, if_false, list2urls_loop, ne_eq, hp, not_false_eq_true, if_true,
    sprintf_d_nat]
  congr 1
  have : ∀ X : List Char, (X ++ ['/', ' ']).dropLast = X ++ ['/'] := by
    intro X
    have h2 : X ++ ['/', ' '] = (X ++ ['/']) ++ [' '] := by simp
    rw [h2, List.dropLast_concat]
  have h3 : scheme ++ "://".toList ++ (if ':' ∈ host then '[' :: host ++ [']'] else host)
        ++ ':' :: decimal port ++ ['/', ' ']
      = (scheme ++ "://".toList ++ (if ':' ∈ host then '[' :: host ++ [']'] else host)
        ++ ':' :: decimal port) ++ ['/', ' '] := by simp
  rw [h3, this]

theorem not_mem_of_forall {t bad : List Char} (h : ∀ c ∈ t, c ∉ bad) {x : Char}
    (hx : x ∈ bad) : x ∉ t := fun hm => h x hm hx

theorem not_mem_joinWith_of_forall (bad : List Char) (as : List (List Char))
    (h : ∀ a ∈ as, a ≠ [] ∧ ∀ c ∈ a, c ∉ bad) {x : Char} (hx : x ∈ bad) (hne : x ≠ ',') :
    x ∉ joinWith ',' as :=
  not_mem_joinWith x ',' hne as (fun a ha => not_mem_of_forall (h a ha).2 hx)

theorem scope_keyword (k : List Char) (v : Int)
    (hk : (k, v) ∈ [("base".toList, LDAP_SCOPE_BASE), ("one".toList, LDAP_SCOPE_ONELEVEL),
      ("onetree".toList, LDAP_SCOPE_ONELEVEL), ("sub".toList, LDAP_SCOPE_SUBTREE),
      ("subtree".toList, LDAP_SCOPE_SUBTREE)]) :
    k ≠ [] ∧ str2scope k = v ∧ v ≠ -1 ∧ '?' ∉ k ∧ '%' ∉ k ∧ NUL ∉ k := by
  simp only [List.mem_cons, Prod.mk.injEq, List.mem_singleton, List.not_mem_nil, or_false] at hk
  rcases hk with ⟨rfl, rfl⟩ | ⟨rfl, rfl⟩ | ⟨rfl, rfl⟩ | ⟨rfl, rfl⟩ | ⟨rfl, rfl⟩ <;> decide

theorem parselist_loop_all (rurls : List (List Char)) :
    ∀ (rds acc : List LDAPURLDesc),
      rurls.map (fun u => ldap_url_parse (some u) true) = rds.map ParseResult.success →
      parselist_loop rurls acc = .success (rds.reverse ++ acc) := by
  induction rurls with
  | nil =>
    intro rds acc h
    cases rds with
    | nil => rfl
    | cons d rds => simp at h
  | cons u rurls ih =>
    intro rds acc h
    cases rds with
    | nil => simp at h
    | cons d rds =>
      simp only [List.map_cons, List.cons.injEq] at h
      have h1 : ldap_url_parse (some u) true = .success d := h.1
      have h2 := ih rds (d :: acc) h.2
      rw [parselist_loop, h1]
      simp only
      rw [h2]
      simp

theorem new_urldesc_port (scheme : List Char)
    (hs : scheme ∈ ["ldap".toList, "ldaps".toList, "ldapi".toList]) :
    (new_urldesc scheme).lud_port = if scheme = "ldaps".toList then 636 else 389 := by
  simp only [List.mem_cons, List.mem_singleton, List.not_mem_nil, or_false] at hs
  rcases hs with rfl | rfl | rfl <;> decide

theorem scheme_cases {scheme : List Char}
    (hs : scheme ∈ ["ldap".toList, "ldaps".toList, "ldapi".toList]) :
    scheme = "ldap".toList ∨ scheme = "ldaps".toList ∨ scheme = "ldapi".toList := by
  simpa using hs

/-- The start shared by the URLs `ldap://h/d?...`: scheme, host and dn. -/
theorem parse_host_dn (h d rest : List Char)
    (hh : ∀ c ∈ h, c ∉ ['?', '%', '/', ':', '[', NUL])
    (hd : ∀ c ∈ d, c ∉ ['?', '%', NUL]) (hr0 : NUL ∉ rest) :
    ldap_url_parse (some ("ldap".toList ++ "://".toList ++ (h ++ '/' :: (d ++ '?' :: rest)))) true
      = parse_attrs (h ++ [NUL] ++ d ++ NUL :: (rest ++ [NUL])) ((h ++ [NUL]).length + d.length + 1)
          { lud_scheme := some "ldap".toList
            lud_host := some h
            lud_port := LDAP_PORT
            lud_dn := some d
            lud_attrs := none
            lud_scope := LDAP_SCOPE_BASE
            lud_filter := none
            lud_exts := none } := by
  have hh0 : NUL ∉ h := not_mem_of_forall hh (by simp)
  have hd0 : NUL ∉ d := not_mem_of_forall hd (by simp)
  have hX0 : NUL ∉ h ++ '/' :: (d ++ '?' :: rest) := by
    simp only [List.mem_append, List.mem_cons, not_or]
    exact ⟨hh0, by decide, hd0, by decide, hr0⟩
  rw [ldap_url_parse_plain _ _ (Or.inl rfl) hX0]
  refine (hostport_slash_plain h (d ++ '?' :: (rest ++ [NUL]))
    _ _ (by simp) (not_mem_of_forall hh (by simp)) (not_mem_of_forall hh (by simp))
    (not_mem_of_forall hh (by simp)) (not_mem_of_forall hh (by simp)) hh0).trans ?_
  refine (parse_dn_more (h ++ [NUL]) d (rest ++ [NUL])
    _ _ _ (by simp) (by simp) (not_mem_of_forall hd (by simp))
    (not_mem_of_forall hd (by simp)) hd0).trans ?_
  rfl

/-- C1 (amended): for every scheme among `ldap`, `ldaps`, `ldapi`, every
port in `[1, 65535]` written as a decimal numeral and every host text without
`/`, `:`, `?`, `%`, `[`, `]`, `<`, `>`, `,`, space, `ldap_url_parse` on
`scheme://host:port/` succeeds and `ldap_url_list2urls` on the resulting
descriptor returns exactly `scheme://host:port/`; and for a host that holds
`:` (and none of the other characters), given in brackets, parsing
`scheme://[host]:port/` and writing it again returns exactly
`scheme://[host]:port/`. -/
theorem C1_roundtrip (scheme h : List Char) (port : Nat)
    (hs : scheme ∈ ["ldap".toList, "ldaps".toList, "ldapi".toList])
    (hport : 1 ≤ port ∧ port ≤ 65535) :
    ((∀ c ∈ h, c ∉ ['/', ':', '?', '%', '[', ']', '<', '>', ',', ' ', NUL]) →
        ∃ ludp,
          ldap_url_parse (some (scheme ++ "://".toList ++ h ++ ':' :: decimal port ++ ['/'])) true
            = .success ludp
          ∧ ldap_url_list2urls [ludp]
            = .str (scheme ++ "://".toList ++ h ++ ':' :: decimal port ++ ['/']))
      ∧ (':' ∈ h → (∀ c ∈ h, c ∉ ['/', '?', '%', '[', ']', '<', '>', ',', ' ', NUL]) →
        ∃ ludp,
          ldap_url_parse (some (scheme ++ "://".toList ++ '[' :: h ++ ']' :: ':' :: decimal port
              ++ ['/'])) true
            = .success ludp
          ∧ ldap_url_list2urls [ludp]
            = .str (scheme ++ "://".toList ++ '[' :: h ++ ']' :: ':' :: decimal port ++ ['/'])) := by
  have hnum := decimal_isNumeral port
  obtain ⟨hpne, hpsl, hppc, hp0, hpq⟩ := numeral_clean _ hnum
  have hval := numeralValue_decimal port
  have hv2 : (numeralValue (decimal port) : Int) ≤ INT_MAX := by
    rw [hval]
    unfold INT_MAX
    have := hport.2
    omega
  have hat := atoi_numeral _ hnum hv2
  rw [hval] at hat
  have hp1 : port ≠ 0 := by omega
  constructor
  · intro hh
    have hh0 : NUL ∉ h := not_mem_of_forall hh (by simp)
    have hco : ':' ∉ h := not_mem_of_forall hh (by simp)
    have hurl : scheme ++ "://".toList ++ h ++ ':' :: decimal port ++ ['/']
        = scheme ++ "://".toList ++ (h ++ ':' :: (decimal port ++ ['/'])) := by
      simp [List.append_assoc]
    have hX0 : NUL ∉ h ++ ':' :: (decimal port ++ ['/']) := by
      simp only [List.mem_append, List.mem_cons, List.not_mem_nil, or_false, not_or]
      exact ⟨hh0, by decide, hp0, by decide⟩
    refine ⟨{ lud_scheme := some scheme, lud_host := some h, lud_port := (port : Int),
              lud_dn := some [], lud_attrs := none, lud_scope := LDAP_SCOPE_BASE,
              lud_filter := none, lud_exts := none }, ?_, ?_⟩
    · rw [hurl, ldap_url_parse_plain scheme _ (scheme_cases hs) hX0]
      refine (hostport_slash_port h (decimal port) [NUL] _ _ (port : Int) (by simp)
        (not_mem_of_forall hh (by simp)) hco (not_mem_of_forall hh (by simp))
        (not_mem_of_forall hh (by simp)) hh0 hpne hpsl hppc hp0 hat).trans ?_
      refine (parse_dn_last (h ++ [NUL] ++ decimal port ++ [NUL]) [] []
        _ _ _ (by simp) (by simp; omega) (by simp) (by simp) (by simp)).trans ?_
      rfl
    · rw [list2urls_single scheme h port hp1]
      simp [hco]
  · intro hco hh
    have hh0 : NUL ∉ h := not_mem_of_forall hh (by simp)
    have hurl : scheme ++ "://".toList ++ '[' :: h ++ ']' :: ':' :: decimal port ++ ['/']
        = scheme ++ "://".toList ++ ('[' :: (h ++ ']' :: ':' :: (decimal port ++ ['/']))) := by
      simp [List.append_assoc]
    have hX0 : NUL ∉ '[' :: (h ++ ']' :: ':' :: (decimal port ++ ['/'])) := by
      simp only [List.mem_append, List.mem_cons, List.not_mem_nil, or_false, not_or]
      exact ⟨by decide, hh0, by decide, by decide, hp0, by decide⟩
    refine ⟨{ lud_scheme := some scheme, lud_host := some h, lud_port := (port : Int),
              lud_dn := some [], lud_attrs := none, lud_scope := LDAP_SCOPE_BASE,
              lud_filter := none, lud_exts := none }, ?_, ?_⟩
    · rw [hurl, ldap_url_parse_plain scheme _ (scheme_cases hs) hX0]
      refine (hostport_slash_bracket_port h (decimal port) [NUL] _ _ (port : Int) (by simp)
        (not_mem_of_forall hh (by simp)) (not_mem_of_forall hh (by simp))
        (not_mem_of_forall hh (by simp)) hh0 hpne hpsl hppc hp0 hat).trans ?_
      refine (parse_dn_last ('[' :: h ++ [NUL, NUL] ++ decimal port ++ [NUL]) [] []
        _ _ _ (by simp) (by simp; omega) (by simp) (by simp) (by simp)).trans ?_
      rfl
    · rw [list2urls_single scheme h port hp1]
      simp [hco]

/-- C1, witness: `ldap://host:389/` and `ldaps://[::1]:636/`. -/
theorem C1_roundtrip_witness :
    (∃ ludp,
        ldap_url_parse (some ("ldap".toList ++ "://".toList ++ "host".toList
            ++ ':' :: decimal 389 ++ ['/'])) true
          = .success ludp
        ∧ ldap_url_list2urls [ludp]
          = .str ("ldap".toList ++ "://".toList ++ "host".toList ++ ':' :: decimal 389 ++ ['/']))
      ∧ (∃ ludp,
        ldap_url_parse (some ("ldaps".toList ++ "://".toList ++ '[' :: "::1".toList
            ++ ']' :: ':' :: decimal 636 ++ ['/'])) true
          = .success ludp
        ∧ ldap_url_list2urls [ludp]
          = .str ("ldaps".toList ++ "://".toList ++ '[' :: "::1".toList
            ++ ']' :: ':' :: decimal 636 ++ ['/'])) :=
  ⟨(C1_roundtrip "ldap".toList "host".toList 389 (by decide) (by decide)).1 (by decide),
   (C1_roundtrip "ldaps".toList "::1".toList 636 (by decide) (by decide)).2
    (by decide) (by decide)⟩

/-- C1, counterexample: port 0 lies in `[0, 65535]`; `ldap://host:0/` parses,
and `ldap_url_list2urls` writes the descriptor as `ldap://host/`, without the
port. -/
theorem C1_counterexample :
    ∃ ludp,
      ldap_url_parse (some ("ldap".toList ++ "://".toList ++ "host".toList
          ++ ':' :: decimal 0 ++ ['/'])) true
        = .success ludp
      ∧ ldap_url_list2urls [ludp] = .str "ldap://host/".toList
      ∧ "ldap://host/".toList
        ≠ "ldap".toList ++ "://".toList ++ "host".toList ++ ':' :: decimal 0 ++ ['/'] :=
  ⟨{ lud_scheme := some "ldap".toList, lud_host := some "host".toList, lud_port := 0,
     lud_dn := some [], lud_attrs := none, lud_scope := 0, lud_filter := none,
     lud_exts := none }, by decide, by decide, by decide⟩

/-- C2: for every host `h` (no `/`, `:`, `[`), dn `d`, non-empty list of
non-empty attribute names, scope keyword `k` among `base`, `one`, `onetree`,
`sub`, `subtree`, non-empty filter `f` and non-empty list of non-empty
extensions, none of them holding `?` or `%` and no attribute name or
extension holding `,`, `ldap_url_parse` on `ldap://h/d?a1,...,an?k?f?e1,...,em`
succeeds with host `h`, dn `d`, the attributes in their order, the scope of
`k`, filter `f` and the extensions in their order. -/
theorem C2_parse_all_fields (h d k f : List Char) (as es : List (List Char)) (v : Int)
    (hk : (k, v) ∈ [("base".toList, LDAP_SCOPE_BASE), ("one".toList, LDAP_SCOPE_ONELEVEL),
      ("onetree".toList, LDAP_SCOPE_ONELEVEL), ("sub".toList, LDAP_SCOPE_SUBTREE),
      ("subtree".toList, LDAP_SCOPE_SUBTREE)])
    (has : as ≠ []) (hf : f ≠ []) (hes : es ≠ [])
    (hh : ∀ c ∈ h, c ∉ ['/', ':', '[', '?', '%', NUL])
    (hd : ∀ c ∈ d, c ∉ ['?', '%', NUL])
    (hf2 : ∀ c ∈ f, c ∉ ['?', '%', NUL])
    (ha : ∀ a ∈ as, a ≠ [] ∧ ∀ c ∈ a, c ∉ [',', '?', '%', NUL])
    (he : ∀ e ∈ es, e ≠ [] ∧ ∀ c ∈ e, c ∉ [',', '?', '%', NUL]) :
    ldap_url_parse
        (some ("ldap://".toList ++ h ++ '/' :: d ++ '?' :: joinWith ',' as ++ '?' :: k
          ++ '?' :: f ++ '?' :: joinWith ',' es)) true
      = .success
          { lud_scheme := some "ldap".toList
            lud_host := some h
            lud_port := LDAP_PORT
            lud_dn := some d
            lud_attrs := some as
            lud_scope := v
            lud_filter := some f
            lud_exts := some es } := by
  obtain ⟨hkne, hkv, hv1, hkq, hkp, hk0⟩ := scope_keyword k v hk
  -- the parts of the text
  have hA := str2charray_join as (fun a ha1 =>
    ⟨(ha a ha1).1, not_mem_of_forall (ha a ha1).2 (by simp), not_mem_of_forall (ha a ha1).2 (by simp)⟩)
  have hE := str2charray_join es (fun e he1 =>
    ⟨(he e he1).1, not_mem_of_forall (he e he1).2 (by simp), not_mem_of_forall (he e he1).2 (by simp)⟩)
  have hAq : '?' ∉ joinWith ',' as := not_mem_joinWith_of_forall _ as ha (by simp) (by decide)
  have hAp : '%' ∉ joinWith ',' as := not_mem_joinWith_of_forall _ as ha (by simp) (by decide)
  have hA0 : NUL ∉ joinWith ',' as := not_mem_joinWith_of_forall _ as ha (by simp) (by decide)
  have hEq : '?' ∉ joinWith ',' es := not_mem_joinWith_of_forall _ es he (by simp) (by decide)
  have hEp : '%' ∉ joinWith ',' es := not_mem_joinWith_of_forall _ es he (by simp) (by decide)
  have hE0 : NUL ∉ joinWith ',' es := not_mem_joinWith_of_forall _ es he (by simp) (by decide)
  have hh0 : NUL ∉ h := not_mem_of_forall hh (by simp)
  have hd0 : NUL ∉ d := not_mem_of_forall hd (by simp)
  have hf0 : NUL ∉ f := not_mem_of_forall hf2 (by simp)
  have hAne : joinWith ',' as ≠ [] := by
    intro h1
    rw [h1] at hA
    exact has (by rw [← hA]; rfl)
  have hurl : "ldap://".toList ++ h ++ '/' :: d ++ '?' :: joinWith ',' as ++ '?' :: k
        ++ '?' :: f ++ '?' :: joinWith ',' es
      = "ldap".toList ++ "://".toList
        ++ (h ++ '/' :: (d ++ '?' :: (joinWith ',' as ++ '?' :: (k ++ '?' :: (f ++ '?' ::
          joinWith ',' es))))) := by
    simp [List.append_assoc]
  have hX0 : NUL ∉ h ++ '/' :: (d ++ '?' :: (joinWith ',' as ++ '?' :: (k ++ '?' :: (f ++ '?' ::
      joinWith ',' es)))) := by
    simp only [List.mem_append, List.mem_cons, not_or]
    exact ⟨hh0, by decide, hd0, by decide, hA0, by decide, hk0, by decide, hf0, by decide, hE0⟩
  rw [hurl, ldap_url_parse_plain _ _ (Or.inl rfl) hX0]
  refine (hostport_slash_plain h
    (d ++ '?' :: (joinWith ',' as ++ '?' :: (k ++ '?' :: (f ++ '?' :: (joinWith ',' es ++ [NUL])))))
    _ _ (by simp) (not_mem_of_forall hh (by simp)) (not_mem_of_forall hh (by simp))
    (not_mem_of_forall hh (by simp)) (not_mem_of_forall hh (by simp)) hh0).trans ?_
  refine (parse_dn_more (h ++ [NUL]) d
    (joinWith ',' as ++ '?' :: (k ++ '?' :: (f ++ '?' :: (joinWith ',' es ++ [NUL]))))
    _ _ _ (by simp) (by simp) (not_mem_of_forall hd (by simp))
    (not_mem_of_forall hd (by simp)) hd0).trans ?_
  refine (parse_attrs_more (h ++ [NUL] ++ d ++ [NUL]) (joinWith ',' as)
    (k ++ '?' :: (f ++ '?' :: (joinWith ',' es ++ [NUL])))
    _ _ _ (by simp) (by simp; omega) hAq hAp hA0).trans ?_
  refine (parse_scope_more (h ++ [NUL] ++ d ++ [NUL] ++ joinWith ',' as ++ [NUL]) k
    (f ++ '?' :: (joinWith ',' es ++ [NUL]))
    _ _ _ (by simp) (by simp; omega) hkq hkp hk0).trans ?_
  simp only [hkne, if_false, hkv, hv1]
  refine (parse_filter_more (h ++ [NUL] ++ d ++ [NUL] ++ joinWith ',' as ++ [NUL] ++ k ++ [NUL]) f
    (joinWith ',' es ++ [NUL])
    _ _ _ (by simp) (by simp; omega) (not_mem_of_forall hf2 (by simp))
    (not_mem_of_forall hf2 (by simp)) hf0).trans ?_
  refine (parse_exts_last
    (h ++ [NUL] ++ d ++ [NUL] ++ joinWith ',' as ++ [NUL] ++ k ++ [NUL] ++ f ++ [NUL])
    (joinWith ',' es) []
    _ _ _ (by simp) (by simp; omega) hEq hEp hE0).trans ?_
  simp [hA, hE, hes, hf, hAne, new_urldesc, strcasecmp_eq, strOf, NUL, tolower, LDAP_SCOPE_BASE]

/-- C2, witness: the property at a concrete input. -/
theorem C2_parse_all_fields_witness :
    ldap_url_parse (some "ldap://host/dc=x?cn,sn?sub?(uid=joe)?ext1,!ext2".toList) true
      = .success
          { lud_scheme := some "ldap".toList
            lud_host := some "host".toList
            lud_port := LDAP_PORT
            lud_dn := some "dc=x".toList
            lud_attrs := some ["cn".toList, "sn".toList]
            lud_scope := LDAP_SCOPE_SUBTREE
            lud_filter := some "(uid=joe)".toList
            lud_exts := some ["ext1".toList, "!ext2".toList] } :=
  C2_parse_all_fields "host".toList "dc=x".toList "sub".toList "(uid=joe)".toList
    ["cn".toList, "sn".toList] ["ext1".toList, "!ext2".toList] LDAP_SCOPE_SUBTREE
    (by decide) (by decide) (by decide) (by decide) (by decide) (by decide) (by decide) (by decide)
    (by decide)

/-- C3: for every URL-list text whose tokens (the entries between `,` and
space) each parse with `ldap_url_parse`, `ldap_url_parselist` succeeds and
returns one descriptor per token, the i-th one the descriptor `ldap_url_parse`
gives for the i-th token: the list is in the order of the text. -/
theorem C3_parselist_order (url : List Char) (ds : List LDAPURLDesc)
    (h : (ldap_str2charray url [',', ' ']).map (fun u => ldap_url_parse (some u) true)
      = ds.map ParseResult.success) :
    ldap_url_parselist (some url) = .success ds := by
  unfold ldap_url_parselist
  simp only
  have h2 : (ldap_str2charray url [',', ' ']).reverse.map (fun u => ldap_url_parse (some u) true)
      = ds.reverse.map ParseResult.success := by
    rw [List.map_reverse, List.map_reverse, h]
  rw [parselist_loop_all _ ds.reverse [] h2]
  simp

/-- C3, witness: the property at a concrete input. -/
theorem C3_parselist_order_witness :
    ldap_url_parselist (some "ldap://a/,ldaps://b:1/,ldapi://c".toList)
      = .success
          [ { lud_scheme := some "ldap".toList, lud_host := some "a".toList, lud_port := 389,
              lud_dn := some [], lud_attrs := none, lud_scope := 0, lud_filter := none,
              lud_exts := none },
            { lud_scheme := some "ldaps".toList, lud_host := some "b".toList, lud_port := 1,
              lud_dn := some [], lud_attrs := none, lud_scope := 0, lud_filter := none,
              lud_exts := none },
            { lud_scheme := some "ldapi".toList, lud_host := some "c".toList, lud_port := 389,
              lud_dn := none, lud_attrs := none, lud_scope := 0, lud_filter := none,
              lud_exts := none } ] :=
  C3_parselist_order "ldap://a/,ldaps://b:1/,ldapi://c".toList _ (by decide)

/-- C4 (amended): for every text `h` without `]`, `/`, `%`, every decimal
port numeral `p` whose value is at most 2147483647 and every dn `d` without
`?`, `%`, `ldap_url_parse` on `ldap://[h]:p/d` succeeds with host `h` (the
brackets stripped), port the value of `p` and dn `d`. -/
theorem C4_bracketed_host (h p d : List Char)
    (hh : ∀ c ∈ h, c ∉ [']', '/', '%', NUL])
    (hp : isNumeral p) (hv : numeralValue p ≤ 2147483647)
    (hd : ∀ c ∈ d, c ∉ ['?', '%', NUL]) :
    ldap_url_parse (some ("ldap://[".toList ++ h ++ "]:".toList ++ p ++ '/' :: d)) true
      = .success
          { lud_scheme := some "ldap".toList
            lud_host := some h
            lud_port := (numeralValue p : Int)
            lud_dn := some d
            lud_attrs := none
            lud_scope := LDAP_SCOPE_BASE
            lud_filter := none
            lud_exts := none } := by
  obtain ⟨hpne, hpsl, hppc, hp0, _⟩ := numeral_clean p hp
  have hh0 : NUL ∉ h := not_mem_of_forall hh (by simp)
  have hd0 : NUL ∉ d := not_mem_of_forall hd (by simp)
  have hv2 : (numeralValue p : Int) ≤ INT_MAX := by
    unfold INT_MAX
    exact_mod_cast hv
  have hurl : "ldap://[".toList ++ h ++ "]:".toList ++ p ++ '/' :: d
      = "ldap".toList ++ "://".toList ++ ('[' :: (h ++ ']' :: ':' :: (p ++ '/' :: d))) := by
    simp [List.append_assoc]
  have hX0 : NUL ∉ '[' :: (h ++ ']' :: ':' :: (p ++ '/' :: d)) := by
    simp only [List.mem_append, List.mem_cons, not_or]
    exact ⟨by decide, hh0, by decide, by decide, hp0, by decide, hd0⟩
  rw [hurl, ldap_url_parse_plain _ _ (Or.inl rfl) hX0]
  refine (hostport_slash_bracket_port h p (d ++ [NUL]) _ _ (numeralValue p : Int) (by simp)
    (not_mem_of_forall hh (by simp)) (not_mem_of_forall hh (by simp))
    (not_mem_of_forall hh (by simp)) hh0 hpne hpsl hppc hp0 (atoi_numeral p hp hv2)).trans ?_
  refine (parse_dn_last ('[' :: h ++ [NUL, NUL] ++ p ++ [NUL]) d []
    _ _ _ (by simp) (by simp; omega) (not_mem_of_forall hd (by simp))
    (not_mem_of_forall hd (by simp)) hd0).trans ?_
  rfl

/-- C4, witness: the property at a concrete input. -/
theorem C4_bracketed_host_witness :
    ldap_url_parse (some ("ldap://[".toList ++ "::1".toList ++ "]:".toList ++ "389".toList
        ++ '/' :: "dc=example".toList)) true
      = .success
          { lud_scheme := some "ldap".toList
            lud_host := some "::1".toList
            lud_port := (numeralValue "389".toList : Int)
            lud_dn := some "dc=example".toList
            lud_attrs := none
            lud_scope := LDAP_SCOPE_BASE
            lud_filter := none
            lud_exts := none } :=
  C4_bracketed_host "::1".toList "389".toList "dc=example".toList (by decide)
    ⟨by decide, by decide⟩ (by decide) (by decide)

/-- C4, counterexample: `2147483648` is a decimal numeral, and on
`ldap://[::1]:2147483648/dc=example` the parse does not succeed with that
port: the value does not fit the `int` that `atoi` returns and `lud_port`
holds. -/
theorem C4_counterexample :
    numeralValue "2147483648".toList = 2147483648
      ∧ ldap_url_parse (some "ldap://[::1]:2147483648/dc=example".toList) true = .undefined := by
  decide

/-- The malformed referral `ldap://h:p??d` on texts that a second decoding
leaves alone: for every host `h` without `/`, `:`, `[`, `%`, every decimal
port numeral `p` whose value is at most 2147483647 and every text `d`
without `/` in which every `%` has two characters after it and whose
percent-decoding holds no `%` and no NUL, `ldap_url_parse` succeeds with
host `h`, port the value of `p`, dn the percent-decoding of `d` (the empty
string, not absent, when `d` is empty), attributes, filter and extensions
absent, and scope base. -/
theorem legacy_referral_decoded_once (h p d : List Char)
    (hh : ∀ c ∈ h, c ∉ ['/', ':', '[', '%', NUL])
    (hp : isNumeral p) (hv : numeralValue p ≤ 2147483647)
    (hd : ∀ c ∈ d, c ∉ ['/', NUL])
    (hdc : escComplete d = true)
    (hD : ∀ c ∈ percentDecode d, c ∉ ['%', NUL]) :
    ldap_url_parse (some ("ldap://".toList ++ h ++ ':' :: p ++ "??".toList ++ d)) true
      = .success
          { lud_scheme := some "ldap".toList
            lud_host := some h
            lud_port := (numeralValue p : Int)
            lud_dn := some (percentDecode d)
            lud_attrs := none
            lud_scope := LDAP_SCOPE_BASE
            lud_filter := none
            lud_exts := none } := by
  obtain ⟨_, _, _, hp0, _⟩ := numeral_clean p hp
  have hh0 : NUL ∉ h := not_mem_of_forall hh (by simp)
  have hd0 : NUL ∉ d := not_mem_of_forall hd (by simp)
  have hv2 : (numeralValue p : Int) ≤ INT_MAX := by
    unfold INT_MAX
    exact_mod_cast hv
  have hurl : "ldap://".toList ++ h ++ ':' :: p ++ "??".toList ++ d
      = "ldap".toList ++ "://".toList ++ (h ++ ':' :: (p ++ '?' :: '?' :: d)) := by
    simp [List.append_assoc]
  have hX0 : NUL ∉ h ++ ':' :: (p ++ '?' :: '?' :: d) := by
    simp only [List.mem_append, List.mem_cons, not_or]
    exact ⟨hh0, by decide, hp0, by decide, by decide, hd0⟩
  rw [hurl, ldap_url_parse_plain _ _ (Or.inl rfl) hX0]
  refine (hostport_kludge h p d _ _ (by simp)
    (not_mem_of_forall hh (by simp)) (not_mem_of_forall hh (by simp))
    (not_mem_of_forall hh (by simp)) (not_mem_of_forall hh (by simp)) hh0 hp hv2
    (not_mem_of_forall hd (by simp)) hd0 hdc
    (not_mem_of_forall hD (by simp)) (not_mem_of_forall hD (by simp))).trans ?_
  rfl

/-- The example of the spec, `ldap://111.222.333.444:389??cn=x,o=y`. -/
theorem legacy_referral_decoded_once_example :
    ldap_url_parse (some ("ldap://".toList ++ "111.222.333.444".toList ++ ':' :: "389".toList
        ++ "??".toList ++ "cn=x,o=y".toList)) true
      = .success
          { lud_scheme := some "ldap".toList
            lud_host := some "111.222.333.444".toList
            lud_port := (numeralValue "389".toList : Int)
            lud_dn := some (percentDecode "cn=x,o=y".toList)
            lud_attrs := none
            lud_scope := LDAP_SCOPE_BASE
            lud_filter := none
            lud_exts := none } :=
  legacy_referral_decoded_once "111.222.333.444".toList "389".toList "cn=x,o=y".toList (by decide)
    ⟨by decide, by decide⟩ (by decide) (by decide) (by decide) (by decide)

/-- C5, the failing input: on `ldap://111.222.333.444:389??%2541` the dn is
`A`, not the percent-decoding `%41` of `%2541`.  Without a `/` the port token
is all that follows the `:`, and line 318 unescapes it as a whole, the dn
included; line 356 then unescapes the dn a second time.  With the `/`, in
`ldap://111.222.333.444:389/%2541`, the dn is unescaped once (line 386) and
is `%41`. -/
theorem C5_dn_decoded_twice :
    percentDecode "%2541".toList = "%41".toList
      ∧ ldap_url_parse (some "ldap://111.222.333.444:389??%2541".toList) true
        = .success
            { lud_scheme := some "ldap".toList
              lud_host := some "111.222.333.444".toList
              lud_port := 389
              lud_dn := some "A".toList
              lud_attrs := none
              lud_scope := 0
              lud_filter := none
              lud_exts := none }
      ∧ ldap_url_parse (some "ldap://111.222.333.444:389/%2541".toList) true
        = .success
            { lud_scheme := some "ldap".toList
              lud_host := some "111.222.333.444".toList
              lud_port := 389
              lud_dn := some "%41".toList
              lud_attrs := none
              lud_scope := 0
              lud_filter := none
              lud_exts := none } := by
  decide

/-- C7: for every scheme among `ldap`, `ldaps`, `ldapi` and every host text
`h` without `/`, `:`, `?`, `%`, `[`, `ldap_url_parse` on `scheme://h` succeeds
with host `h`, the port of the scheme (636 for `ldaps`, 389 for the other
two), scope base, and dn, attributes, filter and extensions absent. -/
theorem C7_host_only (scheme h : List Char)
    (hs : scheme ∈ ["ldap".toList, "ldaps".toList, "ldapi".toList])
    (hh : ∀ c ∈ h, c ∉ ['/', ':', '?', '%', '[', NUL]) :
    ldap_url_parse (some (scheme ++ "://".toList ++ h)) true
      = .success
          { lud_scheme := some scheme
            lud_host := some h
            lud_port := if scheme = "ldaps".toList then 636 else 389
            lud_dn := none
            lud_attrs := none
            lud_scope := LDAP_SCOPE_BASE
            lud_filter := none
            lud_exts := none } := by
  have hh0 : NUL ∉ h := not_mem_of_forall hh (by simp)
  rw [ldap_url_parse_plain scheme h (scheme_cases hs) hh0]
  rw [hostport_noslash_plain h _ _ rfl (not_mem_of_forall hh (by simp))
    (not_mem_of_forall hh (by simp)) (not_mem_of_forall hh (by simp))
    (not_mem_of_forall hh (by simp)) hh0]
  rw [← new_urldesc_port scheme hs]
  rfl

/-- C7, witness: the property at a concrete input. -/
theorem C7_host_only_witness :
    ldap_url_parse (some ("ldaps".toList ++ "://".toList ++ "ldap.example.com".toList)) true
      = .success
          { lud_scheme := some "ldaps".toList
            lud_host := some "ldap.example.com".toList
            lud_port := if "ldaps".toList = "ldaps".toList then 636 else 389
            lud_dn := none
            lud_attrs := none
            lud_scope := LDAP_SCOPE_BASE
            lud_filter := none
            lud_exts := none } :=
  C7_host_only "ldaps".toList "ldap.example.com".toList (by decide) (by decide)

theorem str2charray_loop_ne_nil (brk : List Char) (s : List Char) :
    ∀ cur : List Char, (cur ≠ [] ∨ ∃ c ∈ s, c ∉ brk) → str2charray_loop brk s cur ≠ [] := by
  induction s with
  | nil =>
    intro cur h
    rcases h with h | ⟨c, hc, _⟩
    · simp [str2charray_loop, h]
    · simp at hc
  | cons x s ih =>
    intro cur h
    by_cases hx : x ∈ brk
    · by_cases hcur : cur = []
      · have hs : ∃ c ∈ s, c ∉ brk := by
          rcases h with h | ⟨c, hc, hcb⟩
          · exact absurd hcur h
          · rcases List.mem_cons.mp hc with rfl | hc
            · exact absurd hx hcb
            · exact ⟨c, hc, hcb⟩
        simp only [str2charray_loop, hx, if_true, hcur]
        exact ih [] (Or.inr hs)
      · simp [str2charray_loop, hx, hcur]
    · simp only [str2charray_loop, hx, if_false]
      exact ih (cur ++ [x]) (Or.inl (by simp))

/-- A text that holds a character other than `,` has at least one entry. -/
theorem str2charray_has_entry (e : List Char) (h0 : NUL ∉ e) (hent : ∃ c ∈ e, c ≠ ',') :
    ldap_str2charray e [','] ≠ [] := by
  unfold ldap_str2charray
  rw [strOf_eq_self e h0]
  obtain ⟨c, hc, hne⟩ := hent
  exact str2charray_loop_ne_nil [','] e [] (Or.inr ⟨c, hc, by simpa using hne⟩)

/-- C9 (amended): `ldap://h/d????e` has five fields, the last one the
extensions.  For every host `h` without `?`, `%`, `/`, `:`, `[`, every dn `d`
and every text `e` without `?`, `%`, `/`, with `e` holding at least one entry
(a character other than `,`), `ldap_url_parse` succeeds on it with dn `d`,
attributes and filter absent, scope base and the comma-separated entries of
`e` as extensions.  Bad-url is the result when a sixth field follows, as in
`ldap://h/d????e?x`. -/
theorem C9_five_fields (h d e x : List Char)
    (hh : ∀ c ∈ h, c ∉ ['?', '%', '/', ':', '[', NUL])
    (hd : ∀ c ∈ d, c ∉ ['?', '%', '/', NUL])
    (he : ∀ c ∈ e, c ∉ ['?', '%', '/', NUL])
    (hent : ∃ c ∈ e, c ≠ ',')
    (hx : NUL ∉ x) :
    ldap_url_parse (some ("ldap://".toList ++ h ++ '/' :: d ++ "????".toList ++ e)) true
        = .success
            { lud_scheme := some "ldap".toList
              lud_host := some h
              lud_port := LDAP_PORT
              lud_dn := some d
              lud_attrs := none
              lud_scope := LDAP_SCOPE_BASE
              lud_filter := none
              lud_exts := some (ldap_str2charray e [',']) }
      ∧ ldap_url_parse (some ("ldap://".toList ++ h ++ '/' :: d ++ "????".toList ++ e
          ++ '?' :: x)) true
        = .error LDAP_URL_ERR_BADURL := by
  have hd2 : ∀ c ∈ d, c ∉ ['?', '%', NUL] := by
    intro c hc hm
    exact hd c hc (by
      simp only [List.mem_cons, List.mem_singleton, List.not_mem_nil, or_false] at hm ⊢
      tauto)
  have he0 : NUL ∉ e := not_mem_of_forall he (by simp)
  have heq : '?' ∉ e := not_mem_of_forall he (by simp)
  have hep : '%' ∉ e := not_mem_of_forall he (by simp)
  constructor
  · have hurl : "ldap://".toList ++ h ++ '/' :: d ++ "????".toList ++ e
        = "ldap".toList ++ "://".toList ++ (h ++ '/' :: (d ++ '?' :: ('?' :: '?' :: '?' :: e))) := by
      simp [List.append_assoc]
    have hr0 : NUL ∉ '?' :: '?' :: '?' :: e := by
      simp only [List.mem_cons, not_or]
      exact ⟨by decide, by decide, by decide, he0⟩
    rw [hurl, parse_host_dn h d _ hh hd2 hr0]
    refine (parse_attrs_more (h ++ [NUL] ++ d ++ [NUL]) [] ('?' :: '?' :: (e ++ [NUL]))
      _ _ _ (by simp) (by simp; omega) (by simp) (by simp) (by simp)).trans ?_
    refine (parse_scope_more (h ++ [NUL] ++ d ++ [NUL] ++ [] ++ [NUL]) [] ('?' :: (e ++ [NUL]))
      _ _ _ (by simp) (by simp; omega) (by simp) (by simp) (by simp)).trans ?_
    simp only [if_true]
    refine (parse_filter_more (h ++ [NUL] ++ d ++ [NUL] ++ [] ++ [NUL] ++ [] ++ [NUL]) []
      (e ++ [NUL])
      _ _ _ (by simp) (by simp; omega) (by simp) (by simp) (by simp)).trans ?_
    simp only [if_true]
    refine (parse_exts_last
      (h ++ [NUL] ++ d ++ [NUL] ++ [] ++ [NUL] ++ [] ++ [NUL] ++ [] ++ [NUL]) e []
      _ _ _ (by simp) (by simp; omega) heq hep he0).trans ?_
    rw [if_neg (str2charray_has_entry e he0 hent)]
  · have hurl : "ldap://".toList ++ h ++ '/' :: d ++ "????".toList ++ e ++ '?' :: x
        = "ldap".toList ++ "://".toList
          ++ (h ++ '/' :: (d ++ '?' :: ('?' :: '?' :: '?' :: (e ++ '?' :: x)))) := by
      simp [List.append_assoc]
    have hr0 : NUL ∉ '?' :: '?' :: '?' :: (e ++ '?' :: x) := by
      simp only [List.mem_cons, List.mem_append, not_or]
      exact ⟨by decide, by decide, by decide, he0, by decide, hx⟩
    rw [hurl, parse_host_dn h d _ hh hd2 hr0]
    refine (parse_attrs_more (h ++ [NUL] ++ d ++ [NUL]) []
      ('?' :: '?' :: (e ++ '?' :: (x ++ [NUL])))
      _ _ _ (by simp) (by simp; omega) (by simp) (by simp) (by simp)).trans ?_
    refine (parse_scope_more (h ++ [NUL] ++ d ++ [NUL] ++ [] ++ [NUL]) []
      ('?' :: (e ++ '?' :: (x ++ [NUL])))
      _ _ _ (by simp) (by simp; omega) (by simp) (by simp) (by simp)).trans ?_
    simp only [if_true]
    refine (parse_filter_more (h ++ [NUL] ++ d ++ [NUL] ++ [] ++ [NUL] ++ [] ++ [NUL]) []
      (e ++ '?' :: (x ++ [NUL]))
      _ _ _ (by simp) (by simp; omega) (by simp) (by simp) (by simp)).trans ?_
    simp only [if_true]
    exact parse_exts_more
      (h ++ [NUL] ++ d ++ [NUL] ++ [] ++ [NUL] ++ [] ++ [NUL] ++ [] ++ [NUL]) e (x ++ [NUL])
      _ _ _ (by simp) (by simp; omega) heq he0

/-- C9, witness: `ldap://host/dc=x????ext` succeeds with the one extension
`ext`, and `ldap://host/dc=x????ext?more` is bad-url. -/
theorem C9_five_fields_witness :
    ldap_url_parse (some ("ldap://".toList ++ "host".toList ++ '/' :: "dc=x".toList
          ++ "????".toList ++ "ext".toList)) true
        = .success
            { lud_scheme := some "ldap".toList
              lud_host := some "host".toList
              lud_port := LDAP_PORT
              lud_dn := some "dc=x".toList
              lud_attrs := none
              lud_scope := LDAP_SCOPE_BASE
              lud_filter := none
              lud_exts := some ["ext".toList] }
      ∧ ldap_url_parse (some ("ldap://".toList ++ "host".toList ++ '/' :: "dc=x".toList
          ++ "????".toList ++ "ext".toList ++ '?' :: "more".toList)) true
        = .error LDAP_URL_ERR_BADURL :=
  C9_five_fields "host".toList "dc=x".toList "ext".toList "more".toList
    (by decide) (by decide) (by decide) ⟨'e', by decide, by decide⟩ (by decide)

/-- C9, counterexample: `ldap://host/dc=x????ext` parses, with the one
extension `ext`; the result is not bad-url. -/
theorem C9_counterexample :
    ldap_url_parse (some "ldap://host/dc=x????ext".toList) true
      = .success
          { lud_scheme := some "ldap".toList
            lud_host := some "host".toList
            lud_port := 389
            lud_dn := some "dc=x".toList
            lud_attrs := none
            lud_scope := 0
            lud_filter := none
            lud_exts := some ["ext".toList] } := by
  decide

/-- C10 (amended): for every host `h` without `?`, `%`, `/`, `:`, `[` and
every dn `d` without `?`, `%`, `/`, `ldap_url_parse` on `ldap://h/d??` succeeds
with dn `d`, attributes absent, scope base, filter and extensions absent. -/
theorem C10_empty_attrs_and_scope (h d : List Char)
    (hh : ∀ c ∈ h, c ∉ ['?', '%', '/', ':', '[', NUL])
    (hd : ∀ c ∈ d, c ∉ ['?', '%', '/', NUL]) :
    ldap_url_parse (some ("ldap://".toList ++ h ++ '/' :: d ++ "??".toList)) true
      = .success
          { lud_scheme := some "ldap".toList
            lud_host := some h
            lud_port := LDAP_PORT
            lud_dn := some d
            lud_attrs := none
            lud_scope := LDAP_SCOPE_BASE
            lud_filter := none
            lud_exts := none } := by
  have hurl : "ldap://".toList ++ h ++ '/' :: d ++ "??".toList
      = "ldap".toList ++ "://".toList ++ (h ++ '/' :: (d ++ '?' :: ['?'])) := by
    simp [List.append_assoc]
  have hd2 : ∀ c ∈ d, c ∉ ['?', '%', NUL] := by
    intro c hc hm
    exact hd c hc (by
      simp only [List.mem_cons, List.mem_singleton, List.not_mem_nil, or_false] at hm ⊢
      tauto)
  rw [hurl, parse_host_dn h d ['?'] hh hd2 (by decide)]
  refine (parse_attrs_more (h ++ [NUL] ++ d ++ [NUL]) [] [NUL]
    _ _ _ (by simp) (by simp; omega) (by simp) (by simp) (by simp)).trans ?_
  refine (parse_scope_last (h ++ [NUL] ++ d ++ [NUL] ++ [] ++ [NUL]) [] []
    _ _ _ (by simp) (by simp; omega) (by simp) (by simp) (by simp)).trans ?_
  simp

/-- C10, witness: the property at a concrete input. -/
theorem C10_empty_attrs_and_scope_witness :
    ldap_url_parse (some ("ldap://".toList ++ "host".toList ++ '/' :: "dc=x".toList ++ "??".toList))
        true
      = .success
          { lud_scheme := some "ldap".toList
            lud_host := some "host".toList
            lud_port := LDAP_PORT
            lud_dn := some "dc=x".toList
            lud_attrs := none
            lud_scope := LDAP_SCOPE_BASE
            lud_filter := none
            lud_exts := none } :=
  C10_empty_attrs_and_scope "host".toList "dc=x".toList (by decide) (by decide)

/-- C10, counterexample: the host text `host:` holds none of `?`, `%`, `/`,
and `ldap://host:/dc=x??` does not parse: the port token is empty. -/
theorem C10_counterexample :
    (∀ c ∈ "host:".toList, c ∉ ['?', '%', '/', NUL])
      ∧ ldap_url_parse (some ("ldap://".toList ++ "host:".toList ++ '/' :: "dc=x".toList
          ++ "??".toList)) true
        = .error LDAP_URL_ERR_BADURL := by
  decide

/-! ## The scope keyword -/

theorem strcasecmp_eq_lower (k kw : List Char) (hk0 : NUL ∉ k) (hkw0 : NUL ∉ kw)
    (hkw : kw.map tolower = kw) :
    strcasecmp_eq k kw = decide (k.map tolower = kw) := by
  unfold strcasecmp_eq
  rw [strOf_eq_self k hk0, strOf_eq_self kw hkw0, hkw]

/-- `str2scope` and the table of the spec agree on every C text. -/
theorem str2scope_spec (k : List Char) (hk0 : NUL ∉ k) :
    str2scope k = (scopeOfKeyword (k.map tolower)).getD (-1)
      ∧ ∀ v, scopeOfKeyword (k.map tolower) = some v → v ≠ -1 := by
  have h1 := strcasecmp_eq_lower k "one".toList hk0 (by decide) (by decide)
  have h2 := strcasecmp_eq_lower k "onetree".toList hk0 (by decide) (by decide)
  have h3 := strcasecmp_eq_lower k "base".toList hk0 (by decide) (by decide)
  have h4 := strcasecmp_eq_lower k "sub".toList hk0 (by decide) (by decide)
  have h5 := strcasecmp_eq_lower k "subtree".toList hk0 (by decide) (by decide)
  unfold str2scope scopeOfKeyword
  rw [h1, h2, h3, h4, h5]
  generalize k.map tolower = L
  by_cases c3 : L = "base".toList
  · subst c3
    exact ⟨by decide, by decide⟩
  · by_cases c1 : L = "one".toList
    · subst c1
      exact ⟨by decide, by decide⟩
    · by_cases c2 : L = "onetree".toList
      · subst c2
        exact ⟨by decide, by decide⟩
      · by_cases c4 : L = "sub".toList
        · subst c4
          exact ⟨by decide, by decide⟩
        · by_cases c5 : L = "subtree".toList
          · subst c5
            exact ⟨by decide, by decide⟩
          · have d1 : ¬ L = ['o', 'n', 'e'] := c1
            have d2 : ¬ L = ['o', 'n', 'e', 't', 'r', 'e', 'e'] := c2
            have d3 : ¬ L = ['b', 'a', 's', 'e'] := c3
            have d4 : ¬ L = ['s', 'u', 'b'] := c4
            have d5 : ¬ L = ['s', 'u', 'b', 't', 'r', 'e', 'e'] := c5
            simp [d1, d2, d3, d4, d5]

/-- C11 (amended): for every host `h` without `?`, `%`, `/`, `:`, `[`, every
dn `d` without `?`, `%` and every non-empty scope token `k` without `?`, `%`,
`ldap_url_parse` on `ldap://h/d??k` succeeds exactly when `k`, letter case
ignored, is one of `base`, `one`, `onetree`, `sub`, `subtree`, and then with
scope base for `base`, one-level for `one` and `onetree`, subtree for `sub`
and `subtree`; for every other `k` the result is bad-scope. -/
theorem C11_scope_token (h d k : List Char)
    (hh : ∀ c ∈ h, c ∉ ['?', '%', '/', ':', '[', NUL])
    (hd : ∀ c ∈ d, c ∉ ['?', '%', NUL])
    (hkne : k ≠ []) (hk : ∀ c ∈ k, c ∉ ['?', '%', NUL]) :
    ldap_url_parse (some ("ldap://".toList ++ h ++ '/' :: d ++ "??".toList ++ k)) true
      = match scopeOfKeyword (k.map tolower) with
        | some v =>
          .success
            { lud_scheme := some "ldap".toList
              lud_host := some h
              lud_port := LDAP_PORT
              lud_dn := some d
              lud_attrs := none
              lud_scope := v
              lud_filter := none
              lud_exts := none }
        | none => .error LDAP_URL_ERR_BADSCOPE := by
  have hk0 : NUL ∉ k := not_mem_of_forall hk (by simp)
  have hurl : "ldap://".toList ++ h ++ '/' :: d ++ "??".toList ++ k
      = "ldap".toList ++ "://".toList ++ (h ++ '/' :: (d ++ '?' :: ('?' :: k))) := by
    simp [List.append_assoc]
  have hr0 : NUL ∉ '?' :: k := by
    simp only [List.mem_cons, not_or]
    exact ⟨by decide, hk0⟩
  rw [hurl, parse_host_dn h d _ hh hd hr0]
  refine (parse_attrs_more (h ++ [NUL] ++ d ++ [NUL]) [] (k ++ [NUL])
    _ _ _ (by simp) (by simp; omega) (by simp) (by simp) (by simp)).trans ?_
  refine (parse_scope_last (h ++ [NUL] ++ d ++ [NUL] ++ [] ++ [NUL]) k []
    _ _ _ (by simp) (by simp; omega) (not_mem_of_forall hk (by simp))
    (not_mem_of_forall hk (by simp)) hk0).trans ?_
  obtain ⟨hs, hv⟩ := str2scope_spec k hk0
  simp only [hkne, if_false, if_true]
  cases hsk : scopeOfKeyword (k.map tolower) with
  | none =>
    rw [hsk] at hs
    simp [hs]
  | some v =>
    rw [hsk] at hs
    have hv1 : v ≠ -1 := hv v hsk
    simp only [Option.getD_some] at hs
    simp [hs, hv1]

/-- C11, witness: `ldap://host/dc=x??SubTree` succeeds with scope subtree, and
`ldap://host/dc=x??bogus` is bad-scope. -/
theorem C11_scope_token_witness :
    ldap_url_parse (some ("ldap://".toList ++ "host".toList ++ '/' :: "dc=x".toList
        ++ "??".toList ++ "SubTree".toList)) true
      = .success
          { lud_scheme := some "ldap".toList
            lud_host := some "host".toList
            lud_port := LDAP_PORT
            lud_dn := some "dc=x".toList
            lud_attrs := none
            lud_scope := LDAP_SCOPE_SUBTREE
            lud_filter := none
            lud_exts := none }
      ∧ ldap_url_parse (some ("ldap://".toList ++ "host".toList ++ '/' :: "dc=x".toList
          ++ "??".toList ++ "bogus".toList)) true
        = .error LDAP_URL_ERR_BADSCOPE :=
  ⟨C11_scope_token "host".toList "dc=x".toList "SubTree".toList (by decide) (by decide)
    (by decide) (by decide),
   C11_scope_token "host".toList "dc=x".toList "bogus".toList (by decide) (by decide)
    (by decide) (by decide)⟩

/-- C11, counterexample: with the host text `host:` the scope token `base`
does not make the parse succeed: `ldap://host:/dc=x??base` is bad-url. -/
theorem C11_counterexample :
    scopeOfKeyword ("base".toList.map tolower) = some LDAP_SCOPE_BASE
      ∧ ldap_url_parse (some ("ldap://".toList ++ "host:".toList ++ '/' :: "dc=x".toList
          ++ "??".toList ++ "base".toList)) true
        = .error LDAP_URL_ERR_BADURL := by
  decide

/-! ## An extensions field without entries -/

theorem str2charray_loop_commas (x : List Char) (hx : ∀ c ∈ x, c = ',') :
    str2charray_loop [','] x [] = [] := by
  induction x with
  | nil => simp [str2charray_loop]
  | cons c x ih =>
    have hc : c = ',' := hx c (by simp)
    have hx2 : ∀ y ∈ x, y = ',' := fun y hy => hx y (by simp [hy])
    subst hc
    simp [str2charray_loop, ih hx2]

theorem str2charray_commas (x : List Char) (hx : ∀ c ∈ x, c = ',') :
    ldap_str2charray x [','] = [] := by
  have h0 : NUL ∉ x := by
    intro hm
    have := hx NUL hm
    revert this
    decide
  unfold ldap_str2charray
  rw [strOf_eq_self x h0]
  exact str2charray_loop_commas x hx

/-- The URL `ldap://h/d????e`: the fifth field is the extensions. -/
theorem parse_exts_field (h d e : List Char)
    (hh : ∀ c ∈ h, c ∉ ['?', '%', '/', ':', '[', NUL])
    (hd : ∀ c ∈ d, c ∉ ['?', '%', NUL])
    (he : ∀ c ∈ e, c ∉ ['?', '%', NUL]) :
    ldap_url_parse (some ("ldap://".toList ++ h ++ '/' :: d ++ "????".toList ++ e)) true
      = (if ldap_str2charray e [','] = [] then .undefined
         else .success
          { lud_scheme := some "ldap".toList
            lud_host := some h
            lud_port := LDAP_PORT
            lud_dn := some d
            lud_attrs := none
            lud_scope := LDAP_SCOPE_BASE
            lud_filter := none
            lud_exts := some (ldap_str2charray e [',']) }) := by
  have he0 : NUL ∉ e := not_mem_of_forall he (by simp)
  have hurl : "ldap://".toList ++ h ++ '/' :: d ++ "????".toList ++ e
      = "ldap".toList ++ "://".toList ++ (h ++ '/' :: (d ++ '?' :: ('?' :: '?' :: '?' :: e))) := by
    simp [List.append_assoc]
  have hr0 : NUL ∉ '?' :: '?' :: '?' :: e := by
    simp only [List.mem_cons, not_or]
    exact ⟨by decide, by decide, by decide, he0⟩
  rw [hurl, parse_host_dn h d _ hh hd hr0]
  refine (parse_attrs_more (h ++ [NUL] ++ d ++ [NUL]) [] ('?' :: '?' :: (e ++ [NUL]))
    _ _ _ (by simp) (by simp; omega) (by simp) (by simp) (by simp)).trans ?_
  refine (parse_scope_more (h ++ [NUL] ++ d ++ [NUL] ++ [] ++ [NUL]) [] ('?' :: (e ++ [NUL]))
    _ _ _ (by simp) (by simp; omega) (by simp) (by simp) (by simp)).trans ?_
  simp only [if_true]
  refine (parse_filter_more (h ++ [NUL] ++ d ++ [NUL] ++ [] ++ [NUL] ++ [] ++ [NUL]) []
    (e ++ [NUL])
    _ _ _ (by simp) (by simp; omega) (by simp) (by simp) (by simp)).trans ?_
  simp only [if_true]
  refine (parse_exts_last
    (h ++ [NUL] ++ d ++ [NUL] ++ [] ++ [NUL] ++ [] ++ [NUL] ++ [] ++ [NUL]) e []
    _ _ _ (by simp) (by simp; omega) (not_mem_of_forall he (by simp))
    (not_mem_of_forall he (by simp)) he0).trans ?_
  rfl

/-- C12, the code at the failing inputs: for every host `h` without `?`, `%`,
`/`, `:`, `[`, every dn `d` without `?`, `%`, `/` and every text `x` that is
empty or made of `,` only, the extensions of `ldap://h/d????x` have no entry,
and `ldap_url_parse` leaves through `if( i == 0 )` (line 522), where
`lud_exts` is freed on line 524 and freed again by `ldap_free_urldesc` (line
526, lines 864 to 866).  The result is not defined by C: it is not a clean
bad-extensions. -/
theorem C12_no_extension_entry (h d x : List Char)
    (hh : ∀ c ∈ h, c ∉ ['?', '%', '/', ':', '[', NUL])
    (hd : ∀ c ∈ d, c ∉ ['?', '%', '/', NUL])
    (hx : ∀ c ∈ x, c = ',') :
    ldap_url_parse (some ("ldap://".toList ++ h ++ '/' :: d ++ "????".toList ++ x)) true
      = .undefined := by
  have hd2 : ∀ c ∈ d, c ∉ ['?', '%', NUL] := by
    intro c hc hm
    exact hd c hc (by
      simp only [List.mem_cons, List.mem_singleton, List.not_mem_nil, or_false] at hm ⊢
      tauto)
  have hx2 : ∀ c ∈ x, c ∉ ['?', '%', NUL] := by
    intro c hc hm
    have := hx c hc
    subst this
    revert hm
    decide
  rw [parse_exts_field h d x hh hd2 hx2, str2charray_commas x hx]
  rfl

/-- C12, witness: `ldap://host/dc=x????,,` and `ldap://host/dc=x????`. -/
theorem C12_no_extension_entry_witness :
    ldap_url_parse (some ("ldap://".toList ++ "host".toList ++ '/' :: "dc=x".toList
        ++ "????".toList ++ ",,".toList)) true
      = .undefined
      ∧ ldap_url_parse (some ("ldap://".toList ++ "host".toList ++ '/' :: "dc=x".toList
          ++ "????".toList ++ [])) true
        = .undefined :=
  ⟨C12_no_extension_entry "host".toList "dc=x".toList ",,".toList (by decide) (by decide)
    (by decide),
   C12_no_extension_entry "host".toList "dc=x".toList [] (by decide) (by decide)
    (by simp)⟩

/-- With the host text `host:`, `ldap://host:/dc=x????` is bad-url: the port
token is empty, and the extensions are not reached. -/
theorem empty_port_before_extensions :
    (∀ c ∈ "host:".toList, c ∉ ['?', '%', '/', NUL])
      ∧ ldap_url_parse (some ("ldap://".toList ++ "host:".toList ++ '/' :: "dc=x".toList
          ++ "????".toList ++ "".toList)) true
        = .error LDAP_URL_ERR_BADURL := by
  decide

/-! ## The enclosure -/

/-- An enclosed URL whose text behind the scheme prefix is not empty and does
not end in `>` is a bad enclosure, whatever the prefix was. -/
theorem enclosure_not_closed (url init : List Char) (l : Char) (rest scheme : List Char)
    (hskip : skip_url_prefix (some url) = some (rest, true, scheme))
    (hrest : rest = init ++ [l]) (h0 : NUL ∉ rest) (hl : l ≠ '>') :
    ldap_url_parse (some url) true = .error LDAP_URL_ERR_BADENCLOSURE := by
  unfold ldap_url_parse
  rw [hskip]
  have hc : cstr (rest ++ [NUL]) 0 = rest := cstr0 rest [] h0
  have hlen : rest.length = init.length + 1 := by rw [hrest]; simp
  have hpk : peek (rest ++ [NUL]) (rest.length - 1) = l := by
    have : rest ++ [NUL] = init ++ l :: [NUL] := by rw [hrest]; simp
    rw [this]
    exact peek_at init l [NUL] _ (by omega)
  simp [parse_enclosure, strOf_eq_self rest h0, hc, hlen, hpk, hl]
  intro h
  rw [hlen] at hpk
  simp at hpk
  exact absurd (hpk.symm.trans h) hl

/-- C13, the failing input: on `<ldap://` the text behind the prefix is empty,
and the test for the closing `>` loads `url[strlen(url)-1]`, the byte before
the working copy; the result is not bad-enclosure. -/
theorem C13_empty_remainder :
    ldap_url_parse (some "<ldap://".toList) true = .undefined := by
  decide

/-- C14, the failing input: `ldap://host/dc=x%4` ends in a cut escape and the
unescape scan leaves the working copy, while in `<ldap://host/dc=x%4>` the
place of the stripped `>` is one more terminator and the parse succeeds. -/
theorem C14_wrapped_differs :
    ldap_url_parse (some "ldap://host/dc=x%4".toList) true = .undefined
      ∧ ldap_url_parse (some ("<".toList ++ "ldap://host/dc=x%4".toList ++ ">".toList)) true
        = .success
            { lud_scheme := some "ldap".toList
              lud_host := some "host".toList
              lud_port := 389
              lud_dn := some "dc=x".toList
              lud_attrs := none
              lud_scope := 0
              lud_filter := none
              lud_exts := none } := by
  decide

/-- C18, the failing input: the host text `%` of `ldap://%/abcdef` has length
1; the unescape scan runs over its terminator into the dn, and the host that
results is `/bcdef`, of length 6. -/
theorem C18_result_longer :
    (cstr ("%".toList ++ NUL :: "abcdef".toList ++ [NUL]) 0).length = 1
      ∧ (ldap_pvt_hex_unescape ("%".toList ++ NUL :: "abcdef".toList ++ [NUL]) 0).map
          (fun buf => cstr buf 0) = some "/bcdef".toList
      ∧ ldap_url_parse (some "ldap://%/abcdef".toList) true
        = .success
            { lud_scheme := some "ldap".toList
              lud_host := some "/bcdef".toList
              lud_port := 389
              lud_dn := some "cdef".toList
              lud_attrs := none
              lud_scope := 0
              lud_filter := none
              lud_exts := none } := by
  decide

/-! ## A list of hosts -/

theorem parselist_loop_error (urls : List (List Char)) :
    ∀ (acc : List LDAPURLDesc) (rc : LDAPErr) (l : List LDAPURLDesc),
      parselist_loop urls acc = .error rc l → l = [] := by
  induction urls with
  | nil => intro acc rc l h; cases h
  | cons u urls ih =>
    intro acc rc l h
    unfold parselist_loop at h
    split at h
    · cases h
    · cases h; rfl
    · exact ih _ rc l h

/-- When `ldap_url_parselist` returns an error, the list it hands back is
empty. -/
theorem parselist_error_empty (url : Option (List Char)) (rc : LDAPErr)
    (l : List LDAPURLDesc) (h : ldap_url_parselist url = .error rc l) : l = [] := by
  unfold ldap_url_parselist at h
  split at h
  · cases h; rfl
  · exact parselist_loop_error _ _ rc l h

/-- C20, the failing input: on the host list `[a:b:c host2` the token
`[a:b:c` has no `]`; `ldap_url_parsehosts` returns `LDAP_PARAM_ERROR` at line
711 and leaves in `*ludlist` the descriptor of `host2`, parsed before. -/
theorem C20_parsehosts_partial_list :
    ldap_url_parsehosts (some "[a:b:c host2".toList) 389
      = .error .LDAP_PARAM_ERROR
          [{ lud_scheme := some "ldap".toList
             lud_host := some "host2".toList
             lud_port := 389
             lud_dn := none
             lud_attrs := none
             lud_scope := 0
             lud_filter := none
             lud_exts := none }] := by
  decide

/-! ## Escapes made of hexadecimal digits -/

theorem hexEscaped_cons_ne (c : Char) (t : List Char) (hc : c ≠ '%') :
    hexEscaped (c :: t) = hexEscaped t := by
  cases t with
  | nil => simp [hexEscaped, hc]
  | cons c1 t =>
    cases t with
    | nil => simp [hexEscaped, hc]
    | cons c2 t => simp [hexEscaped, hc]

theorem replaceEscapes_cons_ne (c : Char) (t : List Char) (hc : c ≠ '%') :
    replaceEscapes (c :: t) = c :: replaceEscapes t := by
  cases t with
  | nil => simp [replaceEscapes, hc]
  | cons c1 t =>
    cases t with
    | nil => simp [replaceEscapes, hc]
    | cons c2 t => simp [replaceEscapes, hc]

theorem replaceEscapes_esc (x y : Char) (t : List Char) :
    replaceEscapes ('%' :: x :: y :: t)
      = Char.ofNat (16 * (hexValue x).getD 0 + (hexValue y).getD 0) :: replaceEscapes t := by
  rw [replaceEscapes]
  simp

theorem hexEscaped_esc (x y : Char) (t : List Char) (h : hexEscaped ('%' :: x :: y :: t) = true) :
    ∃ a b, hexValue x = some a ∧ hexValue y = some b ∧ 16 * a + b ≠ 0 ∧ hexEscaped t = true := by
  rw [hexEscaped] at h
  simp only [if_true] at h
  cases hx : hexValue x with
  | none => simp [hx] at h
  | some a =>
    cases hy : hexValue y with
    | none => simp [hx, hy] at h
    | some b =>
      simp only [hx, hy, Bool.and_eq_true, decide_eq_true_eq] at h
      exact ⟨a, b, rfl, rfl, h.1, h.2⟩

/-- On a hexadecimal digit `ldap_pvt_unhex` gives its value, below 16. -/
theorem unhex_hexValue (c : Char) (a : Nat) (h : hexValue c = some a) :
    ldap_pvt_unhex (c.toNat : Int) = (a : Int) ∧ a < 16 := by
  unfold hexValue at h
  unfold ldap_pvt_unhex
  by_cases h1 : 48 ≤ c.toNat ∧ c.toNat ≤ 57
  · simp only [h1, and_self, if_true, Option.some.injEq] at h
    have : (48 : Int) ≤ (c.toNat : Int) ∧ (c.toNat : Int) ≤ 57 := by omega
    simp only [this, and_self, if_true]
    omega
  · simp only [h1, if_false] at h
    have n1 : ¬ ((48 : Int) ≤ (c.toNat : Int) ∧ (c.toNat : Int) ≤ 57) := by omega
    simp only [n1, if_false]
    by_cases h2 : 65 ≤ c.toNat ∧ c.toNat ≤ 70
    · simp only [h2, and_self, if_true, Option.some.injEq] at h
      have : (65 : Int) ≤ (c.toNat : Int) ∧ (c.toNat : Int) ≤ 70 := by omega
      simp only [this, and_self, if_true]
      omega
    · simp only [h2, if_false] at h
      have n2 : ¬ ((65 : Int) ≤ (c.toNat : Int) ∧ (c.toNat : Int) ≤ 70) := by omega
      simp only [n2, if_false]
      by_cases h3 : 97 ≤ c.toNat ∧ c.toNat ≤ 102
      · simp only [h3, and_self, if_true, Option.some.injEq] at h
        omega
      · simp only [h3, if_false] at h
        cases h

theorem toByte_small (n : Nat) (h : n < 256) : toByte (n : Int) = Char.ofNat n := by
  unfold toByte
  congr 1
  omega

theorem ofNat_ne_NUL (n : Nat) (h : n < 256) (hn : n ≠ 0) : Char.ofNat n ≠ NUL := by
  intro he
  have := congrArg Char.toNat he
  rw [toNat_ofNat_small n h] at this
  have h0 : NUL.toNat = 0 := by decide
  omega

/-- A text whose escapes are made of hexadecimal digits, none of them for the
byte zero: the escapes are complete, the decoding is the replacement of each
`%XY` by its byte, and the result holds no NUL. -/
theorem hexEscaped_spec (n : Nat) :
    ∀ t : List Char, t.length ≤ n → NUL ∉ t → hexEscaped t = true →
      escComplete t = true ∧ percentDecode t = replaceEscapes t ∧ NUL ∉ replaceEscapes t := by
  induction n with
  | zero =>
    intro t hl _ _
    have : t = [] := List.length_eq_zero.mp (by omega)
    subst this
    exact ⟨rfl, rfl, by simp [replaceEscapes]⟩
  | succ n ih =>
    intro t hl h0 he
    cases t with
    | nil => exact ⟨rfl, rfl, by simp [replaceEscapes]⟩
    | cons c t =>
      have hc0 : c ≠ NUL := fun h => h0 (by simp [h])
      have ht0 : NUL ∉ t := fun h => h0 (by simp [h])
      by_cases hc : c = '%'
      · subst hc
        cases t with
        | nil => simp [hexEscaped] at he
        | cons x t =>
          cases t with
          | nil => simp [hexEscaped] at he
          | cons y t =>
            obtain ⟨a, b, hx, hy, hab, het⟩ := hexEscaped_esc x y t he
            have ht0 : NUL ∉ t := fun h => h0 (by simp [h])
            obtain ⟨i1, i2, i3⟩ := ih t (by simp at hl; omega) ht0 het
            obtain ⟨ux, ha⟩ := unhex_hexValue x a hx
            obtain ⟨uy, hb⟩ := unhex_hexValue y b hy
            refine ⟨?_, ?_, ?_⟩
            · rw [escComplete_esc]; exact i1
            · rw [percentDecode_esc, replaceEscapes_esc, i2, ux, uy, hx, hy]
              simp only [Option.getD_some]
              have : (a : Int) * 16 + (b : Int) = ((16 * a + b : Nat) : Int) := by
                push_cast; ring
              rw [this, toByte_small _ (by omega)]
            · rw [replaceEscapes_esc, hx, hy]
              simp only [Option.getD_some, List.mem_cons, not_or]
              exact ⟨(ofNat_ne_NUL _ (by omega) hab).symm, i3⟩
      · obtain ⟨i1, i2, i3⟩ := ih t (by simp at hl; omega) ht0
          (by rw [hexEscaped_cons_ne c t hc] at he; exact he)
        refine ⟨?_, ?_, ?_⟩
        · rw [escComplete_cons_ne c t hc]; exact i1
        · rw [percentDecode_cons_ne c t hc, replaceEscapes_cons_ne c t hc, i2]
        · rw [replaceEscapes_cons_ne c t hc]
          simp only [List.mem_cons, not_or]
          exact ⟨fun h => hc0 h.symm, i3⟩

theorem replaceEscapes_clean (t : List Char) (hp : '%' ∉ t) : replaceEscapes t = t := by
  induction t with
  | nil => rfl
  | cons c t ih =>
    have hc : c ≠ '%' := fun h => hp (by simp [h])
    have ht : '%' ∉ t := fun h => hp (by simp [h])
    rw [replaceEscapes_cons_ne c t hc, ih ht]

/-- C16: for every text in which each `%` is followed by two hexadecimal
digits, of either letter case, that encode a byte other than zero,
`ldap_pvt_hex_unescape` yields the text with each `%XY` replaced by the byte
`16 * value(X) + value(Y)` and every other character unchanged and in place;
a text without `%` is returned unchanged.  The text may stand anywhere in a
buffer: `pre` is before it, `rest` behind its terminator. -/
theorem C16_hex_unescape_decodes (pre t rest : List Char)
    (h0 : NUL ∉ t) (he : hexEscaped t = true) :
    (∃ buf, ldap_pvt_hex_unescape (pre ++ t ++ NUL :: rest) pre.length = some buf
        ∧ cstr buf pre.length = replaceEscapes t)
      ∧ ('%' ∉ t → replaceEscapes t = t) := by
  obtain ⟨hc, hd, hn⟩ := hexEscaped_spec t.length t (Nat.le_refl _) h0 he
  refine ⟨⟨_, hex_unescape_decode pre t rest pre.length rfl h0 hc, ?_⟩, replaceEscapes_clean t⟩
  rw [hd]
  exact cstr_at pre (replaceEscapes t) _ pre.length rfl hn

/-- C16, witness: `%41%42` yields `AB`. -/
theorem C16_hex_unescape_decodes_witness :
    (∃ buf, ldap_pvt_hex_unescape ([] ++ "%41%42".toList ++ NUL :: []) ([] : List Char).length
          = some buf
        ∧ cstr buf ([] : List Char).length = replaceEscapes "%41%42".toList)
      ∧ ('%' ∉ "%41%42".toList → replaceEscapes "%41%42".toList = "%41%42".toList)
      ∧ replaceEscapes "%41%42".toList = "AB".toList :=
  ⟨(C16_hex_unescape_decodes [] "%41%42".toList [] (by decide) (by decide)).1,
   (C16_hex_unescape_decodes [] "%41%42".toList [] (by decide) (by decide)).2,
   by decide⟩

/-! ## An escape cut short by the end of the text -/

/-- Over a stretch without `%` the unescape loop copies and moves on. -/
theorem hex_unescape_loop_skip (t : List Char) :
    ∀ (pre rest : List Char) (fuel : Nat), '%' ∉ t → NUL ∉ t →
      hex_unescape_loop (fuel + t.length) (pre ++ t ++ rest) pre.length pre.length
        = hex_unescape_loop fuel (pre ++ t ++ rest) (pre.length + t.length)
            (pre.length + t.length) := by
  induction t with
  | nil => intro pre rest fuel _ _; simp
  | cons c t ih =>
    intro pre rest fuel hp h0
    have hc : c ≠ '%' := fun h => hp (by simp [h])
    have hc0 : c ≠ NUL := fun h => h0 (by simp [h])
    have ht : '%' ∉ t := fun h => hp (by simp [h])
    have ht0 : NUL ∉ t := fun h => h0 (by simp [h])
    have hbuf : pre ++ (c :: t) ++ rest = pre ++ c :: (t ++ rest) := by simp
    have hbuf2 : pre ++ c :: (t ++ rest) = (pre ++ [c]) ++ t ++ rest := by simp
    have hf : fuel + (c :: t).length = (fuel + t.length) + 1 := by simp; omega
    have step : hex_unescape_loop ((fuel + t.length) + 1) (pre ++ c :: (t ++ rest)) pre.length
          pre.length
        = hex_unescape_loop (fuel + t.length) ((pre ++ [c]) ++ t ++ rest) (pre.length + 1)
            (pre.length + 1) := by
      rw [hex_unescape_loop, getElem?_at pre c _ pre.length rfl]
      simp only [hc, hc0, if_false]
      rw [set_at pre c c _ pre.length rfl, hbuf2]
    have := ih (pre ++ [c]) rest fuel ht ht0
    simp only [List.length_append, List.length_singleton] at this
    rw [hbuf, hf, step, this, ← hbuf2]
    simp only [List.length_cons]
    have e1 : pre.length + 1 + t.length = pre.length + (t.length + 1) := by omega
    rw [e1]

/-- C17, the code at the failing inputs: for every text `t` without `%`, the
scan of `t` followed by a lone `%`, or by `%` and one more character, in a
buffer of exactly the size of the string, goes on to load a byte behind the
terminator, outside the buffer; it does not stop at the end of the input and
yield `t`. -/
theorem C17_cut_escape_overrun (t : List Char) (x : Char)
    (hp : '%' ∉ t) (h0 : NUL ∉ t) (hx : x ≠ NUL) :
    ldap_pvt_hex_unescape (t ++ ['%', NUL]) 0 = none
      ∧ ldap_pvt_hex_unescape (t ++ ['%', x, NUL]) 0 = none := by
  constructor
  · unfold ldap_pvt_hex_unescape
    have h1 := hex_unescape_loop_skip t [] ['%', NUL] 3 hp h0
    simp only [List.nil_append, List.length_nil, Nat.zero_add] at h1
    have hl : (t ++ ['%', NUL]).length + 1 = 3 + t.length := by simp; omega
    rw [hl, h1]
    have g0 : (t ++ ['%', NUL])[t.length]? = some '%' := getElem?_at t '%' [NUL] _ rfl
    have g1 : (t ++ ['%', NUL])[t.length + 1]? = some NUL := by
      rw [show t ++ ['%', NUL] = (t ++ ['%']) ++ NUL :: [] by simp]
      exact getElem?_at (t ++ ['%']) NUL [] (t.length + 1) (by simp)
    have g2 : (t ++ ['%', NUL])[t.length + 2]? = none :=
      List.getElem?_eq_none (by simp)
    have hne : ('%' : Char) ≠ NUL := by decide
    simp [hex_unescape_loop, g0, g1, g2, hne]
  · unfold ldap_pvt_hex_unescape
    have h1 := hex_unescape_loop_skip t [] ['%', x, NUL] 4 hp h0
    simp only [List.nil_append, List.length_nil, Nat.zero_add] at h1
    have hl : (t ++ ['%', x, NUL]).length + 1 = 4 + t.length := by simp; omega
    rw [hl, h1]
    have g0 : (t ++ ['%', x, NUL])[t.length]? = some '%' := getElem?_at t '%' [x, NUL] _ rfl
    have g1 : (t ++ ['%', x, NUL])[t.length + 1]? = some x := by
      rw [show t ++ ['%', x, NUL] = (t ++ ['%']) ++ x :: [NUL] by simp]
      exact getElem?_at (t ++ ['%']) x [NUL] (t.length + 1) (by simp)
    have hne : ('%' : Char) ≠ NUL := by decide
    have hset : (t ++ ['%', x, NUL]).set t.length (toByte (ldap_pvt_unhex x.toNat * 16))
        = t ++ [toByte (ldap_pvt_unhex x.toNat * 16), x, NUL] := by
      exact set_at t '%' (toByte (ldap_pvt_unhex x.toNat * 16)) [x, NUL] t.length rfl
    have g2 : (t ++ [toByte (ldap_pvt_unhex x.toNat * 16), x, NUL])[t.length + 2]? = some NUL := by
      rw [show t ++ [toByte (ldap_pvt_unhex x.toNat * 16), x, NUL]
        = (t ++ [toByte (ldap_pvt_unhex x.toNat * 16), x]) ++ NUL :: [] by simp]
      exact getElem?_at (t ++ [toByte (ldap_pvt_unhex x.toNat * 16), x]) NUL []
        (t.length + 2) (by simp)
    have g3 : (t ++ [toByte (ldap_pvt_unhex x.toNat * 16), x, NUL])[t.length + 3]? = none :=
      List.getElem?_eq_none (by simp)
    unfold hex_unescape_loop
    simp only [g0, hne, if_false, if_true, g1, hx, ne_eq, not_false_eq_true, hset, g2,
      not_true_eq_false]
    unfold hex_unescape_loop
    simp only [g3]

/-- C17, witness: `dc=x%` and `dc=x%4`. -/
theorem C17_cut_escape_overrun_witness :
    ldap_pvt_hex_unescape ("dc=x".toList ++ ['%', NUL]) 0 = none
      ∧ ldap_pvt_hex_unescape ("dc=x".toList ++ ['%', '4', NUL]) 0 = none :=
  C17_cut_escape_overrun "dc=x".toList '4' (by decide) (by decide) (by decide)

/-! ## The tokens of a host list -/

theorem count_split (c : Char) (l : List Char) (h : 0 < l.count c) :
    ∃ l1 l2, l = l1 ++ c :: l2 ∧ c ∉ l1 ∧ l2.count c + 1 = l.count c := by
  induction l with
  | nil => simp at h
  | cons x l ih =>
    by_cases hx : x = c
    · subst hx
      exact ⟨[], l, rfl, by simp, by simp⟩
    · have hc : (x :: l).count c = l.count c := by
        rw [List.count_cons]
        simp [hx]
      rw [hc] at h
      obtain ⟨l1, l2, h1, h2, h3⟩ := ih h
      refine ⟨x :: l1, l2, by rw [h1]; rfl, ?_, by rw [hc]; exact h3⟩
      simp only [List.mem_cons, not_or]
      exact ⟨fun h => hx h.symm, h2⟩

theorem two_colons (a : List Char) (h : 2 ≤ a.count ':') :
    ∃ a1 a2 a3, a = a1 ++ ':' :: (a2 ++ ':' :: a3) ∧ ':' ∉ a1 ∧ ':' ∉ a2 := by
  obtain ⟨a1, r, h1, h2, h3⟩ := count_split ':' a (by omega)
  obtain ⟨a2, a3, h4, h5, _⟩ := count_split ':' r (by omega)
  exact ⟨a1, a2, a3, by rw [h1, h4], h2, h5⟩

theorem parsehosts_finish_clean (h rest : List Char) (port : Int)
    (hpc : '%' ∉ h) (h0 : NUL ∉ h) :
    parsehosts_finish (h ++ NUL :: rest) port
      = .ok { lud_scheme := some "ldap".toList, lud_host := some h, lud_port := port,
              lud_dn := none, lud_attrs := none, lud_scope := 0, lud_filter := none,
              lud_exts := none } := by
  unfold parsehosts_finish
  rw [hex_unescape0_clean h rest hpc h0]
  simp only [cstr0 h rest h0]

theorem parsehosts_port_clean (pre pt rest : List Char) (c : Char) (p : Nat)
    (hp : p = pre.length) (hpt : isNumeral pt) (hv : (numeralValue pt : Int) ≤ INT_MAX) :
    parsehosts_port (pre ++ c :: (pt ++ NUL :: rest)) p
      = parsehosts_finish (pre ++ NUL :: (pt ++ NUL :: rest)) (numeralValue pt : Int) := by
  obtain ⟨_, _, hpc, h0, _⟩ := numeral_clean pt hpt
  unfold parsehosts_port
  simp only
  rw [set_at pre c NUL _ p hp]
  have hb : pre ++ NUL :: (pt ++ NUL :: rest) = (pre ++ [NUL]) ++ pt ++ NUL :: rest := by simp
  have hp1 : p + 1 = (pre ++ [NUL]).length := by simp [hp]
  have hx := hex_unescape_clean (pre ++ [NUL]) pt rest (p + 1) hp1 hpc h0
  have hc := cstr_at (pre ++ [NUL]) pt rest (p + 1) hp1 h0
  rw [← hb] at hx hc
  rw [hx]
  simp only [hc, atoi_numeral pt hpt hv]

/-- One round of the loop of `ldap_url_parsehosts`, for a token of one of
the four forms. -/
theorem parsehosts_spec_wellFormed (s : HostSpec) (d : Int) (hs : s.wellFormed) :
    parsehosts_spec s.text d = .ok (s.desc d) := by
  cases s with
  | plain h =>
    simp only [HostSpec.wellFormed] at hs
    have hco : ':' ∉ h := not_mem_of_forall hs (by simp)
    have hpc : '%' ∉ h := not_mem_of_forall hs (by simp)
    have h0 : NUL ∉ h := not_mem_of_forall hs (by simp)
    simp only [HostSpec.text, HostSpec.desc]
    unfold parsehosts_spec
    simp only
    rw [strchr0_none ':' h [] hco (by decide)]
    exact parsehosts_finish_clean h [] d hpc h0
  | withPort h p =>
    simp only [HostSpec.wellFormed] at hs
    obtain ⟨hh, hp, hv⟩ := hs
    have hco : ':' ∉ h := not_mem_of_forall hh (by simp)
    have hpc : '%' ∉ h := not_mem_of_forall hh (by simp)
    have h0 : NUL ∉ h := not_mem_of_forall hh (by simp)
    have hpco : ':' ∉ p := digit_mem_ne p hp.2 ':' (by decide)
    have hv2 : (numeralValue p : Int) ≤ INT_MAX := by
      unfold INT_MAX
      exact_mod_cast hv
    simp only [HostSpec.text, HostSpec.desc]
    unfold parsehosts_spec
    simp only
    have hb : h ++ ':' :: p ++ [NUL] = h ++ ':' :: (p ++ NUL :: []) := by simp
    rw [hb, strchr0_found ':' h _ hco h0]
    simp only
    have hb2 : h ++ ':' :: (p ++ NUL :: []) = (h ++ [':']) ++ p ++ NUL :: [] := by simp
    have hq := strchr_none ':' (h ++ [':']) p [] (h.length + 1) (by simp) hpco (by decide)
    rw [← hb2] at hq
    rw [hq]
    simp only
    rw [parsehosts_port_clean h p [] ':' h.length rfl hp hv2]
    exact parsehosts_finish_clean h _ _ hpc h0
  | bracket a =>
    simp only [HostSpec.wellFormed] at hs
    obtain ⟨hcnt, ha⟩ := hs
    have hcl : ']' ∉ a := not_mem_of_forall ha (by simp)
    have hpc : '%' ∉ a := not_mem_of_forall ha (by simp)
    have h0 : NUL ∉ a := not_mem_of_forall ha (by simp)
    obtain ⟨a1, a2, a3, hsplit, hc1, hc2⟩ := two_colons a hcnt
    have h01 : NUL ∉ a1 := fun h => h0 (by rw [hsplit]; simp [h])
    have h02 : NUL ∉ a2 := fun h => h0 (by rw [hsplit]; simp [h])
    simp only [HostSpec.text, HostSpec.desc]
    unfold parsehosts_spec
    simp only
    have hb : '[' :: a ++ [']'] ++ [NUL]
        = ('[' :: a1) ++ ':' :: (a2 ++ ':' :: (a3 ++ [']', NUL])) := by
      rw [hsplit]; simp
    have hq1 := strchr0_found ':' ('[' :: a1) (a2 ++ ':' :: (a3 ++ [']', NUL]))
      (by simp only [List.mem_cons, not_or]; exact ⟨by decide, hc1⟩)
      (by simp only [List.mem_cons, not_or]; exact ⟨by decide, h01⟩)
    have hb2 : ('[' :: a1) ++ ':' :: (a2 ++ ':' :: (a3 ++ [']', NUL]))
        = (('[' :: a1) ++ [':']) ++ a2 ++ ':' :: (a3 ++ [']', NUL]) := by simp
    have hq2 := strchr_found ':' (('[' :: a1) ++ [':']) a2 (a3 ++ [']', NUL])
      (('[' :: a1).length + 1) (by simp) hc2 h02
    rw [← hb2] at hq2
    have hpk : peek ('[' :: a ++ [']'] ++ [NUL]) 0 = '[' := by simp [peek]
    have hcs : cstr ('[' :: a ++ [']'] ++ [NUL]) 1 = a ++ [']'] := by
      have := cstr_at ['['] (a ++ [']']) [] 1 rfl
        (by simp only [List.mem_append, List.mem_singleton, not_or]; exact ⟨h0, by decide⟩)
      simpa using this
    rw [← hb] at hq1 hq2
    rw [hq1]
    simp only
    rw [hq2]
    simp only [hpk, if_true, hcs]
    have hb3 : a ++ [']'] ++ [NUL] = a ++ ']' :: [NUL] := by simp
    rw [hb3, strchr0_found ']' a [NUL] hcl h0]
    simp only
    rw [set_at a ']' NUL [NUL] a.length rfl]
    have hpk2 : peek (a ++ [NUL, NUL]) (a.length + 1) = NUL := by
      have := peek_at (a ++ [NUL]) NUL [] (a.length + 1) (by simp)
      simpa using this
    have hne : NUL ≠ ':' := by decide
    simp only [hpk2, hne, ne_eq, not_false_eq_true, if_true, not_true_eq_false, if_false]
    exact parsehosts_finish_clean a [NUL] d hpc h0
  | bracketPort a p =>
    simp only [HostSpec.wellFormed] at hs
    obtain ⟨⟨hcnt, ha⟩, hp, hv⟩ := hs
    have hcl : ']' ∉ a := not_mem_of_forall ha (by simp)
    have hpc : '%' ∉ a := not_mem_of_forall ha (by simp)
    have h0 : NUL ∉ a := not_mem_of_forall ha (by simp)
    obtain ⟨_, _, _, hp0, _⟩ := numeral_clean p hp
    have hv2 : (numeralValue p : Int) ≤ INT_MAX := by
      unfold INT_MAX
      exact_mod_cast hv
    obtain ⟨a1, a2, a3, hsplit, hc1, hc2⟩ := two_colons a hcnt
    have h01 : NUL ∉ a1 := fun h => h0 (by rw [hsplit]; simp [h])
    have h02 : NUL ∉ a2 := fun h => h0 (by rw [hsplit]; simp [h])
    simp only [HostSpec.text, HostSpec.desc]
    unfold parsehosts_spec
    simp only
    have hb : '[' :: a ++ ']' :: ':' :: p ++ [NUL]
        = ('[' :: a1) ++ ':' :: (a2 ++ ':' :: (a3 ++ ']' :: ':' :: (p ++ [NUL]))) := by
      rw [hsplit]; simp
    have hq1 := strchr0_found ':' ('[' :: a1) (a2 ++ ':' :: (a3 ++ ']' :: ':' :: (p ++ [NUL])))
      (by simp only [List.mem_cons, not_or]; exact ⟨by decide, hc1⟩)
      (by simp only [List.mem_cons, not_or]; exact ⟨by decide, h01⟩)
    have hb2 : ('[' :: a1) ++ ':' :: (a2 ++ ':' :: (a3 ++ ']' :: ':' :: (p ++ [NUL])))
        = (('[' :: a1) ++ [':']) ++ a2 ++ ':' :: (a3 ++ ']' :: ':' :: (p ++ [NUL])) := by simp
    have hq2 := strchr_found ':' (('[' :: a1) ++ [':']) a2 (a3 ++ ']' :: ':' :: (p ++ [NUL]))
      (('[' :: a1).length + 1) (by simp) hc2 h02
    rw [← hb2] at hq2
    have hpk : peek ('[' :: a ++ ']' :: ':' :: p ++ [NUL]) 0 = '[' := by simp [peek]
    have hcs : cstr ('[' :: a ++ ']' :: ':' :: p ++ [NUL]) 1 = a ++ ']' :: ':' :: p := by
      have := cstr_at ['['] (a ++ ']' :: ':' :: p) [] 1 rfl
        (by
          simp only [List.mem_append, List.mem_cons, not_or]
          exact ⟨h0, by decide, by decide, hp0⟩)
      simpa using this
    rw [← hb] at hq1 hq2
    rw [hq1]
    simp only
    rw [hq2]
    simp only [hpk, if_true, hcs]
    have hb3 : a ++ ']' :: ':' :: p ++ [NUL] = a ++ ']' :: (':' :: (p ++ [NUL])) := by simp
    rw [hb3, strchr0_found ']' a _ hcl h0]
    simp only
    rw [set_at a ']' NUL _ a.length rfl]
    have hpk2 : peek (a ++ NUL :: ':' :: (p ++ [NUL])) (a.length + 1) = ':' := by
      have := peek_at (a ++ [NUL]) ':' (p ++ [NUL]) (a.length + 1) (by simp)
      simpa using this
    simp only [hpk2, ne_eq, not_true_eq_false, if_false]
    have hb4 : a ++ NUL :: ':' :: (p ++ [NUL]) = (a ++ [NUL]) ++ ':' :: (p ++ NUL :: []) := by simp
    rw [hb4, parsehosts_port_clean (a ++ [NUL]) p [] ':' (a.length + 1) (by simp) hp hv2]
    have hb5 : (a ++ [NUL]) ++ NUL :: (p ++ NUL :: []) = a ++ NUL :: (NUL :: (p ++ [NUL])) := by simp
    rw [hb5]
    exact parsehosts_finish_clean a _ _ hpc h0

theorem parsehosts_loop_all (rspecs : List HostSpec) (d : Int) :
    ∀ acc : List LDAPURLDesc, (∀ s ∈ rspecs, s.wellFormed) →
      parsehosts_loop (rspecs.map HostSpec.text) d acc
        = .success ((rspecs.map (HostSpec.desc d)).reverse ++ acc) := by
  induction rspecs with
  | nil => intro acc _; rfl
  | cons s rspecs ih =>
    intro acc h
    have h1 := parsehosts_spec_wellFormed s d (h s (by simp))
    have h2 := ih (s.desc d :: acc) (fun x hx => h x (by simp [hx]))
    rw [List.map_cons, parsehosts_loop, h1]
    simp only
    rw [h2]
    simp

/-- C19 (amended): for every default port `d` and every host-list text whose
tokens (the entries between `,` and space) each have one of the forms `h`,
`h:p`, `[a]`, `[a]:p`, with `h` free of `:`, `[`, `]`, `%`, with `a` holding at
least two `:` and no `]` or `%`, and with `p` a decimal numeral whose value
is at most 2147483647, `ldap_url_parsehosts` succeeds and returns one
descriptor per token, in the order of the tokens, each with scheme `ldap`,
host `h` (or `a`, the brackets stripped), port the value of `p` when the
token has a port and `d` otherwise, scope at its default, and dn, attributes,
filter and extensions absent. -/
theorem C19_parsehosts_forms (hosts : List Char) (d : Int) (specs : List HostSpec)
    (htok : ldap_str2charray hosts [',', ' '] = specs.map HostSpec.text)
    (hwf : ∀ s ∈ specs, s.wellFormed) :
    ldap_url_parsehosts (some hosts) d = .success (specs.map (HostSpec.desc d)) := by
  unfold ldap_url_parsehosts
  simp only
  rw [htok, ← List.map_reverse]
  rw [parsehosts_loop_all specs.reverse d [] (fun s hs => hwf s (List.mem_reverse.mp hs))]
  simp

/-- C19, witness: the host list `a b:1,[::1] [fe80::1]:636` with default port
389. -/
theorem C19_parsehosts_forms_witness :
    ldap_url_parsehosts (some "a b:1,[::1] [fe80::1]:636".toList) 389
      = .success
          [ { lud_scheme := some "ldap".toList, lud_host := some "a".toList, lud_port := 389
              lud_dn := none, lud_attrs := none, lud_scope := LDAP_SCOPE_BASE
              lud_filter := none, lud_exts := none },
            { lud_scheme := some "ldap".toList, lud_host := some "b".toList, lud_port := 1
              lud_dn := none, lud_attrs := none, lud_scope := LDAP_SCOPE_BASE
              lud_filter := none, lud_exts := none },
            { lud_scheme := some "ldap".toList, lud_host := some "::1".toList, lud_port := 389
              lud_dn := none, lud_attrs := none, lud_scope := LDAP_SCOPE_BASE
              lud_filter := none, lud_exts := none },
            { lud_scheme := some "ldap".toList, lud_host := some "fe80::1".toList
              lud_port := 636
              lud_dn := none, lud_attrs := none, lud_scope := LDAP_SCOPE_BASE
              lud_filter := none, lud_exts := none } ] :=
  C19_parsehosts_forms "a b:1,[::1] [fe80::1]:636".toList 389
    [HostSpec.plain "a".toList, HostSpec.withPort "b".toList "1".toList,
      HostSpec.bracket "::1".toList, HostSpec.bracketPort "fe80::1".toList "636".toList]
    (by decide)
    (by
      intro s hs
      simp only [List.mem_cons, List.mem_singleton, List.not_mem_nil, or_false] at hs
      rcases hs with rfl | rfl | rfl | rfl
      · simp only [HostSpec.wellFormed]; decide
      · simp only [HostSpec.wellFormed, isNumeral]; decide
      · simp only [HostSpec.wellFormed]; decide
      · simp only [HostSpec.wellFormed, isNumeral]; decide)

/-- C19, counterexample: `2147483648` is a decimal numeral, and on the host
list `host:2147483648` the call does not succeed with that port: the value
does not fit the `int` that `atoi` returns and `lud_port` holds. -/
theorem C19_counterexample :
    numeralValue "2147483648".toList = 2147483648
      ∧ ldap_url_parsehosts (some "host:2147483648".toList) 389 = .undefined := by
  decide

/-! ## The host keeps out of the later fields -/

theorem parse_exts_keeps_host (buf : List Char) (p : Nat) (ludp d : LDAPURLDesc)
    (h : parse_exts buf p ludp = .success d) : d.lud_host = ludp.lud_host := by
  unfold parse_exts at h
  try simp only at h
  repeat' split at h
  all_goals first
    | (cases h; rfl)
    | cases h

theorem parse_filter_keeps_host (buf : List Char) (p : Nat) (ludp d : LDAPURLDesc)
    (h : parse_filter buf p ludp = .success d) : d.lud_host = ludp.lud_host := by
  unfold parse_filter at h
  try simp only at h
  repeat' split at h
  all_goals first
    | (have h2 := parse_exts_keeps_host _ _ _ _ h; exact h2)
    | (cases h; rfl)
    | cases h

theorem parse_scope_keeps_host (buf : List Char) (p : Nat) (ludp d : LDAPURLDesc)
    (h : parse_scope buf p ludp = .success d) : d.lud_host = ludp.lud_host := by
  unfold parse_scope at h
  try simp only at h
  repeat' split at h
  all_goals first
    | (have h2 := parse_filter_keeps_host _ _ _ _ h; exact h2)
    | (cases h; rfl)
    | cases h

theorem parse_attrs_keeps_host (buf : List Char) (p : Nat) (ludp d : LDAPURLDesc)
    (h : parse_attrs buf p ludp = .success d) : d.lud_host = ludp.lud_host := by
  unfold parse_attrs at h
  try simp only at h
  repeat' split at h
  all_goals first
    | (have h2 := parse_scope_keeps_host _ _ _ _ h; exact h2)
    | (cases h; rfl)
    | cases h

theorem parse_dn_keeps_host (buf : List Char) (p : Nat) (ludp d : LDAPURLDesc)
    (h : parse_dn buf p ludp = .success d) : d.lud_host = ludp.lud_host := by
  unfold parse_dn at h
  try simp only at h
  repeat' split at h
  all_goals first
    | (have h2 := parse_attrs_keeps_host _ _ _ _ h; exact h2)
    | (cases h; rfl)
    | cases h

theorem parse_kludge_keeps_host (buf : List Char) (q : Option Nat) (ludp d : LDAPURLDesc)
    (h : parse_kludge buf q ludp = .success d) : d.lud_host = ludp.lud_host := by
  unfold parse_kludge at h
  try simp only at h
  repeat' split at h
  all_goals first
    | (cases h; rfl)
    | cases h

/-- The host step on a hostport that holds no escape and does not start with
`[`: the host of a successful parse is the text up to the terminator. -/
theorem parse_host_sets_host (hb rest : List Char) (p q : Option Nat) (ludp d : LDAPURLDesc)
    (hpc : '%' ∉ hb) (h0 : NUL ∉ hb) (hbr : hb.head? ≠ some '[')
    (h : parse_host (hb ++ NUL :: rest) p q ludp = .success d) :
    d.lud_host = some hb := by
  have hpk : peek (hb ++ NUL :: rest) 0 ≠ '[' := by
    cases hb with
    | nil => simp [peek, NUL]
    | cons c hb =>
      intro hc
      apply hbr
      simp only [peek, List.cons_append, List.getElem?_cons_zero, Option.getD_some] at hc
      simp [hc]
  unfold parse_host at h
  rw [hex_unescape0_clean hb rest hpc h0] at h
  simp only [hpk, if_false, cstr0 hb rest h0] at h
  split at h
  · exact parse_kludge_keeps_host _ _ _ _ h
  · exact parse_dn_keeps_host _ _ _ _ h

theorem strchrFrom_some (c : Char) (mem : List Char) :
    ∀ i, strchrFrom c mem = some i →
      ∃ t rest, mem = t ++ c :: rest ∧ c ∉ t ∧ NUL ∉ t ∧ t.length = i := by
  induction mem with
  | nil => intro i h; simp [strchrFrom] at h
  | cons x mem ih =>
    intro i h
    by_cases hx : x = c
    · subst hx
      simp only [strchrFrom, if_true, Option.some.injEq] at h
      exact ⟨[], mem, rfl, by simp, by simp, by simp [h]⟩
    · by_cases hx0 : x = NUL
      · rw [strchrFrom, if_neg hx, if_pos hx0] at h
        cases h
      · simp only [strchrFrom, hx, hx0, if_false, Option.map_eq_some'] at h
        obtain ⟨k, hk, hki⟩ := h
        obtain ⟨t, rest, h1, h2, h3, h4⟩ := ih k hk
        refine ⟨x :: t, rest, by rw [h1]; rfl, ?_, ?_, by simp [h4, hki]⟩
        · simp only [List.mem_cons, not_or]
          exact ⟨fun h => hx h.symm, h2⟩
        · simp only [List.mem_cons, not_or]
          exact ⟨fun h => hx0 h.symm, h3⟩

theorem strchr0_some (c : Char) (buf : List Char) (i : Nat) (h : strchr buf 0 c = some i) :
    ∃ t rest, buf = t ++ c :: rest ∧ c ∉ t ∧ NUL ∉ t ∧ t.length = i := by
  unfold strchr at h
  simp only [List.drop_zero, Nat.zero_add, Option.map_eq_some'] at h
  obtain ⟨k, hk, hki⟩ := h
  have := strchrFrom_some c buf k hk
  rw [hki] at this
  exact this

/-- The port step and the host step on a hostport `hp` that holds no escape
and does not start with `[`: the host of a successful parse holds no `:`. -/
theorem parse_port_host_no_colon (hp T : List Char) (p : Option Nat) (ludp d : LDAPURLDesc)
    (host : List Char) (hpc : '%' ∉ hp) (h0 : NUL ∉ hp) (hbr : hp.head? ≠ some '[')
    (h : parse_port (hp ++ NUL :: T) p (strchr (hp ++ NUL :: T) 0 ':') ludp = .success d)
    (hhost : d.lud_host = some host) : ':' ∉ host := by
  by_cases hco : ':' ∈ hp
  · -- the hostport has a colon: the host is the text before the first one
    obtain ⟨h1, pt, hsplit, hc1⟩ : ∃ h1 pt, hp = h1 ++ ':' :: pt ∧ ':' ∉ h1 := by
      have hcnt : 0 < hp.count ':' := List.count_pos_iff.mpr hco
      obtain ⟨l1, l2, e1, e2, _⟩ := count_split ':' hp hcnt
      exact ⟨l1, l2, e1, e2⟩
    have h01 : NUL ∉ h1 := fun hm => h0 (by rw [hsplit]; simp [hm])
    have h0pt : NUL ∉ pt := fun hm => h0 (by rw [hsplit]; simp [hm])
    have hpc1 : '%' ∉ h1 := fun hm => hpc (by rw [hsplit]; simp [hm])
    have hpcpt : '%' ∉ pt := fun hm => hpc (by rw [hsplit]; simp [hm])
    have hbr1 : h1.head? ≠ some '[' := by
      cases h1 with
      | nil => simp
      | cons c h1 =>
        rw [hsplit] at hbr
        simpa using hbr
    have hb : hp ++ NUL :: T = h1 ++ ':' :: (pt ++ NUL :: T) := by rw [hsplit]; simp
    rw [hb, strchr0_found ':' h1 _ hc1 h01] at h
    unfold parse_port at h
    simp only at h
    rw [set_at h1 ':' NUL _ h1.length rfl] at h
    have hb2 : h1 ++ NUL :: (pt ++ NUL :: T) = (h1 ++ [NUL]) ++ pt ++ NUL :: T := by simp
    have hx := hex_unescape_clean (h1 ++ [NUL]) pt T (h1.length + 1) (by simp) hpcpt h0pt
    rw [← hb2] at hx
    rw [hx] at h
    simp only at h
    split at h
    · cases h
    · split at h
      · cases h
      · have := parse_host_sets_host h1 _ _ _ _ _ hpc1 h01 hbr1 h
        rw [this] at hhost
        cases hhost
        exact hc1
  · -- no colon: the host is the hostport
    rw [strchr0_none ':' hp T hco (by decide)] at h
    unfold parse_port at h
    have := parse_host_sets_host hp _ _ _ _ _ hpc h0 hbr h
    rw [this] at hhost
    cases hhost
    exact hco

theorem takeWhile_split (X : List Char) :
    (X = X.takeWhile (fun c => c ≠ '/') ∧ '/' ∉ X)
      ∨ ∃ r, X = X.takeWhile (fun c => c ≠ '/') ++ '/' :: r := by
  induction X with
  | nil => left; simp
  | cons x X ih =>
    by_cases hx : x = '/'
    · right
      exact ⟨X, by simp [List.takeWhile, hx]⟩
    · rcases ih with ⟨h1, h2⟩ | ⟨r, hr⟩
      · left
        refine ⟨?_, ?_⟩
        · simp only [List.takeWhile, ne_eq, hx, not_false_eq_true, decide_True]
          exact congrArg (x :: ·) h1
        · simp only [List.mem_cons, not_or]
          exact ⟨fun h => hx h.symm, h2⟩
      · right
        refine ⟨r, ?_⟩
        simp only [List.takeWhile, ne_eq, hx, not_false_eq_true, decide_True, List.cons_append]
        exact congrArg (x :: ·) hr

theorem not_mem_takeWhile_slash (X : List Char) : '/' ∉ X.takeWhile (fun c => c ≠ '/') := by
  intro h
  have := List.mem_takeWhile_imp h
  simp at this

/-- The hostport code on a working copy `X`, terminated, whose hostport
token holds no escape and does not start with `[`. -/
theorem parse_hostport_no_colon (X T : List Char) (ludp d : LDAPURLDesc) (host : List Char)
    (h0 : NUL ∉ X)
    (hpc : '%' ∉ X.takeWhile (fun c => c ≠ '/'))
    (hbr : (X.takeWhile (fun c => c ≠ '/')).head? ≠ some '[')
    (h : parse_hostport (X ++ NUL :: T) ludp = .success d)
    (hhost : d.lud_host = some host) : ':' ∉ host := by
  have hsl := not_mem_takeWhile_slash X
  have h0hp : NUL ∉ X.takeWhile (fun c => c ≠ '/') :=
    fun hm => h0 ((List.takeWhile_prefix _).subset hm)
  generalize hhp : X.takeWhile (fun c => c ≠ '/') = hp at hpc hbr hsl h0hp
  have hpk : peek (hp ++ NUL :: T) 0 ≠ '[' ∧ ∀ T2, peek (hp ++ NUL :: T2) 0 ≠ '[' := by
    have key : ∀ T2, peek (hp ++ NUL :: T2) 0 ≠ '[' := by
      intro T2
      cases hp with
      | nil => simp [peek, NUL]
      | cons c hp =>
        intro hc
        apply hbr
        simp only [peek, List.cons_append, List.getElem?_cons_zero, Option.getD_some] at hc
        simp [hc]
    exact ⟨key T, key⟩
  rcases takeWhile_split X with ⟨hX, hXsl⟩ | ⟨r, hX⟩
  · -- no '/'
    rw [hhp] at hX
    rw [hX] at h
    unfold parse_hostport at h
    rw [strchr0_none '/' hp T hsl (by decide)] at h
    simp only [hpk.1, if_false] at h
    exact parse_port_host_no_colon hp T none ludp d host hpc h0hp hbr h hhost
  · rw [hhp] at hX
    have hb : X ++ NUL :: T = hp ++ '/' :: (r ++ NUL :: T) := by
      rw [hX]; simp
    rw [hb] at h
    unfold parse_hostport at h
    rw [strchr0_found '/' hp _ hsl h0hp] at h
    simp only at h
    rw [set_at hp '/' NUL _ hp.length rfl] at h
    simp only [hpk.2 (r ++ NUL :: T), if_false] at h
    exact parse_port_host_no_colon hp _ _ ludp d host hpc h0hp hbr h hhost

theorem NUL_not_mem_strOf (l : List Char) : NUL ∉ strOf l := by
  induction l with
  | nil => simp [strOf]
  | cons c l ih =>
    by_cases hc : c = NUL
    · simp [strOf, hc]
    · simp only [strOf, hc, if_false, List.mem_cons, not_or]
      exact ⟨fun h => hc h.symm, ih⟩

theorem takeWhile_append_prefix (p : Char → Bool) (a b : List Char) :
    ∃ s, (a ++ b).takeWhile p = a.takeWhile p ++ s := by
  induction a with
  | nil => exact ⟨b.takeWhile p, by simp⟩
  | cons x a ih =>
    obtain ⟨s, hs⟩ := ih
    by_cases hx : p x = true
    · exact ⟨s, by simp [List.takeWhile, hx, hs]⟩
    · exact ⟨[], by simp [List.takeWhile, hx]⟩

/-- The code behind the scheme prefix: with a hostport token free of escapes
that does not start with `[`, the host of a successful parse holds no `:`. -/
theorem parse_enclosure_no_colon (X : List Char) (enclosed : Bool) (scheme : List Char)
    (d : LDAPURLDesc) (host : List Char) (h0 : NUL ∉ X)
    (hpc : '%' ∉ X.takeWhile (fun c => c ≠ '/'))
    (hbr : (X.takeWhile (fun c => c ≠ '/')).head? ≠ some '[')
    (h : parse_enclosure (X ++ [NUL]) enclosed scheme = .success d)
    (hhost : d.lud_host = some host) : ':' ∉ host := by
  unfold parse_enclosure at h
  cases enclosed with
  | false =>
    simp only [Bool.false_eq_true, if_false] at h
    exact parse_hostport_no_colon X [] _ d host h0 hpc hbr h hhost
  | true =>
    simp only [if_true, cstr0 X [] h0] at h
    split at h
    · cases h
    · split at h
      · cases h
      · rename_i hn _
        obtain ⟨init, l, hX⟩ : ∃ init l, X = init ++ [l] := by
          cases hd : X.reverse with
          | nil => simp at hd; simp [hd] at hn
          | cons l r =>
            refine ⟨r.reverse, l, ?_⟩
            have := congrArg List.reverse hd
            simpa using this
        have hset : (X ++ [NUL]).set (X.length - 1) NUL = init ++ NUL :: [NUL] := by
          have : X ++ [NUL] = init ++ l :: [NUL] := by rw [hX]; simp
          rw [this]
          exact set_at init l NUL [NUL] _ (by rw [hX]; simp)
        rw [hset] at h
        have h0i : NUL ∉ init := fun hm => h0 (by rw [hX]; simp [hm])
        obtain ⟨s, hs⟩ := takeWhile_append_prefix (fun c => decide (c ≠ '/')) init [l]
        rw [hX, hs] at hpc hbr
        have hpci : '%' ∉ init.takeWhile (fun c => c ≠ '/') :=
          fun hm => hpc (List.mem_append_left s hm)
        have hbri : (init.takeWhile (fun c => c ≠ '/')).head? ≠ some '[' := by
          cases hi : init.takeWhile (fun c => decide (c ≠ '/')) with
          | nil => simp
          | cons c t =>
            rw [hi] at hbr
            simpa using hbr
        exact parse_hostport_no_colon init [NUL] _ d host h0i hpci hbri h hhost

/-- C15, counterexample: the hostport token `a%3Ab` of `ldap://a%3Ab/` does
not start with `[`, the parse succeeds, and the host of the descriptor is
`a:b`: the escape `%3A` decodes to a `:` in the host. -/
theorem C15_counterexample :
    hostportOf "ldap://a%3Ab/".toList = some "a%3Ab".toList
      ∧ ldap_url_parse (some "ldap://a%3Ab/".toList) true
          = .success { lud_scheme := some "ldap".toList
                       lud_host := some "a:b".toList
                       lud_port := 389
                       lud_dn := some []
                       lud_attrs := none
                       lud_scope := LDAP_SCOPE_BASE
                       lud_filter := none
                       lud_exts := none }
      ∧ ':' ∈ "a:b".toList := by
  decide

/-- C15, amended: for every input text on which `ldap_url_parse` succeeds and
whose hostport token (the text behind the scheme prefix up to the first `/`)
does not start with `[` and holds no `%`, the host of the returned descriptor
holds no `:` character. -/
theorem C15_host_no_colon (url hp : List Char) (d : LDAPURLDesc) (host : List Char)
    (hhp : hostportOf url = some hp) (hbr : hp.head? ≠ some '[') (hpc : '%' ∉ hp)
    (hs : ldap_url_parse (some url) true = .success d)
    (hhost : d.lud_host = some host) : ':' ∉ host := by
  unfold hostportOf at hhp
  unfold ldap_url_parse at hs
  cases hsk : skip_url_prefix (some url) with
  | none => rw [hsk] at hhp; cases hhp
  | some r =>
    obtain ⟨rest, enclosed, scheme⟩ := r
    rw [hsk] at hhp hs
    simp only [Option.some.injEq] at hhp
    subst hhp
    simp only [reduceCtorEq, false_and, if_false, Bool.true_eq_false] at hs
    exact parse_enclosure_no_colon (strOf rest) enclosed scheme d host
      (NUL_not_mem_strOf rest) hpc hbr hs hhost

theorem C15_host_no_colon_witness :
    hostportOf "ldap://host:389/dc=x".toList = some "host:389".toList
      ∧ ldap_url_parse (some "ldap://host:389/dc=x".toList) true
          = .success { lud_scheme := some "ldap".toList
                       lud_host := some "host".toList
                       lud_port := 389
                       lud_dn := some "dc=x".toList
                       lud_attrs := none
                       lud_scope := LDAP_SCOPE_BASE
                       lud_filter := none
                       lud_exts := none }
      ∧ ':' ∉ "host".toList :=
  ⟨by decide, by decide,
   C15_host_no_colon "ldap://host:389/dc=x".toList "host:389".toList
    { lud_scheme := some "ldap".toList
      lud_host := some "host".toList
      lud_port := 389
      lud_dn := some "dc=x".toList
      lud_attrs := none
      lud_scope := LDAP_SCOPE_BASE
      lud_filter := none
      lud_exts := none } "host".toList
    (by decide) (by decide) (by decide) (by decide) rfl⟩

/-! ## A `NULL` text -/

/-- C21, the failing input: with a `NULL` text and a valid result slot the
test of line 225 (`url_in == NULL && ludpp == NULL`) does not hold, the call
goes on to `skip_url_prefix`, which returns `NULL` for a `NULL` text, and the
result is `LDAP_URL_ERR_BADSCHEME`, not `LDAP_URL_ERR_PARAM`.  Only with both
arguments `NULL` is the result `LDAP_URL_ERR_PARAM`. -/
theorem C21_null_text :
    ldap_url_parse none true = .error LDAP_URL_ERR_BADSCHEME
      ∧ ldap_url_parse none false = .error LDAP_URL_ERR_PARAM := by
  decide

/-! ## Text between `]` and the port -/

/-- Hostport `[h]t:pt` followed by `/`, with `t` free of `:`: the first `:`
behind the `]` starts the port token, and `t` is dropped. -/
theorem hostport_slash_bracket_junk_port (h t pt rest buf : List Char) (ludp : LDAPURLDesc)
    (n : Int)
    (hb : buf = '[' :: (h ++ ']' :: (t ++ ':' :: (pt ++ '/' :: rest))))
    (hsl : '/' ∉ h) (hcl : ']' ∉ h) (hpc : '%' ∉ h) (h0 : NUL ∉ h)
    (htc : ':' ∉ t) (hts : '/' ∉ t) (ht0 : NUL ∉ t)
    (hne : pt ≠ []) (hsl2 : '/' ∉ pt) (hpc2 : '%' ∉ pt) (h02 : NUL ∉ pt)
    (hn : atoi pt = some n) :
    parse_hostport buf ludp
      = parse_dn ('[' :: (h ++ NUL :: (t ++ NUL :: (pt ++ NUL :: rest))))
          (h.length + t.length + pt.length + 4)
          { ludp with lud_port := n, lud_host := some h } := by
  subst hb
  unfold parse_hostport
  have hb1 : '[' :: (h ++ ']' :: (t ++ ':' :: (pt ++ '/' :: rest)))
      = ('[' :: (h ++ ']' :: (t ++ ':' :: pt))) ++ '/' :: rest := by simp
  have hsl3 : '/' ∉ '[' :: (h ++ ']' :: (t ++ ':' :: pt)) := by
    simp only [List.mem_cons, List.mem_append, not_or]
    exact ⟨by decide, hsl, by decide, hts, by decide, hsl2⟩
  have h03 : NUL ∉ '[' :: (h ++ ']' :: (t ++ ':' :: pt)) := by
    simp only [List.mem_cons, List.mem_append, not_or]
    exact ⟨by decide, h0, by decide, ht0, by decide, h02⟩
  rw [hb1, strchr0_found '/' _ rest hsl3 h03]
  simp only
  rw [set_at _ '/' NUL rest _ rfl]
  have hpk : peek ('[' :: (h ++ ']' :: (t ++ ':' :: pt)) ++ NUL :: rest) 0 = '[' := by
    simp [peek]
  simp only [hpk, if_true]
  have hb2 : '[' :: (h ++ ']' :: (t ++ ':' :: pt)) ++ NUL :: rest
      = ('[' :: h) ++ ']' :: (t ++ ':' :: (pt ++ NUL :: rest)) := by simp
  have hcl2 : ']' ∉ '[' :: h := by
    simp only [List.mem_cons, not_or]
    exact ⟨by decide, hcl⟩
  have h04 : NUL ∉ '[' :: h := by
    simp only [List.mem_cons, not_or]
    exact ⟨by decide, h0⟩
  rw [hb2, strchr0_found ']' ('[' :: h) _ hcl2 h04]
  simp only
  rw [set_at ('[' :: h) ']' NUL _ _ rfl]
  have hb3 : ('[' :: h) ++ NUL :: (t ++ ':' :: (pt ++ NUL :: rest))
      = (('[' :: h) ++ [NUL]) ++ t ++ ':' :: (pt ++ NUL :: rest) := by simp
  have hq := strchr_found ':' (('[' :: h) ++ [NUL]) t (pt ++ NUL :: rest)
    (('[' :: h).length + 1) (by simp) htc ht0
  rw [← hb3] at hq
  rw [hq]
  have hb4 : ('[' :: h) ++ NUL :: (t ++ ':' :: (pt ++ NUL :: rest))
      = (('[' :: h) ++ NUL :: t) ++ ':' :: (pt ++ NUL :: rest) := by simp
  rw [hb4, parse_port_some (('[' :: h) ++ NUL :: t) pt rest ':' _ (by simp; omega) _ ludp n
    hne hpc2 h02 hn]
  have hb5 : (('[' :: h) ++ NUL :: t) ++ NUL :: (pt ++ NUL :: rest)
      = '[' :: h ++ NUL :: (t ++ NUL :: (pt ++ NUL :: rest)) := by simp
  rw [hb5, (parse_host_bracket h _ _ _ hpc h0).1]
  simp only [List.cons_append, List.length_cons, List.length_append, List.length_nil]
  congr 1
  omega

/-- Hostport `[h]t` followed by `/`, with `t` free of `:`: no port token is
taken, and `t` is dropped. -/
theorem hostport_slash_bracket_junk (h t rest buf : List Char) (ludp : LDAPURLDesc)
    (hb : buf = '[' :: (h ++ ']' :: (t ++ '/' :: rest)))
    (hsl : '/' ∉ h) (hcl : ']' ∉ h) (hpc : '%' ∉ h) (h0 : NUL ∉ h)
    (htc : ':' ∉ t) (hts : '/' ∉ t) (ht0 : NUL ∉ t) :
    parse_hostport buf ludp
      = parse_dn ('[' :: (h ++ NUL :: (t ++ NUL :: rest))) (h.length + t.length + 3)
          { ludp with lud_host := some h } := by
  subst hb
  unfold parse_hostport
  have hb1 : '[' :: (h ++ ']' :: (t ++ '/' :: rest))
      = ('[' :: (h ++ ']' :: t)) ++ '/' :: rest := by simp
  have hsl3 : '/' ∉ '[' :: (h ++ ']' :: t) := by
    simp only [List.mem_cons, List.mem_append, not_or]
    exact ⟨by decide, hsl, by decide, hts⟩
  have h03 : NUL ∉ '[' :: (h ++ ']' :: t) := by
    simp only [List.mem_cons, List.mem_append, not_or]
    exact ⟨by decide, h0, by decide, ht0⟩
  rw [hb1, strchr0_found '/' _ rest hsl3 h03]
  simp only
  rw [set_at _ '/' NUL rest _ rfl]
  have hpk : peek ('[' :: (h ++ ']' :: t) ++ NUL :: rest) 0 = '[' := by
    simp [peek]
  simp only [hpk, if_true]
  have hb2 : '[' :: (h ++ ']' :: t) ++ NUL :: rest
      = ('[' :: h) ++ ']' :: (t ++ NUL :: rest) := by simp
  have hcl2 : ']' ∉ '[' :: h := by
    simp only [List.mem_cons, not_or]
    exact ⟨by decide, hcl⟩
  have h04 : NUL ∉ '[' :: h := by
    simp only [List.mem_cons, not_or]
    exact ⟨by decide, h0⟩
  rw [hb2, strchr0_found ']' ('[' :: h) _ hcl2 h04]
  simp only
  rw [set_at ('[' :: h) ']' NUL _ _ rfl]
  have hb3 : ('[' :: h) ++ NUL :: (t ++ NUL :: rest)
      = (('[' :: h) ++ [NUL]) ++ t ++ NUL :: rest := by simp
  have hq := strchr_none ':' (('[' :: h) ++ [NUL]) t rest
    (('[' :: h).length + 1) (by simp) htc (by decide)
  rw [← hb3] at hq
  rw [hq]
  unfold parse_port
  simp only
  have hb5 : ('[' :: h) ++ NUL :: (t ++ NUL :: rest)
      = '[' :: h ++ NUL :: (t ++ NUL :: rest) := by simp
  rw [hb5, (parse_host_bracket h _ _ _ hpc h0).1]
  simp only [List.cons_append, List.length_cons, List.length_append, List.length_nil]
  congr 1

/-- Text behind the `]` without a port: when the text `t` behind the `]`
holds no `:` at all, `ldap://[h]t/d` parses with host `h`, the port of the scheme and dn
`d`. -/
theorem bracket_junk_default_port (h t d : List Char)
    (hh : ∀ c ∈ h, c ∉ [']', '/', '%', NUL])
    (ht : ∀ c ∈ t, c ∉ [':', '/', NUL])
    (hd : ∀ c ∈ d, c ∉ ['?', '%', NUL]) :
    ldap_url_parse (some ("ldap://".toList ++ '[' :: (h ++ ']' :: (t ++ '/' :: d)))) true
      = .success
          { lud_scheme := some "ldap".toList
            lud_host := some h
            lud_port := LDAP_PORT
            lud_dn := some d
            lud_attrs := none
            lud_scope := LDAP_SCOPE_BASE
            lud_filter := none
            lud_exts := none } := by
  have hcl : ']' ∉ h := not_mem_of_forall hh (by simp)
  have hsl : '/' ∉ h := not_mem_of_forall hh (by simp)
  have hpc : '%' ∉ h := not_mem_of_forall hh (by simp)
  have h0 : NUL ∉ h := not_mem_of_forall hh (by simp)
  have htc : ':' ∉ t := not_mem_of_forall ht (by simp)
  have hts : '/' ∉ t := not_mem_of_forall ht (by simp)
  have ht0 : NUL ∉ t := not_mem_of_forall ht (by simp)
  have hdq : '?' ∉ d := not_mem_of_forall hd (by simp)
  have hdp : '%' ∉ d := not_mem_of_forall hd (by simp)
  have hd0 : NUL ∉ d := not_mem_of_forall hd (by simp)
  have hX0 : NUL ∉ '[' :: (h ++ ']' :: (t ++ '/' :: d)) := by
    simp only [List.mem_cons, List.mem_append, not_or]
    exact ⟨by decide, h0, by decide, ht0, by decide, hd0⟩
  have e := ldap_url_parse_plain "ldap".toList _ (Or.inl rfl) hX0
  have e2 : "ldap".toList ++ "://".toList ++ '[' :: (h ++ ']' :: (t ++ '/' :: d))
      = "ldap://".toList ++ '[' :: (h ++ ']' :: (t ++ '/' :: d)) := rfl
  rw [e2] at e
  rw [e]
  rw [hostport_slash_bracket_junk h t (d ++ [NUL]) _ _ (by simp) hsl hcl hpc h0 htc hts ht0]
  rw [parse_dn_last ('[' :: (h ++ NUL :: (t ++ [NUL]))) d [] _ _ _ (by simp)
    (by simp; omega) hdq hdp hd0]
  rfl

/-- C22, the code at the failing inputs: for every `h` without `]`, every
non-empty `t` that holds no `:` (so does not begin with one) and no `/`, and
every decimal numeral `pt` that fits an `int`, `ldap_url_parse` on
`ldap://[h]t:pt/d` takes `pt` for the port token although the `:` does not
follow the `]` immediately: the port of the descriptor is the value of `pt`,
not the default of the scheme, and `t` is dropped. -/
theorem C22_port_behind_junk (h t pt d : List Char)
    (hh : ∀ c ∈ h, c ∉ [']', '/', '%', NUL])
    (_ : t ≠ []) (ht : ∀ c ∈ t, c ∉ [':', '/', NUL])
    (hpt : isNumeral pt) (hv : numeralValue pt ≤ 2147483647)
    (hd : ∀ c ∈ d, c ∉ ['?', '%', NUL]) :
    ldap_url_parse
        (some ("ldap://".toList ++ '[' :: (h ++ ']' :: (t ++ ':' :: (pt ++ '/' :: d))))) true
      = .success
          { lud_scheme := some "ldap".toList
            lud_host := some h
            lud_port := (numeralValue pt : Int)
            lud_dn := some d
            lud_attrs := none
            lud_scope := LDAP_SCOPE_BASE
            lud_filter := none
            lud_exts := none } := by
  have hcl : ']' ∉ h := not_mem_of_forall hh (by simp)
  have hsl : '/' ∉ h := not_mem_of_forall hh (by simp)
  have hpc : '%' ∉ h := not_mem_of_forall hh (by simp)
  have h0 : NUL ∉ h := not_mem_of_forall hh (by simp)
  have htc : ':' ∉ t := not_mem_of_forall ht (by simp)
  have hts : '/' ∉ t := not_mem_of_forall ht (by simp)
  have ht0 : NUL ∉ t := not_mem_of_forall ht (by simp)
  have hdq : '?' ∉ d := not_mem_of_forall hd (by simp)
  have hdp : '%' ∉ d := not_mem_of_forall hd (by simp)
  have hd0 : NUL ∉ d := not_mem_of_forall hd (by simp)
  obtain ⟨hpne, hpsl, hppc, hp0, _⟩ := numeral_clean pt hpt
  have hv2 : (numeralValue pt : Int) ≤ INT_MAX := by
    unfold INT_MAX
    exact_mod_cast hv
  have hX0 : NUL ∉ '[' :: (h ++ ']' :: (t ++ ':' :: (pt ++ '/' :: d))) := by
    simp only [List.mem_cons, List.mem_append, not_or]
    exact ⟨by decide, h0, by decide, ht0, by decide, hp0, by decide, hd0⟩
  have e := ldap_url_parse_plain "ldap".toList _ (Or.inl rfl) hX0
  have e2 : "ldap".toList ++ "://".toList ++ '[' :: (h ++ ']' :: (t ++ ':' :: (pt ++ '/' :: d)))
      = "ldap://".toList ++ '[' :: (h ++ ']' :: (t ++ ':' :: (pt ++ '/' :: d))) := rfl
  rw [e2] at e
  rw [e]
  rw [hostport_slash_bracket_junk_port h t pt (d ++ [NUL]) _ _ _ (by simp) hsl hcl hpc h0
    htc hts ht0 hpne hpsl hppc hp0 (atoi_numeral pt hpt hv2)]
  rw [parse_dn_last ('[' :: (h ++ NUL :: (t ++ NUL :: (pt ++ [NUL])))) d [] _ _ _ (by simp)
    (by simp; omega) hdq hdp hd0]
  rfl

/-- C22, witness: `ldap://[::1]x:99/dc=x` has port 99, not 389. -/
theorem C22_port_behind_junk_witness :
    ldap_url_parse (some "ldap://[::1]x:99/dc=x".toList) true
      = .success
          { lud_scheme := some "ldap".toList
            lud_host := some "::1".toList
            lud_port := 99
            lud_dn := some "dc=x".toList
            lud_attrs := none
            lud_scope := LDAP_SCOPE_BASE
            lud_filter := none
            lud_exts := none }
      ∧ LDAP_PORT = 389 :=
  ⟨C22_port_behind_junk "::1".toList "x".toList "99".toList "dc=x".toList
    (by decide) (by decide) (by decide) ⟨by decide, by decide⟩ (by decide) (by decide),
   rfl⟩

/-! ## Host lists written and parsed again -/

/-- One round of the loop of `ldap_url_parsehosts` for a token `[a]:p` whose
`a` holds at least one `:`: the `:` before the port is the second one. -/
theorem parsehosts_spec_bracketPort (a p : List Char) (d : Int) (hco : ':' ∈ a)
    (ha : ∀ c ∈ a, c ∉ [']', '%', NUL]) (hp : isNumeral p)
    (hv : numeralValue p ≤ 2147483647) :
    parsehosts_spec ('[' :: a ++ ']' :: ':' :: p) d
      = .ok { lud_scheme := some "ldap".toList, lud_host := some a,
              lud_port := (numeralValue p : Int), lud_dn := none, lud_attrs := none,
              lud_scope := 0, lud_filter := none, lud_exts := none } := by
  have hcl : ']' ∉ a := not_mem_of_forall ha (by simp)
  have hpc : '%' ∉ a := not_mem_of_forall ha (by simp)
  have h0 : NUL ∉ a := not_mem_of_forall ha (by simp)
  obtain ⟨_, _, _, hp0, _⟩ := numeral_clean p hp
  have hv2 : (numeralValue p : Int) ≤ INT_MAX := by
    unfold INT_MAX
    exact_mod_cast hv
  obtain ⟨a1, r, hsplit, hc1, _⟩ := count_split ':' a (List.count_pos_iff.mpr hco)
  have h01 : NUL ∉ a1 := fun h => h0 (by rw [hsplit]; simp [h])
  have h0r : NUL ∉ r := fun h => h0 (by rw [hsplit]; simp [h])
  have hT : ':' ∈ r ++ ']' :: ':' :: p := by simp
  obtain ⟨t1, t2, hTs, hct1, _⟩ := count_split ':' (r ++ ']' :: ':' :: p)
    (List.count_pos_iff.mpr hT)
  have h0T : NUL ∉ r ++ ']' :: ':' :: p := by
    simp only [List.mem_append, List.mem_cons, not_or]
    exact ⟨h0r, by decide, by decide, hp0⟩
  have h0t1 : NUL ∉ t1 := fun h => h0T (by rw [hTs]; simp [h])
  unfold parsehosts_spec
  simp only
  have hb : '[' :: a ++ ']' :: ':' :: p ++ [NUL]
      = ('[' :: a1) ++ ':' :: (t1 ++ ':' :: (t2 ++ [NUL])) := by
    have e : '[' :: a ++ ']' :: ':' :: p ++ [NUL]
        = ('[' :: a1) ++ ':' :: ((r ++ ']' :: ':' :: p) ++ [NUL]) := by
      rw [hsplit]; simp
    rw [e, hTs]; simp
  have hq1 := strchr0_found ':' ('[' :: a1) (t1 ++ ':' :: (t2 ++ [NUL]))
    (by simp only [List.mem_cons, not_or]; exact ⟨by decide, hc1⟩)
    (by simp only [List.mem_cons, not_or]; exact ⟨by decide, h01⟩)
  have hb2 : ('[' :: a1) ++ ':' :: (t1 ++ ':' :: (t2 ++ [NUL]))
      = (('[' :: a1) ++ [':']) ++ t1 ++ ':' :: (t2 ++ [NUL]) := by simp
  have hq2 := strchr_found ':' (('[' :: a1) ++ [':']) t1 (t2 ++ [NUL])
    (('[' :: a1).length + 1) (by simp) hct1 h0t1
  rw [← hb2] at hq2
  have hpk : peek ('[' :: a ++ ']' :: ':' :: p ++ [NUL]) 0 = '[' := by simp [peek]
  have hcs : cstr ('[' :: a ++ ']' :: ':' :: p ++ [NUL]) 1 = a ++ ']' :: ':' :: p := by
    have := cstr_at ['['] (a ++ ']' :: ':' :: p) [] 1 rfl
      (by
        simp only [List.mem_append, List.mem_cons, not_or]
        exact ⟨h0, by decide, by decide, hp0⟩)
    simpa using this
  rw [← hb] at hq1 hq2
  rw [hq1]
  simp only
  rw [hq2]
  simp only [hpk, if_true, hcs]
  have hb3 : a ++ ']' :: ':' :: p ++ [NUL] = a ++ ']' :: (':' :: (p ++ [NUL])) := by simp
  rw [hb3, strchr0_found ']' a _ hcl h0]
  simp only
  rw [set_at a ']' NUL _ a.length rfl]
  have hpk2 : peek (a ++ NUL :: ':' :: (p ++ [NUL])) (a.length + 1) = ':' := by
    have := peek_at (a ++ [NUL]) ':' (p ++ [NUL]) (a.length + 1) (by simp)
    simpa using this
  simp only [hpk2, ne_eq, not_true_eq_false, if_false]
  have hb4 : a ++ NUL :: ':' :: (p ++ [NUL]) = (a ++ [NUL]) ++ ':' :: (p ++ NUL :: []) := by simp
  rw [hb4, parsehosts_port_clean (a ++ [NUL]) p [] ':' (a.length + 1) (by simp) hp hv2]
  have hb5 : (a ++ [NUL]) ++ NUL :: (p ++ NUL :: []) = a ++ NUL :: (NUL :: (p ++ [NUL])) := by simp
  rw [hb5]
  exact parsehosts_finish_clean a _ _ hpc h0

/-- One round of the loop of `ldap_url_parsehosts` for a token that
`ldap_url_list2hosts` wrote. -/
theorem parsehosts_spec_hostToken (h : List Char) (n : Nat) (d : Int)
    (hh : ∀ c ∈ h, c ∉ [',', ' ', '%', '[', ']', NUL]) (hn : n ≤ 65535) :
    parsehosts_spec (hostToken h n) d = .ok (hostDesc h n) := by
  have hv : numeralValue (decimal n) ≤ 2147483647 := by
    rw [numeralValue_decimal]; omega
  unfold hostToken hostDesc
  by_cases hco : ':' ∈ h
  · rw [if_pos hco]
    have e : '[' :: h ++ [']'] ++ ':' :: decimal n = '[' :: h ++ ']' :: ':' :: decimal n := by
      simp
    rw [e, parsehosts_spec_bracketPort h (decimal n) d hco
      (fun c hc hm => hh c hc (by
        simp only [List.mem_cons, List.mem_singleton, List.not_mem_nil, or_false] at hm ⊢
        rcases hm with hm | hm | hm
        · exact Or.inr (Or.inr (Or.inr (Or.inr (Or.inl hm))))
        · exact Or.inr (Or.inr (Or.inl hm))
        · exact Or.inr (Or.inr (Or.inr (Or.inr (Or.inr hm))))))
      (decimal_isNumeral n) hv, numeralValue_decimal]
    rfl
  · rw [if_neg hco]
    have hwf : (HostSpec.withPort h (decimal n)).wellFormed := by
      simp only [HostSpec.wellFormed]
      refine ⟨?_, decimal_isNumeral n, hv⟩
      intro c hc hm
      simp only [List.mem_cons, List.mem_singleton, List.not_mem_nil, or_false] at hm
      rcases hm with hm | hm | hm | hm | hm
      · exact hco (hm ▸ hc)
      · exact hh c hc (by simp [hm])
      · exact hh c hc (by simp [hm])
      · exact hh c hc (by simp [hm])
      · exact hh c hc (by simp [hm])
    have := parsehosts_spec_wellFormed (.withPort h (decimal n)) d hwf
    simp only [HostSpec.text, HostSpec.desc, numeralValue_decimal] at this
    exact this

/-- The loop of `ldap_url_parsehosts` over tokens that `ldap_url_list2hosts`
wrote. -/
theorem parsehosts_loop_hostTokens (hn : List (List Char × Nat)) (d : Int) :
    ∀ acc : List LDAPURLDesc,
      (∀ p ∈ hn, (∀ c ∈ p.1, c ∉ [',', ' ', '%', '[', ']', NUL]) ∧ p.2 ≤ 65535) →
      parsehosts_loop (hn.map (fun p => hostToken p.1 p.2)) d acc
        = .success ((hn.map (fun p => hostDesc p.1 p.2)).reverse ++ acc) := by
  induction hn with
  | nil => intro acc _; rfl
  | cons s hn ih =>
    intro acc h
    have h1 := parsehosts_spec_hostToken s.1 s.2 d (h s (by simp)).1 (h s (by simp)).2
    have h2 := ih (hostDesc s.1 s.2 :: acc) (fun x hx => h x (by simp [hx]))
    rw [List.map_cons, parsehosts_loop, h1]
    simp only
    rw [h2]
    simp

/-- The entries of `a1 a2 ... an`, split at the break characters, are `a1`,
..., `an`, when no entry is empty or holds a break character. -/
theorem str2charray_loop_join_brk (brk : List Char) (sep : Char) (hsep : sep ∈ brk)
    (as : List (List Char)) :
    (∀ a ∈ as, a ≠ [] ∧ ∀ c ∈ a, c ∉ brk) →
      str2charray_loop brk (joinWith sep as) [] = as := by
  induction as with
  | nil => intro _; simp [joinWith, str2charray_loop]
  | cons a as ih =>
    intro h
    have ha := h a (by simp)
    cases as with
    | nil =>
      have := str2charray_loop_run brk a [] [] ha.2
      simp only [List.append_nil, List.nil_append] at this
      simp [joinWith, this, str2charray_loop, ha.1]
    | cons b rest =>
      have h2 : ∀ x ∈ b :: rest, x ≠ [] ∧ ∀ c ∈ x, c ∉ brk := fun x hx => h x (by simp [hx])
      have := str2charray_loop_run brk a (sep :: joinWith sep (b :: rest)) [] ha.2
      simp only [List.nil_append] at this
      simp only [joinWith]
      rw [this]
      simp only [str2charray_loop, hsep, if_true, ha.1, if_false]
      rw [ih h2]

theorem not_mem_hostToken (h : List Char) (n : Nat) (x : Char) (hxh : x ∉ h)
    (hx1 : x ≠ '[') (hx2 : x ≠ ']') (hx3 : x ≠ ':') (hxd : isdigit x = false) :
    x ∉ hostToken h n := by
  have hxdec : x ∉ decimal n := digit_mem_ne _ (decimal_isNumeral n).2 x hxd
  unfold hostToken
  by_cases hco : ':' ∈ h
  · rw [if_pos hco]
    simp only [List.cons_append, List.mem_cons, List.mem_append, List.mem_singleton,
      List.not_mem_nil, or_false, not_or]
    exact ⟨hx1, ⟨hxh, hx2⟩, hx3, hxdec⟩
  · rw [if_neg hco]
    simp only [List.mem_cons, List.mem_append, not_or]
    exact ⟨hxh, hx3, hxdec⟩

/-- A token that `ldap_url_list2hosts` wrote is not empty and holds no break
character and no terminator. -/
theorem hostToken_clean (h : List Char) (n : Nat)
    (hh : ∀ c ∈ h, c ∉ [',', ' ', '%', '[', ']', NUL]) :
    hostToken h n ≠ [] ∧ (∀ c ∈ hostToken h n, c ∉ [',', ' ']) ∧ NUL ∉ hostToken h n := by
  refine ⟨by simp [hostToken], ?_, ?_⟩
  · intro c hc hm
    simp only [List.mem_cons, List.mem_singleton, List.not_mem_nil, or_false] at hm
    rcases hm with hm | hm
    · subst hm
      exact not_mem_hostToken h n ',' (not_mem_of_forall hh (by simp)) (by decide) (by decide)
        (by decide) (by decide) hc
    · subst hm
      exact not_mem_hostToken h n ' ' (not_mem_of_forall hh (by simp)) (by decide) (by decide)
        (by decide) (by decide) hc
  · exact not_mem_hostToken h n NUL (not_mem_of_forall hh (by simp)) (by decide) (by decide)
      (by decide) (by decide)

/-- What the second loop of `ldap_url_list2hosts` writes for nodes with the
hosts and the ports, none zero, of `hn`: the tokens, a space after each. -/
theorem list2hosts_loop_tokens (hn : List (List Char × Nat)) :
    ∀ l : List LDAPURLDesc,
      l.map (fun x => (x.lud_host, x.lud_port)) = hn.map (fun p => (some p.1, (p.2 : Int))) →
      hn ≠ [] → (∀ p ∈ hn, 1 ≤ p.2) →
      list2hosts_loop l
        = some (joinWith ' ' (hn.map (fun p => hostToken p.1 p.2)) ++ [' ']) := by
  induction hn with
  | nil => intro l _ h; exact absurd rfl h
  | cons p hn ih =>
    intro l hmap _ hpos
    cases l with
    | nil => simp at hmap
    | cons x l =>
      simp only [List.map_cons, List.cons.injEq, Prod.mk.injEq] at hmap
      obtain ⟨⟨hxh, hxp⟩, hrest⟩ := hmap
      have hp1 : 1 ≤ p.2 := hpos p (by simp)
      have hp0 : p.2 ≠ 0 := by omega
      have hport : x.lud_port ≠ 0 := by rw [hxp]; exact_mod_cast (by omega : p.2 ≠ 0)
      cases hn with
      | nil =>
        have hl : l = [] := by
          cases l with
          | nil => rfl
          | cons y l => simp at hrest
        subst hl
        simp only [list2hosts_loop, hxh, hport, ne_eq, not_false_eq_true, if_true, hxp,
          sprintf_d_nat, List.map_cons, List.map_nil, joinWith, hostToken]
        simp [hp0]
      | cons q hn =>
        have := ih l hrest (by simp) (fun r hr => hpos r (by simp [hr]))
        rw [list2hosts_loop, hxh, this]
        simp only [hport, ne_eq, not_false_eq_true, if_true, hxp, sprintf_d_nat, List.map_cons,
          joinWith, hostToken]
        simp [hp0]

/-- The hosts and ports of a list of descriptors that meets the conditions
of the round trip. -/
theorem hosts_and_ports (l : List LDAPURLDesc) :
    (∀ x ∈ l, ∃ (h : List Char) (n : Nat), x.lud_host = some h ∧ h ≠ []
        ∧ (∀ c ∈ h, c ∉ [',', ' ', '%', '[', ']', NUL])
        ∧ x.lud_port = (n : Int) ∧ 1 ≤ n ∧ n ≤ 65535) →
      ∃ hn : List (List Char × Nat),
        l.map (fun x => (x.lud_host, x.lud_port)) = hn.map (fun p => (some p.1, (p.2 : Int)))
          ∧ ∀ p ∈ hn, (∀ c ∈ p.1, c ∉ [',', ' ', '%', '[', ']', NUL]) ∧ 1 ≤ p.2 ∧ p.2 ≤ 65535 := by
  induction l with
  | nil => intro _; exact ⟨[], rfl, by simp⟩
  | cons x l ih =>
    intro h
    obtain ⟨hh, n, e1, _, e3, e4, e5, e6⟩ := h x (by simp)
    obtain ⟨hn, hm, hg⟩ := ih (fun y hy => h y (by simp [hy]))
    refine ⟨(hh, n) :: hn, by simp [e1, e4, hm], ?_⟩
    intro p hp
    rcases List.mem_cons.mp hp with rfl | hp
    · exact ⟨e3, e5, e6⟩
    · exact hg p hp

/-- C23: host-list round trip.  For every non-empty list of descriptors whose
hosts are non-empty and hold none of `,`, space, `%`, `[`, `]` (`:` allowed)
and whose ports are in `[1, 65535]`, and for every default port `d`,
`ldap_url_list2hosts` returns a text on which `ldap_url_parsehosts` succeeds
and returns a list of the same length with the same host and port at every
position, in the same order. -/
theorem C23_hosts_roundtrip (l : List LDAPURLDesc) (d : Int) (hne : l ≠ [])
    (hl : ∀ x ∈ l, ∃ (h : List Char) (n : Nat), x.lud_host = some h ∧ h ≠ []
        ∧ (∀ c ∈ h, c ∉ [',', ' ', '%', '[', ']', NUL])
        ∧ x.lud_port = (n : Int) ∧ 1 ≤ n ∧ n ≤ 65535) :
    ∃ (s : List Char) (l2 : List LDAPURLDesc),
      ldap_url_list2hosts l = .str s
        ∧ ldap_url_parsehosts (some s) d = .success l2
        ∧ l2.length = l.length
        ∧ l2.map (fun x => (x.lud_host, x.lud_port))
            = l.map (fun x => (x.lud_host, x.lud_port)) := by
  obtain ⟨hn, hmap, hg⟩ := hosts_and_ports l hl
  have hlen : hn.length = l.length := by
    have := congrArg List.length hmap
    simpa using this.symm
  have hnne : hn ≠ [] := by
    intro h
    rw [h] at hlen
    exact hne (List.length_eq_zero.mp hlen.symm)
  have hloop := list2hosts_loop_tokens hn l hmap hnne (fun p hp => (hg p hp).2.1)
  have htok : ∀ a ∈ hn.map (fun p => hostToken p.1 p.2),
      a ≠ [] ∧ ∀ c ∈ a, c ∉ [',', ' '] := by
    intro a ha
    obtain ⟨p, hp, rfl⟩ := List.mem_map.mp ha
    exact ⟨(hostToken_clean p.1 p.2 (hg p hp).1).1, (hostToken_clean p.1 p.2 (hg p hp).1).2.1⟩
  have h0 : NUL ∉ joinWith ' ' (hn.map (fun p => hostToken p.1 p.2)) := by
    apply not_mem_joinWith NUL ' ' (by decide)
    intro a ha
    obtain ⟨p, hp, rfl⟩ := List.mem_map.mp ha
    exact (hostToken_clean p.1 p.2 (hg p hp).1).2.2
  refine ⟨joinWith ' ' (hn.map (fun p => hostToken p.1 p.2)),
    hn.map (fun p => hostDesc p.1 p.2), ?_, ?_, by simp [hlen], ?_⟩
  · unfold ldap_url_list2hosts
    rw [if_neg hne, hloop]
    simp
  · unfold ldap_url_parsehosts ldap_str2charray
    simp only
    rw [strOf_eq_self _ h0, str2charray_loop_join_brk [',', ' '] ' ' (by simp) _ htok,
      ← List.map_reverse,
      parsehosts_loop_hostTokens hn.reverse d [] (fun p hp =>
        ⟨(hg p (List.mem_reverse.mp hp)).1, (hg p (List.mem_reverse.mp hp)).2.2⟩)]
    simp
  · rw [hmap]
    simp [hostDesc]

/-- C23, witness: the list of `a:b` with port 80 and `host` with port 389 is
written as `[a:b]:80 host:389` and parsed back, with default port 7. -/
theorem C23_hosts_roundtrip_witness :
    (∃ (s : List Char) (l2 : List LDAPURLDesc),
      ldap_url_list2hosts [hostDesc "a:b".toList 80, hostDesc "host".toList 389] = .str s
        ∧ ldap_url_parsehosts (some s) 7 = .success l2
        ∧ l2.length = [hostDesc "a:b".toList 80, hostDesc "host".toList 389].length
        ∧ l2.map (fun x => (x.lud_host, x.lud_port))
            = [hostDesc "a:b".toList 80, hostDesc "host".toList 389].map
                (fun x => (x.lud_host, x.lud_port)))
      ∧ ldap_url_list2hosts [hostDesc "a:b".toList 80, hostDesc "host".toList 389]
          = .str "[a:b]:80 host:389".toList
      ∧ ldap_url_parsehosts (some "[a:b]:80 host:389".toList) 7
          = .success [hostDesc "a:b".toList 80, hostDesc "host".toList 389] :=
  ⟨C23_hosts_roundtrip [hostDesc "a:b".toList 80, hostDesc "host".toList 389] 7 (by simp)
    (by
      intro x hx
      simp only [List.mem_cons, List.mem_singleton, List.not_mem_nil, or_false] at hx
      rcases hx with rfl | rfl
      · exact ⟨"a:b".toList, 80, rfl, by decide, by decide, rfl, by decide, by decide⟩
      · exact ⟨"host".toList, 389, rfl, by decide, by decide, rfl, by decide, by decide⟩),
   by decide, by decide⟩

end LdapUrl
